import Mathlib

/-!
# ethcracker: candidate generation engine

A shallow embedding of `main.go` of lexansoft/ethcracker (template parsing,
the mixed-radix enumeration of selection vectors, the precomputed `Total`,
the permutation generator `AllPermutations`, the length filter `test`, the
`start_from` computation and the loop over a variant list), followed by the
properties proved about it.

Conventions of the embedding.

* A Go `string` is a sequence of bytes: `GoString := List (Fin 256)`;
  `len(s)` is the length of that list.
* A Go `int` is a 64-bit two's complement integer.  It is modelled by an
  `Int`, and every arithmetic result is reduced by `wrapInt`.
* Slice indices and selection indices are lengths or positions inside a
  slice; they are modelled by `Nat`.
* Global variables (`params`, the flags, `templates`, `templates_flags`)
  become explicit arguments; the effects of `test` (Validator calls, channel
  sends, dump writes, progress messages, a run-time panic) are recorded in
  the state `St`.
-/

namespace Ethcracker

/-! ## Strings and machine integers -/

/-- One byte of a Go string. -/
abbrev Byte := Fin 256

/-- A Go string: an immutable sequence of bytes. -/
abbrev GoString := List Byte

/-- Reduction of a mathematical integer to Go's `int` (64-bit two's
complement): the representative of `x` modulo `2^64` in `[-2^63, 2^63)`. -/
def wrapInt (x : Int) : Int :=
  (x + 9223372036854775808) % 18446744073709551616 - 9223372036854775808

/-- Largest value of a Go `int`. -/
def maxInt : Int := 9223372036854775807

/-- Smallest value of a Go `int`. -/
def minInt : Int := -9223372036854775808

/-- Go's `fact`: `if x == 0 { return 1 }; return x * fact(x-1)`, on the
non-negative arguments it is called with (lengths and slice positions); the
product is a Go `int` product. -/
def fact : Nat → Int
  | 0 => 1
  | x + 1 => wrapInt (((x + 1 : Nat) : Int) * fact x)

/-- Go's `s = s + n` loop over a token list: the concatenation of the
tokens. -/
def concat (l : List GoString) : GoString :=
  l.foldl (fun s n => s ++ n) []

/-! ## The permutation generator -/

/-- Go's `makecopy`: a fresh slice with the same contents. -/
def makecopy (l : List GoString) : List GoString := l

/-- The three assignments `tmp := l[i]; l[i] = l[j]; l[j] = tmp`. -/
def swapAt (l : List GoString) (i j : Nat) : List GoString :=
  match l[i]?, l[j]? with
  | some a, some b => (l.set i b).set j a
  | _, _ => l

/-- The loop `for j := 1; j < r; j++ { swap l[index], l[index+j];
AllPermutations(makecopy(l), index+1) }`: `n` iterations remain, `j` is the
loop variable, `l` the (shared, mutated) slice, `out` the arguments handed to
`test` so far, and `rec c` the arguments that the call
`AllPermutations(c, index+1)` hands to `test`. -/
def swapLoop (rec : List GoString → List (List GoString)) (index : Nat) :
    Nat → Nat → List GoString → List (List GoString) →
      List GoString × List (List GoString)
  | 0, _, l, out => (l, out)
  | n + 1, j, l, out =>
    let l2 := swapAt l index (index + j)
    swapLoop rec index n (j + 1) l2 (out ++ rec (makecopy l2))

/-- Go's `AllPermutations(l, index)` with a recursion budget.  The result is
the contents of the slice `l` when the call returns (the callee writes into the
caller's slice) together with the arguments of the calls to `test`, in the
order in which they are made.  The budget is only inspected when it is zero,
and whenever `len(l) - index ≤ fuel` a zero budget means `index >= len(l)`, in
which case the Go code takes the same branch. -/
def AllPermutationsAux : Nat → List GoString → Nat →
    List GoString × List (List GoString)
  | 0, l, _ => (l, [l])
  | fuel + 1, l, index =>
    if index + 1 ≥ l.length then (l, [l])
    else
      let r := l.length - index
      let p := AllPermutationsAux fuel l (index + 1)
      swapLoop (fun c => (AllPermutationsAux fuel c (index + 1)).2) index (r - 1) 1 p.1 p.2

/-- Go's `AllPermutations(l, index)`: the final contents of `l` and the
arguments handed to `test`, in call order. -/
def AllPermutations (l : List GoString) (index : Nat) :
    List GoString × List (List GoString) :=
  AllPermutationsAux (l.length - index) l index

/-- UTF-8 encoding of an ASCII string literal, used to write examples. -/
def ascii (s : String) : GoString :=
  s.toList.map (fun c => Fin.ofNat c.toNat)

/-! ## Templates, parameters and the run state -/

/-- Go's `TEMP_FLAGS`. -/
structure TEMP_FLAGS where
  UseAlways : Bool
  Capitalize : Bool
  deriving DecidableEq, Repr

/-- One template line after parsing: the entry `templates[i]` together with
the entry `templates_flags[i]` (the two slices are appended to in one place
and always have the same length). -/
structure Group where
  tokens : List GoString
  flags : TEMP_FLAGS
  deriving DecidableEq, Repr

/-- The fields of `keystore.CrackerParams` that `main.go` reads or writes
(the declaration of the type is not part of `main.go`); all are Go `int`s.
`StartTime` only enters the floating-point estimate of the remaining time and
is left out. -/
structure CrackerParams where
  N : Int
  Skipped : Int
  Total : Int
  Start_from : Int
  RE : Int
  V : Int
  deriving DecidableEq, Repr

/-- The command-line flags read by the generation engine: `*min_len`,
`*max_len`, `*n_threads`, `*keep_order`, and whether `*dump != ""`. -/
structure Flags where
  min_len : Int
  max_len : Int
  n_threads : Int
  keep_order : Bool
  dump : Bool
  deriving DecidableEq, Repr

/-- What `test` does with the outside world. -/
inductive Event where
  /-- The call `keystore.Test_pass(&params, s, thread)`. -/
  | validate (s : GoString) (thread : Int)
  /-- The send `chans[chan] <- s`. -/
  | send (chan : Int) (s : GoString)
  /-- The write `f_dump.Write(b)`. -/
  | dumpWrite (b : GoString)
  /-- The message "Skipping first %d -> %d %d%% Skipped: %d ..." with its four
  integer arguments before the time estimate. -/
  | skippingMsg (start_from done percent skipped : Int)
  /-- The message "-----> %d/%d %d%% Skipped: %d ..." with its four integer
  arguments before the time estimate. -/
  | progressMsg (done total percent skipped : Int)
  deriving DecidableEq, Repr

/-- The state of a run: the global `params`, the trace of events so far, and
whether the run has died of a run-time panic (an integer division by zero or
an index out of range). -/
structure St where
  params : CrackerParams
  out : List Event
  halted : Bool
  deriving DecidableEq, Repr

/-- The candidates that were forwarded (to the Validator, to a worker channel
or to the dump file), in order.  A dump write carries the candidate followed
by a newline. -/
def forwarded : List Event → List GoString
  | [] => []
  | Event.validate s _ :: es => s :: forwarded es
  | Event.send _ s :: es => s :: forwarded es
  | Event.dumpWrite b :: es => b.dropLast :: forwarded es
  | _ :: es => forwarded es

/-- Modelled from the spec: `keystore.Test_pass` (the Validator) is called by
`main.go` but defined in the keystore package, whose source is not available.
The spec makes `N` the generated count, mutated "externally by the Validator
once dispatched", and lets the Validator end the process on a match; for a
candidate that does not match, the model counts it in `N` and changes nothing
else.  With several threads the call is made by the worker that receives the
candidate; the model attributes it to the moment of the send. -/
def Test_pass (params : CrackerParams) (_s : GoString) (_thread : Int) : CrackerParams :=
  { params with N := wrapInt (params.N + 1) }

/-- Length of the slice `chans`: it is made, with `*n_threads` channels, only
when `*n_threads > 1`, and is nil otherwise. -/
def chansLen (fl : Flags) : Int := if fl.n_threads > 1 then fl.n_threads else 0

/-- Whether the channel expression `chans[params.N % *n_threads]` evaluates:
the divisor is not zero and the index, which has the sign of `params.N`, lies
within the slice.  Otherwise the run panics (integer division by zero, or
index out of range). -/
def sendIndexOK (fl : Flags) (params : CrackerParams) : Bool :=
  decide (fl.n_threads ≠ 0 ∧ 0 ≤ Int.tmod params.N fl.n_threads ∧
    Int.tmod params.N fl.n_threads < chansLen fl)

/-- Whether the forwarding statements at the end of `test` run without
panic: the candidate goes to the dump file or to the Validator, or the channel
expression of the send evaluates. -/
def canForward (fl : Flags) (params : CrackerParams) : Bool :=
  fl.dump || decide (fl.n_threads = 1) || sendIndexOK fl params

/-- Go's `test(l)`.  The estimate `h` of the remaining time is floating-point
and only printed; the two progress messages are recorded with their integer
arguments.  Integer division by zero panics, and so does the send on a
channel whose index is out of range. -/
def test (fl : Flags) (l : List GoString) (st : St) : St :=
  let s := concat l
  if s = [] then st
  else if (s.length : Int) < fl.min_len ∨ (s.length : Int) > fl.max_len then
    let p : CrackerParams := { st.params with Skipped := wrapInt (st.params.Skipped + 1) }
    let c := wrapInt (p.N + p.Skipped)
    if c > p.Start_from then
      if p.Start_from > 0 ∧ Int.tmod c 100000 = 0 then
        { params := p,
          out := st.out ++ [Event.skippingMsg p.Start_from c
            (wrapInt (Int.tdiv (wrapInt (c * 100)) p.Start_from)) p.Skipped],
          halted := st.halted }
      else { params := p, out := st.out, halted := st.halted }
    else
      if wrapInt (p.RE * 10) = 0 then { params := p, out := st.out, halted := true }
      else if Int.tmod c (wrapInt (p.RE * 10)) = 0 then
        if p.Total = 0 then { params := p, out := st.out, halted := true }
        else
          { params := p,
            out := st.out ++ [Event.progressMsg c p.Total
              (wrapInt (Int.tdiv (wrapInt (c * 100)) p.Total)) p.Skipped],
            halted := st.halted }
      else { params := p, out := st.out, halted := st.halted }
  else if fl.dump then
    { st with out := st.out ++ [Event.dumpWrite (s ++ [10])] }
  else if fl.n_threads = 1 then
    { st with params := Test_pass st.params s 0, out := st.out ++ [Event.validate s 0] }
  else if sendIndexOK fl st.params then
    { st with
      params := Test_pass st.params s (Int.tmod st.params.N fl.n_threads),
      out := st.out ++ [Event.send (Int.tmod st.params.N fl.n_threads) s] }
  else { st with halted := true }

/-- The calls `test(c)` for the arguments `c` in `calls`, in order; a panic
ends the run, so nothing is executed in a halted state. -/
def testAll (fl : Flags) (calls : List (List GoString)) (st : St) : St :=
  calls.foldl (fun st c => if st.halted then st else test fl c st) st

/-! ## The mixed-radix walk -/

/-- The value a selection index is reset to: `1` for a `UseAlways` group,
`0` otherwise. -/
def minIndex (g : Group) : Nat := if g.flags.UseAlways then 1 else 0

/-- The initialisation `indexes := make([]int, len(templates))` followed by
`indexes[i] = 1` for the `UseAlways` groups. -/
def initIndexes (tpl : List Group) : List Nat := tpl.map minIndex

/-- The loop that collects `letters`: for each `i` with `indexes[i] > 0` the
token `templates[i][indexes[i]-1]`; `none` is the index-out-of-range panic. -/
def selectLetters : List Group → List Nat → Option (List GoString)
  | g :: gs, k :: ks =>
    if k > 0 then
      match g.tokens[k - 1]? with
      | none => none
      | some t => (selectLetters gs ks).map (fun r => t :: r)
    else selectLetters gs ks
  | _, _ => some []

/-- The carry loop `for i := 0; i < len(indexes); i++ { ... }` that ends an
iteration of both the tally loop and the generation loop, read from position
`i` on (`g :: gs` are `templates[i:]`, `k :: ks` are `indexes[i:]`).  The result
is the new `indexes[i:]` and whether the labelled `break` that leaves the
outer loop was executed; `i == len(templates)-1` holds exactly when `gs` is
empty. -/
def advance : List Group → List Nat → List Nat × Bool
  | g :: gs, k :: ks =>
    if k < g.tokens.length then ((k + 1) :: ks, false)
    else if gs.isEmpty then (minIndex g :: ks, true)
    else ((minIndex g) :: (advance gs ks).1, (advance gs ks).2)
  | _, ks => (ks, false)

/-- The loop `for _, k := range indexes { if k != 0 { not_zero++ } }`. -/
def notZero (indexes : List Nat) : Nat :=
  indexes.foldl (fun n k => if k ≠ 0 then n + 1 else n) 0

/-- The statement `counters[not_zero]++`. -/
def bump (counters : List Int) (i : Nat) : List Int :=
  match counters[i]? with
  | some c => counters.set i (wrapInt (c + 1))
  | none => counters

/-- The tally loop (label `counter`): `none` when the budget of iterations
is used up before the loop exits. -/
def tallyLoop (tpl : List Group) : Nat → List Nat → List Int → Option (List Int)
  | 0, _, _ => none
  | fuel + 1, indexes, counters =>
    let counters1 := bump counters (notZero indexes)
    let r := advance tpl indexes
    if r.2 then some counters1 else tallyLoop tpl fuel r.1 counters1

/-- The loop `for i, c := range counters { params.Total += c * fact(i) }`,
from position `i` on. -/
def sumCounters : List Int → Nat → Int → Int
  | [], _, total => total
  | c :: cs, i, total => sumCounters cs (i + 1) (wrapInt (total + wrapInt (c * fact i)))

/-- The precomputed `params.Total` in unordered mode: the tally loop started
from the initial `indexes` and all counters zero, then the weighted sum. -/
def unorderedTotal (tpl : List Group) (fuel : Nat) : Option Int :=
  (tallyLoop tpl fuel (initIndexes tpl) (List.replicate (tpl.length + 1) 0)).map
    (fun counters => sumCounters counters 0 0)

/-- One iteration of the loop that computes `params.Total` in keep-order
mode, on the pair (`params.Total`, `a_exists`).  `len(templates[i]) + 1` does
not overflow, a slice being shorter than `2^63 - 1`. -/
def orderedStep (acc : Int × Bool) (g : Group) : Int × Bool :=
  if g.flags.UseAlways then (wrapInt (acc.1 * (g.tokens.length : Int)), true)
  else (wrapInt (acc.1 * ((g.tokens.length : Int) + 1)), acc.2)

/-- The precomputed `params.Total` in keep-order mode. -/
def orderedTotal (tpl : List Group) : Int :=
  let r := tpl.foldl orderedStep (1, false)
  if !r.2 then wrapInt (r.1 - 1) else r.1

/-! ## The generation loop -/

/-- What one iteration of the generation loop does with the selected
`letters`: `test(letters)` in keep-order mode; otherwise the length check
before permuting, which either adds `fact(len(letters))` to `Skipped` or calls
`AllPermutations(letters, 0)`.  (The diagnostics printed at verbosity 2 are
not recorded.) -/
def processSelection (fl : Flags) (letters : List GoString) (st : St) : St :=
  if fl.keep_order then test fl letters st
  else
    if ((concat letters).length : Int) > fl.max_len then
      { st with params :=
          { st.params with Skipped := wrapInt (st.params.Skipped + fact letters.length) } }
    else testAll fl (AllPermutations letters 0).2 st

/-- The generation loop (label `main`) with a budget of iterations: `none`
when the budget is used up before the loop exits, otherwise the state in which
the loop was left (by the labelled `break`, or by a panic). -/
def mainLoop (fl : Flags) (tpl : List Group) : Nat → List Nat → St → Option St
  | 0, _, _ => none
  | fuel + 1, indexes, st =>
    match selectLetters tpl indexes with
    | none => some { st with halted := true }
    | some letters =>
      let st1 := processSelection fl letters st
      if st1.halted then some st1
      else
        let r := advance tpl indexes
        if r.2 then some st1 else mainLoop fl tpl fuel r.1 st1

/-- The generation phase of `main` for a template: `indexes` is initialised
anew and the loop is run. -/
def generate (fl : Flags) (tpl : List Group) (fuel : Nat) (st : St) : Option St :=
  mainLoop fl tpl fuel (initIndexes tpl) st

/-! ## The resume offset -/

/-- Value of a non-empty sequence of ASCII decimal digits. -/
def digitsValue : List Byte → Nat → Option Nat
  | [], acc => some acc
  | c :: cs, acc =>
    if 48 ≤ c.val ∧ c.val ≤ 57 then digitsValue cs (acc * 10 + (c.val - 48)) else none

/-- Go's `strconv.Atoi` (standard library): an optional sign `+` or `-`, then
at least one decimal digit and nothing else; a value outside the range of
`int` is an error.  `none` stands for a non-nil `err`. -/
def Atoi (s : GoString) : Option Int :=
  match s with
  | [] => none
  | c :: cs =>
    if c = 45 then
      if cs = [] then none
      else match digitsValue cs 0 with
        | some n => if (n : Int) ≤ 9223372036854775808 then some (-(n : Int)) else none
        | none => none
    else
      let ds := if c = 43 then cs else c :: cs
      if ds = [] then none
      else match digitsValue ds 0 with
        | some n => if (n : Int) ≤ 9223372036854775807 then some (n : Int) else none
        | none => none

/-- Go's `strings.HasSuffix(s, "%")`. -/
def hasPercentSuffix (s : GoString) : Bool := s.getLast? = some 37

/-- The computation of `params.Start_from` from `params.Total` and the flag
`*start_from`; `none` stands for the `panic` that aborts the process. -/
def startFrom (Total : Int) (start_from : GoString) : Option Int :=
  if hasPercentSuffix start_from then
    match Atoi (start_from.take (start_from.length - 1)) with
    | none => none
    | some p =>
      if p < 0 ∨ p ≥ 100 then none
      else some (wrapInt (Int.tdiv (wrapInt (Total * p)) 100))
  else Atoi start_from

/-! ## Template parsing -/

/-- Go's `safe_add`: append `s` unless it is already an element. -/
def safe_add (a : List GoString) (s : GoString) : List GoString :=
  if s ∈ a then a else a ++ [s]

/-- Go's `strings.Split(s, " ")`, reading `s` from the left with the piece
`cur` in progress: the pieces between consecutive spaces, empty pieces
included. -/
def splitAux : GoString → GoString → List GoString
  | cur, [] => [cur]
  | cur, c :: cs => if c = 32 then cur :: splitAux [] cs else splitAux (cur ++ [c]) cs

/-- Go's `strings.Split(s, " ")`. -/
def Split (s : GoString) : List GoString := splitAux [] s

/-- Go's `strings.Replace(x, "\\s", " ", -1)`: every non-overlapping
occurrence of backslash-`s`, found from the left, becomes one space. -/
def Replace : GoString → GoString
  | [] => []
  | [c] => [c]
  | c :: d :: rest =>
    if c = 92 ∧ d = 115 then 32 :: Replace rest else c :: Replace (d :: rest)

/-- Go's `strings.HasPrefix(s, "~")`. -/
def hasTildePrefix (s : GoString) : Bool := s.head? = some 126

/-- Go's `strings.Index(s, c)` for a one-byte string `c`: the position of the
first occurrence, or `-1`. -/
def Index (s : GoString) (c : Byte) : Int :=
  if c ∈ s then (s.indexOf c : Int) else -1

/-- A UTF-8 continuation byte. -/
def isCont (b : Byte) : Bool := 128 ≤ b.val ∧ b.val ≤ 191

/-- The rune `[]rune(n)[0]` of a non-empty Go string (standard library
decoding): the code point of a well-formed leading UTF-8 sequence, and
`U+FFFD` when the string does not start with one. -/
def firstRune (n : GoString) : Nat :=
  match n with
  | [] => 65533
  | b0 :: rest =>
    if b0.val < 128 then b0.val
    else if 194 ≤ b0.val ∧ b0.val ≤ 223 then
      match rest with
      | b1 :: _ => if isCont b1 then (b0.val % 32) * 64 + b1.val % 64 else 65533
      | _ => 65533
    else if 224 ≤ b0.val ∧ b0.val ≤ 239 then
      match rest with
      | b1 :: b2 :: _ =>
        if (if b0.val = 224 then 160 else 128) ≤ b1.val ∧
            b1.val ≤ (if b0.val = 237 then 159 else 191) ∧ isCont b2 then
          (b0.val % 16) * 4096 + (b1.val % 64) * 64 + b2.val % 64
        else 65533
      | _ => 65533
    else if 240 ≤ b0.val ∧ b0.val ≤ 244 then
      match rest with
      | b1 :: b2 :: b3 :: _ =>
        if (if b0.val = 240 then 144 else 128) ≤ b1.val ∧
            b1.val ≤ (if b0.val = 244 then 143 else 191) ∧ isCont b2 ∧ isCont b3 then
          (b0.val % 8) * 262144 + (b1.val % 64) * 4096 + (b2.val % 64) * 64 + b3.val % 64
        else 65533
      | _ => 65533
    else 65533

/-- Go's conversion `string(r)` of a rune: its UTF-8 encoding, and the
encoding of `U+FFFD` for a surrogate or a value above `U+10FFFF`. -/
def runeString (r : Nat) : GoString :=
  if r < 128 then [Fin.ofNat r]
  else if r < 2048 then [Fin.ofNat (192 + r / 64), Fin.ofNat (128 + r % 64)]
  else if (55296 ≤ r ∧ r ≤ 57343) ∨ 1114111 < r then [239, 191, 189]
  else if r < 65536 then
    [Fin.ofNat (224 + r / 4096), Fin.ofNat (128 + r / 64 % 64), Fin.ofNat (128 + r % 64)]
  else
    [Fin.ofNat (240 + r / 262144), Fin.ofNat (128 + r / 4096 % 64),
      Fin.ofNat (128 + r / 64 % 64), Fin.ofNat (128 + r % 64)]

/-- The Unicode case tables of Go's standard library for the runes above
ASCII: `unicode.ToUpper` and `unicode.ToLower` look a non-ASCII rune up in
them.  They are not part of the program and are taken as a parameter. -/
structure CaseTables where
  upper : Nat → Nat
  lower : Nat → Nat

/-- Go's `unicode.ToUpper`: the ASCII letters are handled arithmetically,
any other rune by the case tables. -/
def ToUpper (ct : CaseTables) (r : Nat) : Nat :=
  if r ≤ 127 then (if 97 ≤ r ∧ r ≤ 122 then r - 32 else r) else ct.upper r

/-- Go's `unicode.ToLower`. -/
def ToLower (ct : CaseTables) (r : Nat) : Nat :=
  if r ≤ 127 then (if 65 ≤ r ∧ r ≤ 90 then r + 32 else r) else ct.lower r

/-- The expression `string(unicode.ToUpper([]rune(n)[0])) + n[1:]`; `n[1:]`
drops one byte. -/
def upperFirst (ct : CaseTables) (n : GoString) : GoString :=
  runeString (ToUpper ct (firstRune n)) ++ n.drop 1

/-- The expression `string(unicode.ToLower([]rune(n)[0])) + n[1:]`. -/
def lowerFirst (ct : CaseTables) (n : GoString) : GoString :=
  runeString (ToLower ct (firstRune n)) ++ n.drop 1

/-- The loop over the pieces of a line: empty pieces are skipped, the others
go through `safe_add`.  (A piece is never a single space, the line having been
split at the spaces.) -/
def collectTokens (tl : List GoString) : List GoString :=
  tl.foldl (fun templ n => if n = [] then templ else if n = [32] then templ
    else safe_add templ n) []

/-- The loop of the `Capitalize` expansion: for each token its upper-first
and its lower-first variant go through `safe_add`, in this order. -/
def capitalize (ct : CaseTables) (templ : List GoString) : List GoString :=
  templ.foldl (fun t n =>
    if n.length > 0 then safe_add (safe_add t (upperFirst ct n)) (lowerFirst ct n) else t) []

/-- The body of the loop over the lines of the template file: the group that
the line contributes to `templates` and `templates_flags`, if any. -/
def parseLine (ct : CaseTables) (line : GoString) : Option Group :=
  let templ := (collectTokens (Split line)).map Replace
  match templ with
  | [] => none
  | first :: others =>
    if hasTildePrefix first then
      if others = [] then none
      else
        let tf : TEMP_FLAGS :=
          { UseAlways := Index first 97 > 0, Capitalize := Index first 99 > 0 }
        let templ2 := if tf.Capitalize then capitalize ct others else others
        if templ2.length > 0 then some { tokens := templ2, flags := tf } else none
    else
      some { tokens := first :: others, flags := { UseAlways := false, Capitalize := false } }

/-- The template built from the lines of the template file. -/
def parseTemplate (ct : CaseTables) (lines : List GoString) : List Group :=
  lines.filterMap (parseLine ct)

/-! ## Specification-side notions -/

/-- The radix of a group in the mixed-radix walk: `size` for a `UseAlways`
group (values `1..size`), `size + 1` otherwise (values `0..size`). -/
def radix (g : Group) : Nat :=
  if g.flags.UseAlways then g.tokens.length else g.tokens.length + 1

/-- The product of the radices of all groups. -/
def radixProduct (tpl : List Group) : Nat := (tpl.map radix).prod

/-- Whether some group of the template is `UseAlways`. -/
def anyUseAlways (tpl : List Group) : Bool := tpl.any (fun g => g.flags.UseAlways)

/-- The keep-order `Total` in the words of the specification: the product
over all groups of (`size_i` if `UseAlways_i`, else `size_i + 1`), with `1`
subtracted exactly when no group is `UseAlways`. -/
def orderedTotalSpec (tpl : List Group) : Int :=
  (radixProduct tpl : Int) - (if anyUseAlways tpl then 0 else 1)

/-- A valid SelectionVector for a template: one index per group, between
the group's minimum (`1` if `UseAlways`, else `0`) and its size. -/
def validVector : List Group → List Nat → Bool
  | [], [] => true
  | g :: gs, k :: ks =>
    decide (minIndex g ≤ k) && decide (k ≤ g.tokens.length) && validVector gs ks
  | _, _ => false

/-- All valid SelectionVectors of a template, each exactly once: entry `i`
ranges over `1..size_i` if `UseAlways_i`, else over `0..size_i`. -/
def validVectors : List Group → List (List Nat)
  | [] => [[]]
  | g :: gs =>
    (List.range' (minIndex g) (radix g)).flatMap
      (fun k => (validVectors gs).map (fun ks => k :: ks))

/-- The number of non-zero entries of a selection vector, that is, the
number of selected tokens. -/
def selectedCount (v : List Nat) : Nat := v.countP (fun k => k ≠ 0)

/-- The number `C(s)` of valid SelectionVectors that select exactly `s`
tokens. -/
def vectorsSelecting (tpl : List Group) (s : Nat) : Nat :=
  (validVectors tpl).countP (fun v => selectedCount v = s)

/-- The unordered `Total` in the words of the specification: the sum over
`s` of `C(s) * s!`. -/
def unorderedTotalSpec (tpl : List Group) : Nat :=
  ((List.range (tpl.length + 1)).map
    (fun s => vectorsSelecting tpl s * s.factorial)).sum

/-- The position of a selection vector in mixed-radix counting order, group
`0` being the least significant digit. -/
def rank : List Group → List Nat → Nat
  | g :: gs, k :: ks => (k - minIndex g) + radix g * rank gs ks
  | _, _ => 0

/-- The selection vectors visited by the carry loop, started at `v`, until
the labelled `break`; `none` when the budget of iterations is used up
first.  Both the tally loop and the generation loop run over this sequence. -/
def walk (tpl : List Group) : Nat → List Nat → Option (List (List Nat))
  | 0, _ => none
  | fuel + 1, v =>
    if (advance tpl v).2 then some [v]
    else (walk tpl fuel (advance tpl v).1).map (fun w => v :: w)

/-- The body of one iteration of the generation loop at the selection
vector `w`, up to the carry loop: the letters are collected and processed; a
halted run does nothing more. -/
def bodyStep (fl : Flags) (tpl : List Group) (st : St) (w : List Nat) : St :=
  if st.halted then st
  else
    match selectLetters tpl w with
    | none => { st with halted := true }
    | some letters => processSelection fl letters st

/-- A list without its repetitions, every element kept at its first
occurrence (the specification's "duplicates dropped, first-occurrence order
preserved"). -/
def dedupKeepFirst : List GoString → List GoString
  | [] => []
  | x :: xs => x :: (dedupKeepFirst xs).filter (fun y => y ≠ x)

/-! ## The variant list -/

/-- The loop over the lines `pl` of the variant list file (`-l`):
`keystore.Test_pass(&params, np, 0)` with one thread, and the send
`chans[params.N % *n_threads] <- np` otherwise.  No line is filtered.  The
worker that receives a line calls `keystore.Test_pass` on it unless the line
is empty, in which case it takes the line for the stop sentinel and exits.
A panic of the channel expression ends the run.  A later send to a worker that
has exited would block for ever; the workers are not followed here, and the
send is recorded. -/
def listLoop (fl : Flags) : List GoString → St → St
  | [], st => st
  | np :: pl, st =>
    if fl.n_threads = 1 then
      listLoop fl pl
        { st with params := Test_pass st.params np 0, out := st.out ++ [Event.validate np 0] }
    else if sendIndexOK fl st.params then
      if np = [] then
        listLoop fl pl
          { st with out := st.out ++ [Event.send (Int.tmod st.params.N fl.n_threads) np] }
      else
        listLoop fl pl
          { st with
            params := Test_pass st.params np (Int.tmod st.params.N fl.n_threads),
            out := st.out ++ [Event.send (Int.tmod st.params.N fl.n_threads) np] }
    else { st with halted := true }

/-- The strings sent on worker channels, in order. -/
def sentStrings : List Event → List GoString
  | [] => []
  | Event.send _ s :: es => s :: sentStrings es
  | _ :: es => sentStrings es

/-! ## The integer divisions of `test` -/

/-- The divisors of the integer divisions and remainders that `test(l)`
evaluates in the state `st`, in evaluation order: on the skip path `100000`
(only when `Start_from > 0`, the `&&` being short-circuit) and, when the
"Skipping first" message is printed, `Start_from` and the constants of the
time fields (`24*365`, `24`, `60`); or `RE*10` and, when the normal progress
message is printed, `Total` and the same constants; on the forwarding path
with several threads, `*n_threads`. -/
def testDivisors (fl : Flags) (l : List GoString) (st : St) : List Int :=
  let s := concat l
  if s = [] then []
  else if (s.length : Int) < fl.min_len ∨ (s.length : Int) > fl.max_len then
    let p : CrackerParams := { st.params with Skipped := wrapInt (st.params.Skipped + 1) }
    let c := wrapInt (p.N + p.Skipped)
    if c > p.Start_from then
      if p.Start_from > 0 then
        100000 :: (if Int.tmod c 100000 = 0 then [p.Start_from, 8760, 8760, 24, 24, 60] else [])
      else []
    else
      wrapInt (p.RE * 10) ::
        (if wrapInt (p.RE * 10) ≠ 0 ∧ Int.tmod c (wrapInt (p.RE * 10)) = 0 then
          [p.Total, 8760, 8760, 24, 24, 60]
        else [])
  else if fl.dump then []
  else if fl.n_threads = 1 then []
  else [fl.n_threads]

/-- The precomputation of `params.Total` in `main` for a template (no `-l`
list): the product formula in keep-order mode, the tally loop followed by the
sum over the counters otherwise.  `none` means the tally loop is out of
fuel. -/
def templateTotal (fl : Flags) (tpl : List Group) (fuel : Nat) : Option Int :=
  if fl.keep_order then some (orderedTotal tpl) else unorderedTotal tpl fuel

/-! ## Machine integers -/

theorem wrapInt_of_range (x : Int) (h1 : minInt ≤ x) (h2 : x ≤ maxInt) : wrapInt x = x := by
  unfold minInt at h1
  unfold maxInt at h2
  unfold wrapInt
  omega

theorem wrapInt_modEq (x : Int) : wrapInt x ≡ x [ZMOD 18446744073709551616] := by
  unfold wrapInt Int.ModEq
  omega

theorem wrapInt_congr {a b : Int} (h : a ≡ b [ZMOD 18446744073709551616]) :
    wrapInt a = wrapInt b := by
  unfold wrapInt
  unfold Int.ModEq at h
  omega

theorem wrapInt_range (x : Int) : minInt ≤ wrapInt x ∧ wrapInt x ≤ maxInt := by
  unfold wrapInt minInt maxInt
  omega

theorem wrapInt_mul_left (a b : Int) : wrapInt (wrapInt a * b) = wrapInt (a * b) :=
  wrapInt_congr ((wrapInt_modEq a).mul_right b)

theorem wrapInt_mul_right (a b : Int) : wrapInt (a * wrapInt b) = wrapInt (a * b) :=
  wrapInt_congr ((wrapInt_modEq b).mul_left a)

theorem wrapInt_add_left (a b : Int) : wrapInt (wrapInt a + b) = wrapInt (a + b) :=
  wrapInt_congr ((wrapInt_modEq a).add_right b)

theorem wrapInt_add_right (a b : Int) : wrapInt (a + wrapInt b) = wrapInt (a + b) :=
  wrapInt_congr ((wrapInt_modEq b).add_left a)

theorem wrapInt_sub_left (a b : Int) : wrapInt (wrapInt a - b) = wrapInt (a - b) :=
  wrapInt_congr ((wrapInt_modEq a).sub_right b)

theorem wrapInt_idem (a : Int) : wrapInt (wrapInt a) = wrapInt a :=
  wrapInt_congr (wrapInt_modEq a)

/-! ## The keep-order total -/

theorem foldl_orderedStep (tpl : List Group) :
    ∀ (t : Int) (a : Bool),
      wrapInt (tpl.foldl orderedStep (t, a)).1 = wrapInt (t * (radixProduct tpl : Int)) ∧
      (tpl.foldl orderedStep (t, a)).2 = (a || anyUseAlways tpl) := by
  induction tpl with
  | nil => intro t a; simp [radixProduct, anyUseAlways]
  | cons g gs ih =>
    intro t a
    simp only [List.foldl_cons]
    have hprod : radixProduct (g :: gs) = radix g * radixProduct gs := by
      simp [radixProduct]
    by_cases hg : g.flags.UseAlways = true
    · have hstep : orderedStep (t, a) g = (wrapInt (t * (g.tokens.length : Int)), true) := by
        simp [orderedStep, hg]
      have hr : radix g = g.tokens.length := by simp [radix, hg]
      rw [hstep, (ih _ _).1, (ih _ _).2, hprod, hr, wrapInt_mul_left]
      refine ⟨?_, by simp [anyUseAlways, hg]⟩
      push_cast
      rw [mul_assoc]
    · have hstep : orderedStep (t, a) g =
          (wrapInt (t * ((g.tokens.length : Int) + 1)), a) := by
        simp [orderedStep, hg]
      have hr : radix g = g.tokens.length + 1 := by simp [radix, hg]
      rw [hstep, (ih _ _).1, (ih _ _).2, hprod, hr, wrapInt_mul_left]
      refine ⟨?_, by simp [anyUseAlways, hg]⟩
      push_cast
      rw [mul_assoc]

theorem foldl_orderedStep_wrapped (tpl : List Group) :
    ∀ (t : Int) (a : Bool), wrapInt t = t →
      wrapInt (tpl.foldl orderedStep (t, a)).1 = (tpl.foldl orderedStep (t, a)).1 := by
  induction tpl with
  | nil => intro t a ht; simpa using ht
  | cons g gs ih =>
    intro t a _
    simp only [List.foldl_cons]
    by_cases hg : g.flags.UseAlways = true
    · have hstep : orderedStep (t, a) g = (wrapInt (t * (g.tokens.length : Int)), true) := by
        simp [orderedStep, hg]
      rw [hstep]
      exact ih _ _ (wrapInt_idem _)
    · have hstep : orderedStep (t, a) g =
          (wrapInt (t * ((g.tokens.length : Int) + 1)), a) := by
        simp [orderedStep, hg]
      rw [hstep]
      exact ih _ _ (wrapInt_idem _)

/-- The keep-order `Total` is the specification's value reduced to a Go
`int`. -/
theorem orderedTotal_eq_wrap (tpl : List Group) :
    orderedTotal tpl = wrapInt (orderedTotalSpec tpl) := by
  have h := foldl_orderedStep tpl 1 false
  have hw := foldl_orderedStep_wrapped tpl 1 false (by decide)
  unfold orderedTotal orderedTotalSpec
  simp only [h.2, Bool.false_or]
  have h1 := h.1
  rw [one_mul] at h1
  by_cases ha : anyUseAlways tpl = true
  · simp only [ha, Bool.not_true, if_true, sub_zero]
    rw [← h1, hw]
    simp
  · simp only [Bool.not_eq_true] at ha
    simp only [ha, Bool.not_false, if_true]
    rw [← wrapInt_sub_left, h1, wrapInt_sub_left]
    simp

theorem radixProduct_pos_of_not_anyUseAlways (tpl : List Group)
    (h : anyUseAlways tpl = false) : 1 ≤ radixProduct tpl := by
  induction tpl with
  | nil => simp [radixProduct]
  | cons g gs ih =>
    simp only [anyUseAlways, List.any_cons, Bool.or_eq_false_iff] at h
    have h2 : 1 ≤ radixProduct gs := ih (by simpa [anyUseAlways] using h.2)
    have hr : radix g = g.tokens.length + 1 := by simp [radix, h.1]
    have : radixProduct (g :: gs) = radix g * radixProduct gs := by simp [radixProduct]
    rw [this, hr]
    exact Nat.mul_pos (Nat.succ_pos _) h2

theorem orderedTotalSpec_nonneg (tpl : List Group) : 0 ≤ orderedTotalSpec tpl := by
  unfold orderedTotalSpec
  by_cases ha : anyUseAlways tpl = true
  · simp [ha]
  · simp only [Bool.not_eq_true] at ha
    have := radixProduct_pos_of_not_anyUseAlways tpl ha
    simp only [ha]
    simp
    omega

/-- Without overflow the keep-order `Total` is the specification's value. -/
theorem orderedTotal_of_fit (tpl : List Group) (h : (radixProduct tpl : Int) ≤ maxInt) :
    orderedTotal tpl = orderedTotalSpec tpl := by
  rw [orderedTotal_eq_wrap]
  apply wrapInt_of_range
  · have := orderedTotalSpec_nonneg tpl
    unfold minInt
    omega
  · unfold orderedTotalSpec
    split <;> omega

/-- C4 (amended). In keep-order mode, for every template whose product of
radices (`size_i` if `UseAlways_i`, else `size_i + 1`) does not exceed the
largest Go `int`, the precomputed `Total` equals that product, with `1`
subtracted exactly when no group is `UseAlways`; for two groups of sizes 2 and
3 that are not `UseAlways` this gives 11. -/
theorem C4_orderedTotal_no_overflow :
    (∀ tpl : List Group, (radixProduct tpl : Int) ≤ maxInt →
      orderedTotal tpl = orderedTotalSpec tpl) ∧
    orderedTotal
      [⟨[ascii "a", ascii "b"], ⟨false, false⟩⟩,
       ⟨[ascii "x", ascii "y", ascii "z"], ⟨false, false⟩⟩] = 11 :=
  ⟨fun tpl h => orderedTotal_of_fit tpl h, by decide⟩

/-- C4 (amended) at two `UseAlways`-free groups of sizes 2 and 3. -/
theorem C4_orderedTotal_no_overflow_witness :
    orderedTotal
      [⟨[ascii "a", ascii "b"], ⟨false, false⟩⟩,
       ⟨[ascii "x", ascii "y", ascii "z"], ⟨false, false⟩⟩] = (3 * 4 : Nat) - 1 :=
  (C4_orderedTotal_no_overflow.1 _ (by decide)).trans (by decide)

set_option maxRecDepth 100000 in
/-- C4 as stated fails: for 64 groups of one token each, none `UseAlways`,
the product of the radices is `2^64`, so the claim gives `2^64 - 1`, while the
Go `int` computation wraps around to `0` and ends with `Total = -1`. -/
theorem C4_orderedTotal_counterexample :
    orderedTotal (List.replicate 64 ⟨[ascii "a"], ⟨false, false⟩⟩) = -1 ∧
    orderedTotalSpec (List.replicate 64 ⟨[ascii "a"], ⟨false, false⟩⟩) =
      18446744073709551615 := by
  constructor <;> decide

/-! ## Lemmas on swaps -/

theorem perm_cons_set {α : Type} (x b : α) :
    ∀ (t : List α) (j : Nat), t[j]? = some b → (b :: t.set j x).Perm (x :: t)
  | [], j, h => by simp at h
  | y :: t, 0, h => by
    simp at h
    subst h
    simpa using List.Perm.swap x y t
  | y :: t, j + 1, h => by
    simp at h
    have ih := perm_cons_set x b t j h
    simp only [List.set_cons_succ]
    exact (List.Perm.swap y b _).trans (((List.perm_cons y).2 ih).trans (List.Perm.swap x y t))

theorem perm_set_set {α : Type} :
    ∀ (l : List α) (i j : Nat) (a b : α), l[i]? = some a → l[j]? = some b →
      ((l.set i b).set j a).Perm l
  | [], i, j, a, b, h, _ => by simp at h
  | x :: t, 0, 0, a, b, hi, hj => by
    simp at hi hj
    subst hi
    simp
  | x :: t, 0, j + 1, a, b, hi, hj => by
    simp at hi hj
    subst hi
    simpa using perm_cons_set x b t j hj
  | x :: t, i + 1, 0, a, b, hi, hj => by
    simp at hi hj
    subst hj
    simpa using perm_cons_set x a t i hi
  | x :: t, i + 1, j + 1, a, b, hi, hj => by
    simp at hi hj
    simpa using perm_set_set t i j a b hi hj

theorem swapAt_perm (l : List GoString) (i j : Nat) : (swapAt l i j).Perm l := by
  unfold swapAt
  split
  · next a b ha hb => exact perm_set_set l i j a b ha hb
  · exact List.Perm.refl l

theorem swapAt_length (l : List GoString) (i j : Nat) :
    (swapAt l i j).length = l.length :=
  (swapAt_perm l i j).length_eq

theorem swapAt_getElem?_left (l : List GoString) (i j : Nat) (hi : i < l.length)
    (hj : j < l.length) : (swapAt l i j)[i]? = l[j]? := by
  unfold swapAt
  rw [List.getElem?_eq_getElem hi, List.getElem?_eq_getElem hj]
  simp only [List.getElem?_set, List.length_set]
  by_cases hij : j = i
  · subst hij
    simp [hj]
  · simp [hij, hi]

theorem swapAt_getElem?_other (l : List GoString) (i j m : Nat) (hmi : m ≠ i)
    (hmj : m ≠ j) : (swapAt l i j)[m]? = l[m]? := by
  unfold swapAt
  split
  · simp only [List.getElem?_set]
    simp [Ne.symm hmi, Ne.symm hmj]
  · rfl

theorem swapAt_take (l : List GoString) (i j k : Nat) (hi : k ≤ i) (hj : k ≤ j) :
    (swapAt l i j).take k = l.take k := by
  apply List.ext_getElem?
  intro m
  simp only [List.getElem?_take]
  split
  · rw [swapAt_getElem?_other l i j m (by omega) (by omega)]
  · rfl

/-! ## The permutation generator: every ordering, counted -/

theorem swapLoop_out_subset (rec : List GoString → List (List GoString)) (index : Nat) :
    ∀ (n j : Nat) (a : List GoString) (out : List (List GoString)) (q : List GoString),
      q ∈ out → q ∈ (swapLoop rec index n j a out).2
  | 0, _, _, _, _, h => h
  | n + 1, j, a, out, q, h => by
    simp only [swapLoop]
    exact swapLoop_out_subset rec index n (j + 1) _ _ q (List.mem_append_left _ h)

theorem swapLoop_fst (rec : List GoString → List (List GoString)) (index : Nat) :
    ∀ (n j : Nat) (a : List GoString) (out : List (List GoString)),
      (swapLoop rec index n j a out).1.take index = a.take index ∧
        (swapLoop rec index n j a out).1.Perm a
  | 0, _, _, _ => ⟨rfl, List.Perm.refl _⟩
  | n + 1, j, a, out => by
    simp only [swapLoop]
    have ih := swapLoop_fst rec index n (j + 1) (swapAt a index (index + j))
      (out ++ rec (makecopy (swapAt a index (index + j))))
    exact ⟨ih.1.trans (swapAt_take a index (index + j) index (le_refl _) (by omega)),
      ih.2.trans (swapAt_perm a index (index + j))⟩

theorem swapLoop_length (rec : List GoString → List (List GoString)) (index N K : Nat)
    (hrec : ∀ c : List GoString, c.length = N → (rec c).length = K) :
    ∀ (n j : Nat) (a : List GoString) (out : List (List GoString)), a.length = N →
      (swapLoop rec index n j a out).2.length = out.length + n * K
  | 0, _, _, _, _ => by simp [swapLoop]
  | n + 1, j, a, out, ha => by
    simp only [swapLoop]
    have hl : (swapAt a index (index + j)).length = N := by rw [swapAt_length]; exact ha
    rw [swapLoop_length rec index N K hrec n (j + 1) _ _ hl, List.length_append,
      makecopy, hrec _ hl]
    ring

theorem swapLoop_mem (rec : List GoString → List (List GoString)) (index N : Nat)
    (hrec : ∀ c q : List GoString, c.length = N → q.take (index + 1) = c.take (index + 1) →
      q.Perm c → q ∈ rec c) :
    ∀ (n j : Nat) (a : List GoString) (out : List (List GoString)), a.length = N →
      index + j + n ≤ N → 1 ≤ j →
      ∀ (q : List GoString) (m : Nat), j ≤ m → m < j + n → q.take index = a.take index →
        q.Perm a → q[index]? = a[index + m]? → q ∈ (swapLoop rec index n j a out).2
  | 0, j, a, out, _, _, _, q, m, h1, h2, _, _, _ => by omega
  | n + 1, j, a, out, ha, hN, hj, q, m, h1, h2, htake, hperm, hget => by
    simp only [swapLoop]
    have hl : (swapAt a index (index + j)).length = N := by rw [swapAt_length]; exact ha
    have hperm2 : q.Perm (swapAt a index (index + j)) :=
      hperm.trans (swapAt_perm a index (index + j)).symm
    have htake2 : q.take index = (swapAt a index (index + j)).take index :=
      htake.trans (swapAt_take a index (index + j) index (le_refl _) (by omega)).symm
    by_cases hm : m = j
    · subst hm
      apply swapLoop_out_subset
      apply List.mem_append_right
      apply hrec _ _ hl _ hperm2
      rw [List.take_succ, List.take_succ, htake2, hget,
        swapAt_getElem?_left a index (index + m) (by omega) (by omega)]
    · apply swapLoop_mem rec index N hrec n (j + 1) _ _ hl (by omega) (by omega) q m
        (by omega) (by omega) htake2 hperm2
      rw [hget, swapAt_getElem?_other a index (index + j) (index + m) (by omega) (by omega)]

theorem AllPermutationsAux_fst :
    ∀ (fuel : Nat) (l : List GoString) (index : Nat),
      (AllPermutationsAux fuel l index).1.take index = l.take index ∧
        (AllPermutationsAux fuel l index).1.Perm l
  | 0, l, index => ⟨rfl, List.Perm.refl _⟩
  | fuel + 1, l, index => by
    simp only [AllPermutationsAux]
    split
    · exact ⟨rfl, List.Perm.refl _⟩
    · have ih := AllPermutationsAux_fst fuel l (index + 1)
      have hs := swapLoop_fst (fun c => (AllPermutationsAux fuel c (index + 1)).2) index
        (l.length - index - 1) 1 (AllPermutationsAux fuel l (index + 1)).1
        (AllPermutationsAux fuel l (index + 1)).2
      refine ⟨hs.1.trans ?_, hs.2.trans ih.2⟩
      have := congrArg (List.take index) ih.1
      simpa [List.take_take] using this

theorem AllPermutationsAux_length :
    ∀ (fuel : Nat) (l : List GoString) (index : Nat), l.length - index ≤ fuel →
      (AllPermutationsAux fuel l index).2.length = (l.length - index).factorial
  | 0, l, index, h => by
    have : l.length - index = 0 := by omega
    simp [AllPermutationsAux, this]
  | fuel + 1, l, index, h => by
    simp only [AllPermutationsAux]
    split
    · next hb =>
      have : l.length - index = 0 ∨ l.length - index = 1 := by omega
      rcases this with h0 | h0 <;> simp [h0]
    · next hb =>
      have hlen1 : (AllPermutationsAux fuel l (index + 1)).1.length = l.length :=
        (AllPermutationsAux_fst fuel l (index + 1)).2.length_eq
      rw [swapLoop_length (fun c => (AllPermutationsAux fuel c (index + 1)).2) index l.length
        (l.length - (index + 1)).factorial
        (fun c hc => by
          have := AllPermutationsAux_length fuel c (index + 1) (by omega)
          simpa [hc] using this)
        _ _ _ _ hlen1,
        AllPermutationsAux_length fuel l (index + 1) (by omega)]
      obtain ⟨k, hk⟩ : ∃ k, l.length - index = k + 1 := ⟨l.length - index - 1, by omega⟩
      have hk2 : l.length - (index + 1) = k := by omega
      rw [hk, hk2, Nat.factorial_succ]
      simp
      ring

theorem eq_of_take_of_perm_short (l q : List GoString) (index : Nat)
    (hlen : l.length ≤ index + 1) (htake : q.take index = l.take index) (hperm : q.Perm l) :
    q = l := by
  have hql : q.length = l.length := hperm.length_eq
  have h1 : (q.take index ++ q.drop index).Perm (l.take index ++ l.drop index) := by
    simpa [List.take_append_drop] using hperm
  rw [htake] at h1
  have h2 : (q.drop index).Perm (l.drop index) := (List.perm_append_left_iff _).1 h1
  have h3 : q.drop index = l.drop index := by
    have hl1 : (l.drop index).length ≤ 1 := by simp; omega
    match hd : l.drop index, hl1 with
    | [], _ => rw [hd] at h2; exact h2.eq_nil
    | [x], _ => rw [hd] at h2; exact List.perm_singleton.1 h2
    | _ :: _ :: _, h => simp at h
  calc q = q.take index ++ q.drop index := (List.take_append_drop _ _).symm
    _ = l.take index ++ l.drop index := by rw [htake, h3]
    _ = l := List.take_append_drop _ _

theorem AllPermutationsAux_mem :
    ∀ (fuel : Nat) (l : List GoString) (index : Nat), l.length - index ≤ fuel →
      ∀ q : List GoString, q.take index = l.take index → q.Perm l →
        q ∈ (AllPermutationsAux fuel l index).2
  | 0, l, index, h, q, htake, hperm => by
    simp only [AllPermutationsAux, List.mem_singleton]
    exact eq_of_take_of_perm_short l q index (by omega) htake hperm
  | fuel + 1, l, index, h, q, htake, hperm => by
    simp only [AllPermutationsAux]
    split
    · next hb =>
      simp only [List.mem_singleton]
      exact eq_of_take_of_perm_short l q index (by omega) htake hperm
    · next hb =>
      have hfst := AllPermutationsAux_fst fuel l (index + 1)
      have hlen1 : (AllPermutationsAux fuel l (index + 1)).1.length = l.length :=
        hfst.2.length_eq
      have hql : q.length = l.length := hperm.length_eq
      have htk : (AllPermutationsAux fuel l (index + 1)).1.take index = l.take index := by
        have := congrArg (List.take index) hfst.1
        simpa [List.take_take] using this
      have hqp : q.Perm (AllPermutationsAux fuel l (index + 1)).1 := hperm.trans hfst.2.symm
      -- the element of `q` at position `index` occurs in the tail of the mutated slice
      have hdrop : (q.drop index).Perm ((AllPermutationsAux fuel l (index + 1)).1.drop index) := by
        have h1 : (q.take index ++ q.drop index).Perm
            ((AllPermutationsAux fuel l (index + 1)).1.take index ++
              (AllPermutationsAux fuel l (index + 1)).1.drop index) := by
          simpa [List.take_append_drop] using hqp
        rw [htk, htake] at h1
        exact (List.perm_append_left_iff _).1 h1
      have hqi : index < q.length := by omega
      have hmem : q[index] ∈ (AllPermutationsAux fuel l (index + 1)).1.drop index := by
        apply hdrop.subset
        rw [List.drop_eq_getElem_cons hqi]
        exact List.mem_cons_self _ _
      obtain ⟨m, hm⟩ := List.mem_iff_getElem?.1 hmem
      rw [List.getElem?_drop] at hm
      have hmlt : index + m < l.length := by
        rw [← hlen1]
        exact (List.getElem?_eq_some_iff.1 hm).1
      have hget : q[index]? = (AllPermutationsAux fuel l (index + 1)).1[index + m]? := by
        rw [hm, List.getElem?_eq_getElem hqi]
      rcases Nat.eq_zero_or_pos m with h0 | hpos
      · subst h0
        apply swapLoop_out_subset
        apply AllPermutationsAux_mem fuel l (index + 1) (by omega) q _ hperm
        have hli : (AllPermutationsAux fuel l (index + 1)).1[index]? = l[index]? := by
          have := congrArg (fun t => t[index]?) hfst.1
          simpa [List.getElem?_take] using this
        rw [List.take_succ, List.take_succ, htake, hget]
        simpa using congrArg Option.toList hli
      · exact swapLoop_mem (fun c => (AllPermutationsAux fuel c (index + 1)).2) index l.length
          (fun c q hc ht hp => AllPermutationsAux_mem fuel c (index + 1) (by omega) q ht hp)
          (l.length - index - 1) 1 _ _ hlen1 (by omega) (le_refl _) q m (by omega) (by omega)
          (htake.trans htk.symm) hqp hget

theorem swapLoop_congr (rec1 rec2 : List GoString → List (List GoString)) (index N : Nat)
    (hrec : ∀ c : List GoString, c.length = N → rec1 c = rec2 c) :
    ∀ (n j : Nat) (a : List GoString) (out : List (List GoString)), a.length = N →
      swapLoop rec1 index n j a out = swapLoop rec2 index n j a out
  | 0, _, _, _, _ => rfl
  | n + 1, j, a, out, ha => by
    simp only [swapLoop]
    have hl : (swapAt a index (index + j)).length = N := by rw [swapAt_length]; exact ha
    rw [makecopy, hrec _ hl]
    exact swapLoop_congr rec1 rec2 index N hrec n (j + 1) _ _ hl

/-- The recursion budget of `AllPermutationsAux` is immaterial once it
covers the part of the slice still to be permuted. -/
theorem AllPermutationsAux_fuel :
    ∀ (f1 f2 : Nat) (l : List GoString) (index : Nat), l.length - index ≤ f1 →
      l.length - index ≤ f2 → AllPermutationsAux f1 l index = AllPermutationsAux f2 l index
  | 0, 0, _, _, _, _ => rfl
  | 0, f2 + 1, l, index, h1, _ => by
    have : index + 1 ≥ l.length := by omega
    simp [AllPermutationsAux, this]
  | f1 + 1, 0, l, index, _, h2 => by
    have : index + 1 ≥ l.length := by omega
    simp [AllPermutationsAux, this]
  | f1 + 1, f2 + 1, l, index, h1, h2 => by
    simp only [AllPermutationsAux]
    split
    · rfl
    · next hb =>
      have ih := AllPermutationsAux_fuel f1 f2 l (index + 1) (by omega) (by omega)
      rw [ih]
      exact swapLoop_congr _ _ index l.length
        (fun c hc => by
          rw [AllPermutationsAux_fuel f1 f2 c (index + 1) (by omega) (by omega)])
        _ _ _ _ (AllPermutationsAux_fst f2 l (index + 1)).2.length_eq

theorem AllPermutations_perm_permutations (l : List GoString) (hl : l.Nodup) :
    l.permutations.Perm (AllPermutations l 0).2 := by
  have hsub : l.permutations ⊆ (AllPermutations l 0).2 := by
    intro q hq
    exact AllPermutationsAux_mem _ l 0 (le_refl _) q (by simp) (List.mem_permutations.1 hq)
  have hlen : (AllPermutations l 0).2.length = l.length.factorial := by
    simpa using AllPermutationsAux_length (l.length - 0) l 0 (le_refl _)
  exact ((List.nodup_permutations l hl).subperm hsub).perm_of_length_le
    (by rw [hlen, List.length_permutations])

/-- C1. For every list `l` of pairwise distinct tokens (of any length `s`),
`AllPermutations(l, 0)` hands to `test` exactly `s!` token lists, these lists
are pairwise distinct, and a token list is among them exactly when it is a
permutation of `l`; for `["a","b","c"]` the concatenations handed over are, in
call order, abc, acb, cab, cba, bac, bca, which is a rearrangement of
abc, acb, bac, bca, cab, cba. -/
theorem C1_AllPermutations_orderings :
    (∀ l : List GoString, l.Nodup →
      (AllPermutations l 0).2.length = l.length.factorial ∧
      (AllPermutations l 0).2.Nodup ∧
      ∀ q : List GoString, q ∈ (AllPermutations l 0).2 ↔ q.Perm l) ∧
    (AllPermutations [ascii "a", ascii "b", ascii "c"] 0).2.map concat =
      [ascii "abc", ascii "acb", ascii "cab", ascii "cba", ascii "bac", ascii "bca"] ∧
    ((AllPermutations [ascii "a", ascii "b", ascii "c"] 0).2.map concat).Perm
      [ascii "abc", ascii "acb", ascii "bac", ascii "bca", ascii "cab", ascii "cba"] := by
  refine ⟨fun l hl => ?_, by decide, by decide⟩
  have hp := AllPermutations_perm_permutations l hl
  refine ⟨?_, ?_, fun q => ?_⟩
  · rw [← hp.length_eq, List.length_permutations]
  · exact hp.nodup_iff.1 (List.nodup_permutations l hl)
  · rw [← hp.mem_iff, List.mem_permutations]

/-- C1 at the three tokens a, b, c. -/
theorem C1_AllPermutations_orderings_witness :
    (AllPermutations [ascii "a", ascii "b", ascii "c"] 0).2.length = 6 ∧
      (AllPermutations [ascii "a", ascii "b", ascii "c"] 0).2.Nodup :=
  ⟨(C1_AllPermutations_orderings.1 [ascii "a", ascii "b", ascii "c"] (by decide)).1,
    (C1_AllPermutations_orderings.1 [ascii "a", ascii "b", ascii "c"] (by decide)).2.1⟩

/-! ## The mixed-radix walk visits every valid vector once -/

theorem radixProduct_cons (g : Group) (gs : List Group) :
    radixProduct (g :: gs) = radix g * radixProduct gs := by
  simp [radixProduct]

theorem radix_eq_of_valid (g : Group) (k : Nat) (h1 : minIndex g ≤ k)
    (h2 : k ≤ g.tokens.length) : radix g = g.tokens.length - minIndex g + 1 := by
  unfold radix
  unfold minIndex at h1 ⊢
  split
  · simp_all
    omega
  · simp_all

theorem validVector_cons (g : Group) (gs : List Group) (k : Nat) (ks : List Nat) :
    validVector (g :: gs) (k :: ks) = true ↔
      minIndex g ≤ k ∧ k ≤ g.tokens.length ∧ validVector gs ks = true := by
  simp [validVector, and_assoc]

theorem validVector_length :
    ∀ (tpl : List Group) (v : List Nat), validVector tpl v = true → v.length = tpl.length
  | [], [], _ => rfl
  | [], _ :: _, h => by simp [validVector] at h
  | _ :: _, [], h => by simp [validVector] at h
  | g :: gs, k :: ks, h => by
    rw [validVector_cons] at h
    simp [validVector_length gs ks h.2.2]

theorem rank_lt :
    ∀ (tpl : List Group) (v : List Nat), validVector tpl v = true →
      rank tpl v < radixProduct tpl
  | [], [], _ => by simp [rank, radixProduct]
  | [], _ :: _, h => by simp [validVector] at h
  | _ :: _, [], h => by simp [validVector] at h
  | g :: gs, k :: ks, h => by
    rw [validVector_cons] at h
    have ih := rank_lt gs ks h.2.2
    have hr := radix_eq_of_valid g k h.1 h.2.1
    rw [radixProduct_cons]
    simp only [rank]
    calc k - minIndex g + radix g * rank gs ks
        < radix g + radix g * rank gs ks := by omega
      _ = radix g * (rank gs ks + 1) := by ring
      _ ≤ radix g * radixProduct gs := Nat.mul_le_mul_left _ ih

/-- One run of the carry loop on a valid vector: the labelled `break` is taken
exactly at the last vector in counting order, and otherwise the loop produces
the next valid vector. -/
theorem advance_spec :
    ∀ (tpl : List Group) (v : List Nat), tpl ≠ [] → validVector tpl v = true →
      ((advance tpl v).2 = true ↔ rank tpl v + 1 = radixProduct tpl) ∧
      ((advance tpl v).2 = false →
        validVector tpl (advance tpl v).1 = true ∧
          rank tpl (advance tpl v).1 = rank tpl v + 1)
  | [], _, h, _ => absurd rfl h
  | _ :: _, [], _, h => by simp [validVector] at h
  | g :: gs, k :: ks, _, h => by
    rw [validVector_cons] at h
    obtain ⟨hmin, hmax, hks⟩ := h
    have hr := radix_eq_of_valid g k hmin hmax
    have hlt := rank_lt gs ks hks
    rw [radixProduct_cons]
    by_cases hk : k < g.tokens.length
    · have hadv : advance (g :: gs) (k :: ks) = ((k + 1) :: ks, false) := by
        simp [advance, hk]
      rw [hadv]
      refine ⟨⟨fun h => by simp at h, fun h => ?_⟩, fun _ => ⟨?_, ?_⟩⟩
      · exfalso
        simp only [rank] at h
        have : radix g * (rank gs ks + 1) ≤ radix g * radixProduct gs :=
          Nat.mul_le_mul_left _ hlt
        have h2 : radix g * (rank gs ks + 1) = radix g * rank gs ks + radix g := by ring
        omega
      · rw [validVector_cons]
        exact ⟨by omega, by omega, hks⟩
      · simp only [rank]
        omega
    · have hkeq : k = g.tokens.length := by omega
      by_cases hgs : gs = []
      · subst hgs
        have hadv : advance [g] (k :: ks) = (minIndex g :: ks, true) := by
          simp [advance, hk]
        rw [hadv]
        have hks0 : ks = [] := by
          cases ks with
          | nil => rfl
          | cons _ _ => simp [validVector] at hks
        subst hks0
        refine ⟨⟨fun _ => ?_, fun _ => rfl⟩, fun h => by simp at h⟩
        simp only [rank, radixProduct, List.map_nil, List.prod_nil]
        omega
      · have hadv : advance (g :: gs) (k :: ks) =
            (minIndex g :: (advance gs ks).1, (advance gs ks).2) := by
          simp [advance, hk, hgs]
        rw [hadv]
        obtain ⟨ih1, ih2⟩ := advance_spec gs ks hgs hks
        have hexp : radix g * (rank gs ks + 1) = radix g * rank gs ks + radix g := by ring
        refine ⟨⟨fun h => ?_, fun h => ?_⟩, fun h => ?_⟩
        · have := ih1.1 h
          simp only [rank]
          rw [← this, hexp]
          omega
        · apply ih1.2
          simp only [rank] at h
          have h3 : radix g * (rank gs ks + 1) = radix g * radixProduct gs := by
            rw [hexp]; omega
          have hpos : 0 < radix g := by omega
          exact Nat.eq_of_mul_eq_mul_left hpos h3
        · obtain ⟨hv, hrk⟩ := ih2 h
          refine ⟨?_, ?_⟩
          · rw [validVector_cons]
            exact ⟨le_refl _, by omega, hv⟩
          · simp only [rank]
            rw [hrk, hexp]
            omega

/-- With a budget that covers the vectors still to come, the walk from a
valid vector ends, and visits valid vectors of consecutive ranks up to the
last one. -/
theorem walk_spec (tpl : List Group) (htpl : tpl ≠ []) :
    ∀ (fuel : Nat) (v : List Nat), validVector tpl v = true →
      radixProduct tpl - rank tpl v ≤ fuel →
      ∃ W, walk tpl fuel v = some W ∧
        W.map (rank tpl) = List.range' (rank tpl v) (radixProduct tpl - rank tpl v) ∧
        ∀ w ∈ W, validVector tpl w = true
  | 0, v, hv, hf => by
    have := rank_lt tpl v hv
    omega
  | fuel + 1, v, hv, hf => by
    obtain ⟨h1, h2⟩ := advance_spec tpl v htpl hv
    have hlt := rank_lt tpl v hv
    by_cases hb : (advance tpl v).2 = true
    · refine ⟨[v], by simp [walk, hb], ?_, by simpa using hv⟩
      have := h1.1 hb
      have h3 : radixProduct tpl - rank tpl v = 1 := by omega
      simp [h3]
    · simp only [Bool.not_eq_true] at hb
      obtain ⟨hv2, hrk⟩ := h2 hb
      have hne : rank tpl v + 1 ≠ radixProduct tpl := fun h => by
        have := h1.2 h
        simp [hb] at this
      obtain ⟨W, hW, hmap, hval⟩ := walk_spec tpl htpl fuel (advance tpl v).1 hv2 (by omega)
      refine ⟨v :: W, by simp [walk, hb, hW], ?_, ?_⟩
      · rw [List.map_cons, hmap, hrk]
        obtain ⟨d, hd⟩ : ∃ d, radixProduct tpl - rank tpl v = d + 1 :=
          ⟨radixProduct tpl - rank tpl v - 1, by omega⟩
        have hd2 : radixProduct tpl - (rank tpl v + 1) = d := by omega
        rw [hd, hd2, List.range'_succ]
      · intro w hw
        rcases List.mem_cons.1 hw with h | h
        · rw [h]; exact hv
        · exact hval w h

theorem mem_validVectors :
    ∀ (tpl : List Group) (v : List Nat), v ∈ validVectors tpl ↔ validVector tpl v = true
  | [], [] => by simp [validVectors, validVector]
  | [], _ :: _ => by simp [validVectors, validVector]
  | g :: gs, [] => by simp [validVectors, validVector]
  | g :: gs, k :: ks => by
    rw [validVector_cons]
    simp only [validVectors, List.mem_flatMap, List.mem_map, List.mem_range'_1]
    constructor
    · rintro ⟨a, ⟨ha1, ha2⟩, w, hw, heq⟩
      simp only [List.cons.injEq] at heq
      obtain ⟨rfl, rfl⟩ := heq
      refine ⟨ha1, ?_, (mem_validVectors gs w).1 hw⟩
      unfold radix at ha2
      unfold minIndex at ha1 ha2
      split at ha2 <;> simp_all <;> omega
    · rintro ⟨h1, h2, h3⟩
      refine ⟨k, ⟨h1, ?_⟩, ks, (mem_validVectors gs ks).2 h3, rfl⟩
      rw [radix_eq_of_valid g k h1 h2]
      omega

theorem length_flatMap_map_cons (L : List Nat) (X : List (List Nat)) :
    (L.flatMap (fun k => X.map (fun ks => k :: ks))).length = L.length * X.length := by
  induction L with
  | nil => simp
  | cons a L ih =>
    rw [List.flatMap_cons, List.length_append, ih, List.length_map, List.length_cons]
    ring

theorem length_validVectors :
    ∀ tpl : List Group, (validVectors tpl).length = radixProduct tpl
  | [] => by simp [validVectors, radixProduct]
  | g :: gs => by
    rw [validVectors, length_flatMap_map_cons, List.length_range', length_validVectors gs,
      radixProduct_cons]

theorem validVector_initIndexes :
    ∀ tpl : List Group, (∀ g ∈ tpl, g.tokens ≠ []) → validVector tpl (initIndexes tpl) = true
  | [], _ => rfl
  | g :: gs, h => by
    have hg : g.tokens ≠ [] := h g (List.mem_cons_self _ _)
    have hlen : 1 ≤ g.tokens.length := by
      cases hgt : g.tokens with
      | nil => exact absurd hgt hg
      | cons _ _ => simp
    have ih := validVector_initIndexes gs (fun g' hg' => h g' (List.mem_cons_of_mem _ hg'))
    simp only [initIndexes, List.map_cons]
    rw [validVector_cons]
    refine ⟨le_refl _, ?_, ih⟩
    unfold minIndex
    split <;> omega

theorem rank_initIndexes : ∀ tpl : List Group, rank tpl (initIndexes tpl) = 0
  | [] => rfl
  | g :: gs => by
    have ih := rank_initIndexes gs
    unfold initIndexes at ih
    simp [initIndexes, rank, ih]

/-- For a template with at least one group, all groups non-empty, the walk
from the initial vector ends within `radixProduct tpl` iterations and visits
every valid SelectionVector exactly once, and nothing else. -/
theorem walk_initIndexes (tpl : List Group) (htpl : tpl ≠ [])
    (hne : ∀ g ∈ tpl, g.tokens ≠ []) (fuel : Nat) (hfuel : radixProduct tpl ≤ fuel) :
    ∃ W, walk tpl fuel (initIndexes tpl) = some W ∧
      W.map (rank tpl) = List.range (radixProduct tpl) ∧
      W.Perm (validVectors tpl) := by
  have hv := validVector_initIndexes tpl hne
  obtain ⟨W, hW, hmap, hval⟩ := walk_spec tpl htpl fuel (initIndexes tpl) hv (by omega)
  rw [rank_initIndexes, Nat.sub_zero, ← List.range_eq_range'] at hmap
  refine ⟨W, hW, hmap, ?_⟩
  have hnd : W.Nodup := List.Nodup.of_map (rank tpl) (by rw [hmap]; exact List.nodup_range _)
  have hsub : W ⊆ validVectors tpl := fun w hw => (mem_validVectors tpl w).2 (hval w hw)
  have hlen : W.length = radixProduct tpl := by
    have := congrArg List.length hmap
    simpa using this
  exact (hnd.subperm hsub).perm_of_length_le (by rw [length_validVectors, hlen])

/-! ## The tally pass and the unordered total -/

theorem foldl_notZero (v : List Nat) :
    ∀ a : Nat, v.foldl (fun n k => if k ≠ 0 then n + 1 else n) a = a + selectedCount v := by
  induction v with
  | nil => intro a; simp [selectedCount]
  | cons k ks ih =>
    intro a
    simp only [List.foldl_cons, ih, selectedCount, List.countP_cons]
    by_cases hk : k = 0
    · simp [hk]
    · simp [hk]; omega

theorem notZero_eq (v : List Nat) : notZero v = selectedCount v := by
  unfold notZero
  rw [foldl_notZero]
  simp

theorem selectedCount_le (v : List Nat) : selectedCount v ≤ v.length :=
  List.countP_le_length _

theorem tallyLoop_eq_walk (tpl : List Group) :
    ∀ (fuel : Nat) (v : List Nat) (cs : List Int),
      tallyLoop tpl fuel v cs =
        (walk tpl fuel v).map (fun W => W.foldl (fun c w => bump c (notZero w)) cs)
  | 0, _, _ => rfl
  | fuel + 1, v, cs => by
    simp only [tallyLoop, walk]
    by_cases hb : (advance tpl v).2 = true
    · simp [hb]
    · simp only [hb, if_false]
      rw [tallyLoop_eq_walk tpl fuel]
      cases walk tpl fuel (advance tpl v).1 <;> simp

theorem bump_range_map (m : Nat) (g : Nat → Int) (s : Nat) (hs : s < m) :
    bump ((List.range m).map (fun i => wrapInt (g i))) s =
      (List.range m).map (fun i => wrapInt (g i + if i = s then 1 else 0)) := by
  unfold bump
  have hget : ((List.range m).map (fun i => wrapInt (g i)))[s]? = some (wrapInt (g s)) := by
    simp [hs]
  rw [hget]
  apply List.ext_getElem?
  intro i
  simp only [List.getElem?_set, List.length_map, List.length_range, List.getElem?_map]
  by_cases his : s = i
  · subst his
    simp [hs, wrapInt_add_left]
  · have his2 : ¬ i = s := fun h => his h.symm
    rcases Nat.lt_or_ge i m with h | h
    · simp [h, his, his2]
    · rw [List.getElem?_eq_none (by simpa using h)]
      simp [his]

theorem foldl_bump (m : Nat) :
    ∀ (W : List (List Nat)) (g : Nat → Int), (∀ w ∈ W, selectedCount w < m) →
      W.foldl (fun c w => bump c (notZero w)) ((List.range m).map (fun i => wrapInt (g i))) =
        (List.range m).map
          (fun i => wrapInt (g i + (W.countP (fun w => selectedCount w = i) : Nat)))
  | [], g, _ => by simp
  | w :: W, g, h => by
    simp only [List.foldl_cons]
    rw [notZero_eq, bump_range_map m g _ (h w (List.mem_cons_self _ _)),
      foldl_bump m W _ (fun w' hw' => h w' (List.mem_cons_of_mem _ hw'))]
    apply List.map_congr_left
    intro i _
    congr 1
    simp only [List.countP_cons, decide_eq_true_eq]
    by_cases hi : selectedCount w = i
    · simp [hi]
      ring
    · have hi2 : ¬ i = selectedCount w := fun h => hi h.symm
      simp [hi, hi2]

theorem fact_modEq : ∀ n : Nat, fact n ≡ (n.factorial : Int) [ZMOD 18446744073709551616]
  | 0 => by simp [fact]
  | n + 1 => by
    simp only [fact, Nat.factorial_succ]
    refine (wrapInt_modEq _).trans ?_
    push_cast
    exact (fact_modEq n).mul_left _

theorem sumCounters_range' (f : Nat → Int) :
    ∀ (m i : Nat) (total : Int),
      wrapInt (sumCounters ((List.range' i m).map f) i total) =
        wrapInt (total + ((List.range' i m).map (fun j => f j * (j.factorial : Int))).sum)
  | 0, i, total => by simp [sumCounters]
  | m + 1, i, total => by
    simp only [List.range'_succ, List.map_cons, sumCounters, List.sum_cons]
    rw [sumCounters_range' f m (i + 1)]
    apply wrapInt_congr
    refine ((wrapInt_modEq _).add_right _).trans ?_
    rw [add_assoc]
    refine Int.ModEq.add_left _ (Int.ModEq.add_right _ ?_)
    exact (wrapInt_modEq _).trans ((fact_modEq i).mul_left _)

theorem sumCounters_wrapped :
    ∀ (cs : List Int) (i : Nat) (total : Int), wrapInt total = total →
      wrapInt (sumCounters cs i total) = sumCounters cs i total
  | [], _, _, h => by simpa [sumCounters] using h
  | c :: cs, i, total, _ => by
    simp only [sumCounters]
    exact sumCounters_wrapped cs (i + 1) _ (wrapInt_idem _)

theorem sum_map_modEq (f g : Nat → Int) :
    ∀ L : List Nat, (∀ j ∈ L, f j ≡ g j [ZMOD 18446744073709551616]) →
      (L.map f).sum ≡ (L.map g).sum [ZMOD 18446744073709551616]
  | [], _ => Int.ModEq.refl _
  | j :: L, h => by
    simp only [List.map_cons, List.sum_cons]
    exact (h j (List.mem_cons_self _ _)).add
      (sum_map_modEq f g L (fun j' hj' => h j' (List.mem_cons_of_mem _ hj')))

theorem cast_sum_map (f : Nat → Nat) :
    ∀ L : List Nat, (((L.map f).sum : Nat) : Int) = (L.map (fun j => (f j : Int))).sum
  | [] => rfl
  | j :: L => by
    simp only [List.map_cons, List.sum_cons, Nat.cast_add]
    rw [cast_sum_map f L]

/-- The precomputed unordered `Total` is the specification's sum
`Σ_s C(s) * s!` reduced to a Go `int`. -/
theorem unorderedTotal_eq_wrap (tpl : List Group) (htpl : tpl ≠ [])
    (hne : ∀ g ∈ tpl, g.tokens ≠ []) (fuel : Nat) (hfuel : radixProduct tpl ≤ fuel) :
    unorderedTotal tpl fuel = some (wrapInt (unorderedTotalSpec tpl : Int)) := by
  obtain ⟨W, hW, hmap, hperm⟩ := walk_initIndexes tpl htpl hne fuel hfuel
  unfold unorderedTotal
  rw [tallyLoop_eq_walk, hW]
  simp only [Option.map_some']
  have hzero : List.replicate (tpl.length + 1) (0 : Int) =
      (List.range (tpl.length + 1)).map (fun i => wrapInt ((fun _ => (0 : Int)) i)) := by
    apply List.ext_getElem?
    intro i
    by_cases hi : i < tpl.length + 1
    · simp [hi, List.getElem?_replicate, wrapInt]
    · simp [hi, List.getElem?_replicate]
  have hsel : ∀ w ∈ W, selectedCount w < tpl.length + 1 := by
    intro w hw
    have hv := (mem_validVectors tpl w).1 (hperm.subset hw)
    have := validVector_length tpl w hv
    have := selectedCount_le w
    omega
  rw [hzero, foldl_bump (tpl.length + 1) W _ hsel]
  have h0 : wrapInt 0 = 0 := by decide
  rw [← sumCounters_wrapped _ 0 0 h0]
  have hr : List.range (tpl.length + 1) = List.range' 0 (tpl.length + 1) :=
    List.range_eq_range' _
  rw [hr, sumCounters_range']
  apply congrArg some
  apply wrapInt_congr
  rw [zero_add]
  unfold unorderedTotalSpec vectorsSelecting
  rw [hr, cast_sum_map]
  apply sum_map_modEq
  intro j _
  rw [zero_add, hperm.countP_eq]
  push_cast
  exact (wrapInt_modEq _).mul_right _

/-- C5 (amended). In unordered mode, for every template with at least one
group, all groups non-empty, whose sum `Σ_s C(s) * s!` does not exceed the
largest Go `int`, the tally loop ends (within `radixProduct tpl` iterations)
and the precomputed `Total` equals `Σ_s C(s) * s!`, where `C(s)` is the number
of valid SelectionVectors with exactly `s` non-zero entries. -/
theorem C5_unorderedTotal_no_overflow (tpl : List Group) (htpl : tpl ≠ [])
    (hne : ∀ g ∈ tpl, g.tokens ≠ []) (hfit : (unorderedTotalSpec tpl : Int) ≤ maxInt)
    (fuel : Nat) (hfuel : radixProduct tpl ≤ fuel) :
    unorderedTotal tpl fuel = some (unorderedTotalSpec tpl : Int) := by
  rw [unorderedTotal_eq_wrap tpl htpl hne fuel hfuel, wrapInt_of_range _ _ hfit]
  unfold minInt
  omega

set_option maxRecDepth 100000 in
/-- C5 (amended) at two `UseAlways`-free groups of sizes 2 and 3:
`1 * 0! + 5 * 1! + 6 * 2! = 18`. -/
theorem C5_unorderedTotal_no_overflow_witness :
    unorderedTotal
      [⟨[ascii "a", ascii "b"], ⟨false, false⟩⟩,
       ⟨[ascii "x", ascii "y", ascii "z"], ⟨false, false⟩⟩] 12 = some (18 : Int) :=
  (C5_unorderedTotal_no_overflow
    [⟨[ascii "a", ascii "b"], ⟨false, false⟩⟩,
     ⟨[ascii "x", ascii "y", ascii "z"], ⟨false, false⟩⟩]
    (by decide) (by decide) (by decide) 12 (by decide)).trans (by decide)

set_option maxRecDepth 100000 in
/-- C5 as stated fails: for 21 `UseAlways` groups of one token each there is
one valid SelectionVector, it selects 21 tokens, and `Σ_s C(s) * s! = 21!`,
while `fact(21)` overflows the Go `int` and `Total` ends up negative. -/
theorem C5_unorderedTotal_counterexample :
    unorderedTotal (List.replicate 21 ⟨[ascii "a"], ⟨true, false⟩⟩) 1 =
      some (-4249290049419214848) ∧
    unorderedTotalSpec (List.replicate 21 ⟨[ascii "a"], ⟨true, false⟩⟩) =
      51090942171709440000 := by
  constructor <;> decide

/-! ## The length filter `test` -/

theorem forwarded_append (a b : List Event) :
    forwarded (a ++ b) = forwarded a ++ forwarded b := by
  induction a with
  | nil => rfl
  | cons e a ih => cases e <;> simp [forwarded, ih]

theorem wrapInt_RE_ne_zero (RE : Int) (h1 : 1 ≤ RE) (h2 : RE ≤ maxInt) :
    wrapInt (RE * 10) ≠ 0 := by
  intro h
  unfold maxInt at h2
  have hm := wrapInt_modEq (RE * 10)
  rw [h] at hm
  have hd : (18446744073709551616 : Int) ∣ RE * 10 := (Int.modEq_zero_iff_dvd.1 hm.symm)
  have h2' : (9223372036854775808 : Int) ∣ RE * 5 := by
    obtain ⟨k, hk⟩ := hd
    exact ⟨k, by linarith⟩
  have hc : IsCoprime (9223372036854775808 : Int) 5 := by
    rw [Int.isCoprime_iff_gcd_eq_one]; decide
  have h3 : (9223372036854775808 : Int) ∣ RE := hc.dvd_of_dvd_mul_right h2'
  have := Int.le_of_dvd (by linarith) h3
  linarith

/-- Effect of `test` on a non-empty candidate of a length outside
`[min_len, max_len]`. -/
theorem test_skip (fl : Flags) (l : List GoString) (st : St) (hs : concat l ≠ [])
    (hr : ((concat l).length : Int) < fl.min_len ∨ ((concat l).length : Int) > fl.max_len) :
    (test fl l st).params = { st.params with Skipped := wrapInt (st.params.Skipped + 1) } ∧
    (∃ es, (test fl l st).out = st.out ++ es ∧ forwarded es = []) ∧
    (st.params.Total ≠ 0 → wrapInt (st.params.RE * 10) ≠ 0 →
      (test fl l st).halted = st.halted) := by
  unfold test
  simp only [hs, if_false, hr, if_true]
  split_ifs with h1 h2 h3 h4 h5
  · exact ⟨rfl, ⟨_, rfl, rfl⟩, fun _ _ => rfl⟩
  · exact ⟨rfl, ⟨[], by simp, rfl⟩, fun _ _ => rfl⟩
  · exact ⟨rfl, ⟨[], by simp, rfl⟩, fun _ h => absurd h3 h⟩
  · exact ⟨rfl, ⟨[], by simp, rfl⟩, fun h _ => absurd h5 h⟩
  · exact ⟨rfl, ⟨_, rfl, rfl⟩, fun _ _ => rfl⟩
  · exact ⟨rfl, ⟨[], by simp, rfl⟩, fun _ _ => rfl⟩

/-- With at least one thread and `params.N ≥ 0`, the channel expression of
the send evaluates. -/
theorem sendIndexOK_of_nonneg (fl : Flags) (params : CrackerParams)
    (hthr : 1 ≤ fl.n_threads) (h1 : fl.n_threads ≠ 1) (hN : 0 ≤ params.N) :
    sendIndexOK fl params = true := by
  have h2 : 1 < fl.n_threads := by omega
  unfold sendIndexOK chansLen
  rw [decide_eq_true_eq]
  refine ⟨by omega, Int.tmod_nonneg _ hN, ?_⟩
  rw [if_pos h2]
  exact Int.tmod_lt_of_pos _ (by omega)

theorem canForward_iff (fl : Flags) (params : CrackerParams) :
    canForward fl params = true ↔
      (fl.dump = true ∨ fl.n_threads = 1 ∨ sendIndexOK fl params = true) := by
  unfold canForward
  simp [or_assoc]

theorem canForward_of_nonneg (fl : Flags) (params : CrackerParams)
    (hthr : 1 ≤ fl.n_threads) (hN : 0 ≤ params.N) : canForward fl params = true := by
  rw [canForward_iff]
  by_cases h1 : fl.n_threads = 1
  · exact Or.inr (Or.inl h1)
  · exact Or.inr (Or.inr (sendIndexOK_of_nonneg fl params hthr h1 hN))

/-- Effect of `test` on a non-empty candidate of a length inside
`[min_len, max_len]`: `Skipped` is unchanged; the candidate is forwarded once
and the run goes on, unless the channel expression of the send panics, in
which case nothing is forwarded. -/
theorem test_forward (fl : Flags) (l : List GoString) (st : St) (hs : concat l ≠ [])
    (hr : ¬ (((concat l).length : Int) < fl.min_len ∨
      ((concat l).length : Int) > fl.max_len)) :
    (test fl l st).params.Skipped = st.params.Skipped ∧
    (canForward fl st.params = true →
      (∃ e, (test fl l st).out = st.out ++ [e] ∧ forwarded [e] = [concat l]) ∧
      (test fl l st).halted = st.halted) ∧
    (¬ canForward fl st.params = true →
      (test fl l st).out = st.out ∧ (test fl l st).halted = true) := by
  rw [canForward_iff]
  unfold test
  simp only [hs, if_false, hr]
  split_ifs with h1 h2 h3
  · exact ⟨rfl, fun _ => ⟨⟨_, rfl, by simp [forwarded]⟩, rfl⟩, fun h => absurd (Or.inl h1) h⟩
  · exact ⟨rfl, fun _ => ⟨⟨_, rfl, by simp [forwarded]⟩, rfl⟩,
      fun h => absurd (Or.inr (Or.inl h2)) h⟩
  · exact ⟨rfl, fun _ => ⟨⟨_, rfl, by simp [forwarded]⟩, rfl⟩,
      fun h => absurd (Or.inr (Or.inr h3)) h⟩
  · refine ⟨rfl, fun h => ?_, fun _ => ⟨rfl, rfl⟩⟩
    rcases h with h | h | h
    · exact absurd h h1
    · exact absurd h h2
    · exact absurd h h3

/-- The counter `N` under one call of `test`, as long as it does not
overflow: it grows by at most the number of candidates forwarded by the call,
which is at most one. -/
theorem test_N_le (fl : Flags) (l : List GoString) (st : St)
    (hN1 : 0 ≤ st.params.N) (hN2 : st.params.N < maxInt) :
    st.params.N ≤ (test fl l st).params.N ∧
    (test fl l st).params.N - st.params.N ≤
      ((forwarded (test fl l st).out).length : Int) - ((forwarded st.out).length : Int) ∧
    ((forwarded (test fl l st).out).length : Int) - ((forwarded st.out).length : Int) ≤ 1 := by
  have hw : wrapInt (st.params.N + 1) = st.params.N + 1 :=
    wrapInt_of_range _ (by unfold minInt; omega) (by omega)
  unfold test
  simp only
  split_ifs <;>
    (try simp only [Test_pass, hw, forwarded_append, forwarded, List.length_append,
      List.length_cons, List.length_nil, Nat.cast_add, Nat.cast_one, Nat.cast_zero]) <;>
    omega

/-- C7 (amended). For every token list whose concatenation `s` is non-empty:
if `len(s) < min_len` or `len(s) > max_len`, `test` adds one to `Skipped` in Go
`int` arithmetic, which is an increase by exactly one whenever `Skipped` is
below the largest Go `int`, and appends only progress messages to the trace,
so nothing is forwarded; otherwise `test` leaves `Skipped` unchanged and,
provided the forwarding statement does not panic (the candidate goes to the
dump file or to the Validator, or the index `params.N % *n_threads` lies
within `chans`, as it does with at least one thread and `params.N ≥ 0`),
appends exactly one event, which forwards `s`; when the channel expression
panics, nothing is forwarded and the run ends. -/
theorem C7_test_length_filter (fl : Flags) (l : List GoString) (st : St)
    (hs : concat l ≠ []) :
    ((((concat l).length : Int) < fl.min_len ∨ ((concat l).length : Int) > fl.max_len) →
      (test fl l st).params.Skipped = wrapInt (st.params.Skipped + 1) ∧
      (minInt ≤ st.params.Skipped → st.params.Skipped < maxInt →
        (test fl l st).params.Skipped = st.params.Skipped + 1) ∧
      (∃ es, (test fl l st).out = st.out ++ es ∧ forwarded es = []) ∧
      forwarded (test fl l st).out = forwarded st.out) ∧
    (¬ (((concat l).length : Int) < fl.min_len ∨ ((concat l).length : Int) > fl.max_len) →
      (test fl l st).params.Skipped = st.params.Skipped ∧
      (canForward fl st.params = true →
        (∃ e, (test fl l st).out = st.out ++ [e] ∧ forwarded [e] = [concat l]) ∧
        forwarded (test fl l st).out = forwarded st.out ++ [concat l] ∧
        (test fl l st).halted = st.halted) ∧
      (1 ≤ fl.n_threads → 0 ≤ st.params.N → canForward fl st.params = true) ∧
      (¬ canForward fl st.params = true →
        (test fl l st).out = st.out ∧ (test fl l st).halted = true)) := by
  constructor
  · intro hr
    obtain ⟨hp, ⟨es, hes, hf⟩, _⟩ := test_skip fl l st hs hr
    refine ⟨by rw [hp], fun h1 h2 => ?_, ⟨es, hes, hf⟩, by rw [hes, forwarded_append, hf]; simp⟩
    rw [hp]
    exact wrapInt_of_range _ (by omega) (by omega)
  · intro hr
    obtain ⟨hp, hfw, hpanic⟩ := test_forward fl l st hs hr
    refine ⟨hp, fun hc => ?_, canForward_of_nonneg fl st.params, hpanic⟩
    obtain ⟨⟨e, he, hf⟩, hh⟩ := hfw hc
    exact ⟨⟨e, he, hf⟩, by rw [he, forwarded_append, hf], hh⟩

set_option maxRecDepth 100000 in
/-- C7 (amended) at the token list `["ab", "c"]`: with `min_len = 8` the
candidate is skipped and `Skipped` goes from 0 to 1; with `min_len = 2` and
four threads it is sent once, on channel `6 % 4 = 2`. -/
theorem C7_test_length_filter_witness :
    ((test ⟨8, 20, 1, true, false⟩ [ascii "ab", ascii "c"]
        ⟨⟨0, 0, 11, 0, 1, 0⟩, [], false⟩).params.Skipped = 1 ∧
      forwarded (test ⟨8, 20, 1, true, false⟩ [ascii "ab", ascii "c"]
        ⟨⟨0, 0, 11, 0, 1, 0⟩, [], false⟩).out = []) ∧
    (test ⟨2, 20, 4, true, false⟩ [ascii "ab", ascii "c"]
        ⟨⟨6, 0, 11, 0, 1, 0⟩, [], false⟩).out = [Event.send 2 (ascii "abc")] ∧
    forwarded (test ⟨2, 20, 4, true, false⟩ [ascii "ab", ascii "c"]
        ⟨⟨6, 0, 11, 0, 1, 0⟩, [], false⟩).out = [ascii "abc"] :=
  ⟨⟨((C7_test_length_filter ⟨8, 20, 1, true, false⟩ [ascii "ab", ascii "c"]
      ⟨⟨0, 0, 11, 0, 1, 0⟩, [], false⟩ (by decide)).1 (by decide)).2.1
      (by decide) (by decide),
    ((C7_test_length_filter ⟨8, 20, 1, true, false⟩ [ascii "ab", ascii "c"]
      ⟨⟨0, 0, 11, 0, 1, 0⟩, [], false⟩ (by decide)).1 (by decide)).2.2.2⟩,
    by decide,
    (((C7_test_length_filter ⟨2, 20, 4, true, false⟩ [ascii "ab", ascii "c"]
      ⟨⟨6, 0, 11, 0, 1, 0⟩, [], false⟩ (by decide)).2 (by decide)).2.1
      (by decide)).2.1⟩

set_option maxRecDepth 100000 in
/-- C7 as stated fails in two states.  With `Skipped` at the largest Go `int`,
the skipped candidate `ab` (`min_len = 8`) takes `Skipped` to the smallest Go
`int` instead of increasing it by one.  With `params.N = -3` and four threads,
the candidate `ab` of a length within the bounds is not forwarded: the index
`-3 % 4 = -3` is out of range, the send panics and the trace stays empty. -/
theorem C7_test_length_filter_counterexample :
    (test ⟨8, 20, 1, true, false⟩ [ascii "ab"]
        ⟨⟨0, 9223372036854775807, 11, 0, 1, 0⟩, [], false⟩).params.Skipped =
      -9223372036854775808 ∧
    Int.tmod (-3) 4 = -3 ∧
    test ⟨1, 20, 4, true, false⟩ [ascii "ab"] ⟨⟨-3, 0, 11, 0, 1, 0⟩, [], false⟩ =
      ⟨⟨-3, 0, 11, 0, 1, 0⟩, [], true⟩ := by
  refine ⟨by decide, by decide, by decide⟩

/-! ## One selection in unordered mode -/

theorem foldl_append_eq (l : List GoString) :
    ∀ a : GoString, l.foldl (fun s n => s ++ n) a = a ++ l.flatten := by
  induction l with
  | nil => intro a; simp
  | cons x xs ih => intro a; simp [ih]

theorem concat_eq_flatten (l : List GoString) : concat l = l.flatten := by
  unfold concat
  rw [foldl_append_eq]
  simp

theorem concat_length_perm {l q : List GoString} (h : q.Perm l) :
    (concat q).length = (concat l).length := by
  rw [concat_eq_flatten, concat_eq_flatten, List.length_flatten, List.length_flatten]
  exact (h.map _).sum_eq

theorem concat_ne_nil (l : List GoString) (hl : 1 ≤ l.length) (htok : ∀ t ∈ l, t ≠ []) :
    concat l ≠ [] := by
  rw [concat_eq_flatten]
  cases l with
  | nil => simp at hl
  | cons x xs =>
    have := htok x (List.mem_cons_self _ _)
    simp [this]

theorem swapLoop_perm_of_mem (rec : List GoString → List (List GoString)) (index : Nat)
    (hrec : ∀ c q : List GoString, q ∈ rec c → q.Perm c) :
    ∀ (n j : Nat) (a : List GoString) (out : List (List GoString)) (q : List GoString),
      q ∈ (swapLoop rec index n j a out).2 → q ∈ out ∨ q.Perm a
  | 0, _, _, _, _, h => Or.inl h
  | n + 1, j, a, out, q, h => by
    simp only [swapLoop] at h
    rcases swapLoop_perm_of_mem rec index hrec n (j + 1) _ _ q h with h1 | h1
    · rcases List.mem_append.1 h1 with h2 | h2
      · exact Or.inl h2
      · exact Or.inr ((hrec _ _ h2).trans (swapAt_perm a index (index + j)))
    · exact Or.inr (h1.trans (swapAt_perm a index (index + j)))

/-- Every token list handed to `test` by `AllPermutations` is a rearrangement
of the argument, whether or not the tokens are distinct. -/
theorem AllPermutationsAux_perm_of_mem :
    ∀ (fuel : Nat) (l : List GoString) (index : Nat) (q : List GoString),
      q ∈ (AllPermutationsAux fuel l index).2 → q.Perm l
  | 0, l, _, q, h => by
    simp only [AllPermutationsAux, List.mem_singleton] at h
    rw [h]
  | fuel + 1, l, index, q, h => by
    simp only [AllPermutationsAux] at h
    split at h
    · simp only [List.mem_singleton] at h
      rw [h]
    · rcases swapLoop_perm_of_mem _ index
          (fun c q hq => AllPermutationsAux_perm_of_mem fuel c (index + 1) q hq) _ _ _ _ q h
        with h1 | h1
      · exact AllPermutationsAux_perm_of_mem fuel l (index + 1) q h1
      · exact h1.trans (AllPermutationsAux_fst fuel l (index + 1)).2

theorem AllPermutations_length (l : List GoString) :
    (AllPermutations l 0).2.length = l.length.factorial := by
  simpa using AllPermutationsAux_length (l.length - 0) l 0 (le_refl _)

/-- A run of `test` over candidates that are all non-empty and of a length
outside `[min_len, max_len]`, when no progress message can divide by zero:
every call adds one to `Skipped`, nothing is forwarded, the run goes on. -/
theorem testAll_skip (fl : Flags) :
    ∀ (calls : List (List GoString)) (st : St),
      (∀ q ∈ calls, concat q ≠ [] ∧
        (((concat q).length : Int) < fl.min_len ∨ ((concat q).length : Int) > fl.max_len)) →
      st.halted = false → st.params.Total ≠ 0 → wrapInt (st.params.RE * 10) ≠ 0 →
      (testAll fl calls st).halted = false ∧
      forwarded (testAll fl calls st).out = forwarded st.out ∧
      (testAll fl calls st).params.Skipped =
        (if calls = [] then st.params.Skipped
          else wrapInt (st.params.Skipped + (calls.length : Int)))
  | [], st, _, hh, _, _ => ⟨hh, rfl, rfl⟩
  | q :: calls, st, hq, hh, hT, hRE => by
    obtain ⟨hs, hr⟩ := hq q (List.mem_cons_self _ _)
    obtain ⟨hp, ⟨es, hes, hf⟩, hhalt⟩ := test_skip fl q st hs hr
    have hh1 : (test fl q st).halted = false := (hhalt hT hRE).trans hh
    have hT1 : (test fl q st).params.Total ≠ 0 := by rw [hp]; exact hT
    have hRE1 : wrapInt ((test fl q st).params.RE * 10) ≠ 0 := by rw [hp]; exact hRE
    have ih := testAll_skip fl calls (test fl q st)
      (fun q' hq' => hq q' (List.mem_cons_of_mem _ hq')) hh1 hT1 hRE1
    have hstep : testAll fl (q :: calls) st = testAll fl calls (test fl q st) := by
      simp [testAll, hh]
    rw [hstep]
    refine ⟨ih.1, ?_, ?_⟩
    · rw [ih.2.1, hes, forwarded_append, hf]
      simp
    · rw [ih.2.2, hp]
      simp only [List.cons_ne_nil, if_false, List.length_cons]
      split
      · next hc => subst hc; simp
      · rw [wrapInt_add_left]
        push_cast
        congr 1
        ring

/-- What the generation loop does, in unordered mode, with a selection of
`s ≥ 1` non-empty tokens whose concatenated length is outside
`[min_len, max_len]`: nothing is forwarded and `Skipped` becomes
`Skipped + s!` reduced to a Go `int`. -/
theorem processSelection_out_of_range (fl : Flags) (letters : List GoString) (st : St)
    (hmode : fl.keep_order = false) (hs : 1 ≤ letters.length)
    (htok : ∀ t ∈ letters, t ≠ [])
    (hr : ((concat letters).length : Int) < fl.min_len ∨
      ((concat letters).length : Int) > fl.max_len)
    (hh : st.halted = false) (hT : st.params.Total ≠ 0)
    (hRE : wrapInt (st.params.RE * 10) ≠ 0) :
    (processSelection fl letters st).halted = false ∧
    forwarded (processSelection fl letters st).out = forwarded st.out ∧
    (processSelection fl letters st).params.Skipped =
      wrapInt (st.params.Skipped + (letters.length.factorial : Int)) := by
  unfold processSelection
  simp only [hmode, Bool.false_eq_true, if_false]
  split
  · refine ⟨hh, rfl, ?_⟩
    exact wrapInt_congr ((fact_modEq letters.length).add_left _)
  · next hmax =>
    have hcalls : ∀ q ∈ (AllPermutations letters 0).2, concat q ≠ [] ∧
        (((concat q).length : Int) < fl.min_len ∨
          ((concat q).length : Int) > fl.max_len) := by
      intro q hq
      have hperm : q.Perm letters := AllPermutationsAux_perm_of_mem _ letters 0 q hq
      have hne : concat q ≠ [] :=
        concat_ne_nil q (by rw [hperm.length_eq]; exact hs)
          (fun t ht => htok t (hperm.subset ht))
      rw [concat_length_perm hperm]
      exact ⟨hne, hr⟩
    obtain ⟨h1, h2, h3⟩ := testAll_skip fl _ st hcalls hh hT hRE
    refine ⟨h1, h2, ?_⟩
    rw [h3, AllPermutations_length]
    have : (AllPermutations letters 0).2 ≠ [] := by
      intro h
      have hl := AllPermutations_length letters
      have hpos := Nat.factorial_pos letters.length
      rw [h, List.length_nil] at hl
      omega
    simp [this]

/-- C6 (amended). In unordered mode, for every selection of `s ≥ 1`
non-empty tokens whose concatenated length is less than `min_len` or greater
than `max_len`, in a run in which `Total ≠ 0` and the report interval is a
positive Go `int` (so that no progress message divides by zero) and in which
`Skipped + s!` does not exceed the largest Go `int`, processing that selection
forwards no candidate and increases `Skipped` by exactly `s!`. -/
theorem C6_unordered_skip_no_overflow (fl : Flags) (letters : List GoString) (st : St)
    (hmode : fl.keep_order = false) (hs : 1 ≤ letters.length)
    (htok : ∀ t ∈ letters, t ≠ [])
    (hr : ((concat letters).length : Int) < fl.min_len ∨
      ((concat letters).length : Int) > fl.max_len)
    (hh : st.halted = false) (hT : st.params.Total ≠ 0)
    (hRE1 : 1 ≤ st.params.RE) (hRE2 : st.params.RE ≤ maxInt)
    (hS1 : minInt ≤ st.params.Skipped)
    (hS2 : st.params.Skipped + (letters.length.factorial : Int) ≤ maxInt) :
    (processSelection fl letters st).halted = false ∧
    forwarded (processSelection fl letters st).out = forwarded st.out ∧
    (processSelection fl letters st).params.Skipped =
      st.params.Skipped + (letters.length.factorial : Int) := by
  obtain ⟨h1, h2, h3⟩ := processSelection_out_of_range fl letters st hmode hs htok hr hh hT
    (wrapInt_RE_ne_zero _ hRE1 hRE2)
  refine ⟨h1, h2, ?_⟩
  rw [h3]
  apply wrapInt_of_range _ _ hS2
  have : (0 : Int) ≤ (letters.length.factorial : Int) := Int.natCast_nonneg _
  omega

set_option maxRecDepth 100000 in
/-- C6 (amended) at the selection `["a", "b"]` with `min_len = 8`: both
orderings are skipped, `Skipped` goes from 5 to 7. -/
theorem C6_unordered_skip_no_overflow_witness :
    forwarded (processSelection ⟨8, 20, 4, false, false⟩ [ascii "a", ascii "b"]
        ⟨⟨0, 5, 18, 0, 1, 1⟩, [], false⟩).out = [] ∧
      (processSelection ⟨8, 20, 4, false, false⟩ [ascii "a", ascii "b"]
        ⟨⟨0, 5, 18, 0, 1, 1⟩, [], false⟩).params.Skipped = 7 :=
  ⟨(C6_unordered_skip_no_overflow ⟨8, 20, 4, false, false⟩ [ascii "a", ascii "b"]
      ⟨⟨0, 5, 18, 0, 1, 1⟩, [], false⟩ rfl (by decide) (by decide) (by decide) rfl
      (by decide) (by decide) (by decide) (by decide) (by decide)).2.1,
    (C6_unordered_skip_no_overflow ⟨8, 20, 4, false, false⟩ [ascii "a", ascii "b"]
      ⟨⟨0, 5, 18, 0, 1, 1⟩, [], false⟩ rfl (by decide) (by decide) (by decide) rfl
      (by decide) (by decide) (by decide) (by decide) (by decide)).2.2⟩

set_option maxRecDepth 100000 in
/-- C6 as stated fails: a selection of 21 one-byte tokens is longer than
`max_len = 20`, so `fact(21)` is added to `Skipped`; `21!` overflows the Go
`int`, and `Skipped` goes from 0 to a negative number instead of `21!`. -/
theorem C6_unordered_skip_counterexample :
    (processSelection ⟨8, 20, 4, false, false⟩ (List.replicate 21 (ascii "a"))
        ⟨⟨0, 0, 1, 0, 1, 1⟩, [], false⟩).params.Skipped = -4249290049419214848 ∧
      (0 : Int) + ((List.replicate 21 (ascii "a")).length.factorial : Int) =
        51090942171709440000 := by
  constructor <;> decide

/-- The proviso `Total ≠ 0` of C6 (amended) is needed: with `Total = 0` the
progress message of the first skipped ordering divides by zero, the run
panics, and `Skipped` has grown by one instead of `2!`. -/
theorem processSelection_panic_example :
    processSelection ⟨8, 20, 4, false, false⟩ [ascii "a", ascii "b"]
        ⟨⟨0, 9, 0, 100, 1, 1⟩, [], false⟩ =
      ⟨⟨0, 10, 0, 100, 1, 1⟩, [], true⟩ := by
  decide

/-- With `max_len ≥ 0` the empty selection changes nothing, in either
mode. -/
theorem processSelection_nil (fl : Flags) (st : St) (hmax : 0 ≤ fl.max_len) :
    processSelection fl [] st = st := by
  unfold processSelection
  by_cases hk : fl.keep_order = true
  · simp [hk, test, concat]
  · have hnot : ¬ ((0 : Int) > fl.max_len) := by omega
    simp [hk, concat, hnot, AllPermutations, AllPermutationsAux, testAll, test]

/-- C8. For every template the all-omitted selection vector selects no
token, and processing the empty selection, in keep-order and in unordered
mode alike (with `max_len ≥ 0`), leaves the whole state unchanged: nothing is
forwarded to the Validator, to a worker channel or to the dump file, and
`Skipped` keeps its value. -/
theorem C8_all_omitted_not_emitted (tpl : List Group) (fl : Flags) (st : St)
    (hmax : 0 ≤ fl.max_len) :
    selectLetters tpl (List.replicate tpl.length 0) = some [] ∧
      test fl [] st = st ∧ processSelection fl [] st = st := by
  refine ⟨?_, by simp [test, concat], processSelection_nil fl st hmax⟩
  induction tpl with
  | nil => rfl
  | cons g gs ih => simpa [selectLetters, List.replicate_succ] using ih

/-- C8 at a two-group template, unordered mode, default length bounds. -/
theorem C8_all_omitted_not_emitted_witness :
    processSelection ⟨8, 20, 4, false, false⟩ [] ⟨⟨0, 0, 18, 0, 1, 1⟩, [], false⟩ =
      ⟨⟨0, 0, 18, 0, 1, 1⟩, [], false⟩ :=
  (C8_all_omitted_not_emitted
    [⟨[ascii "a", ascii "b"], ⟨false, false⟩⟩,
     ⟨[ascii "x", ascii "y", ascii "z"], ⟨false, false⟩⟩]
    ⟨8, 20, 4, false, false⟩ ⟨⟨0, 0, 18, 0, 1, 1⟩, [], false⟩ (by decide)).2.2

/-! ## The generation loop -/

theorem foldl_bodyStep_halted (fl : Flags) (tpl : List Group) :
    ∀ (W : List (List Nat)) (st : St), st.halted = true →
      W.foldl (bodyStep fl tpl) st = st
  | [], _, _ => rfl
  | w :: W, st, h => by
    have hstep : bodyStep fl tpl st w = st := by simp [bodyStep, h]
    rw [List.foldl_cons, hstep]
    exact foldl_bodyStep_halted fl tpl W st h

/-- The generation loop runs the loop body over the vectors of the walk. -/
theorem mainLoop_eq_walk (fl : Flags) (tpl : List Group) :
    ∀ (fuel : Nat) (v : List Nat) (st : St) (W : List (List Nat)),
      st.halted = false → walk tpl fuel v = some W →
      mainLoop fl tpl fuel v st = some (W.foldl (bodyStep fl tpl) st)
  | 0, _, _, _, _, h => by simp [walk] at h
  | fuel + 1, v, st, W, hh, hW => by
    simp only [walk] at hW
    simp only [mainLoop]
    cases hb : (advance tpl v).2 with
    | true =>
      simp only [hb, if_true, Option.some.injEq] at hW
      subst hW
      simp only [List.foldl_cons, List.foldl_nil, bodyStep, hh, Bool.false_eq_true, if_false]
      cases selectLetters tpl v with
      | none => rfl
      | some letters => simp
    | false =>
      simp only [hb, Bool.false_eq_true, if_false] at hW
      cases hW' : walk tpl fuel (advance tpl v).1 with
      | none => simp [hW'] at hW
      | some W' =>
        simp only [hW', Option.map_some', Option.some.injEq] at hW
        subst hW
        simp only [List.foldl_cons]
        have hstep : bodyStep fl tpl st v =
            (match selectLetters tpl v with
              | none => { st with halted := true }
              | some letters => processSelection fl letters st) := by
          simp [bodyStep, hh]
        rw [hstep]
        cases selectLetters tpl v with
        | none =>
          simp only
          rw [foldl_bodyStep_halted fl tpl W' _ rfl]
        | some letters =>
          simp only
          by_cases hh1 : (processSelection fl letters st).halted = true
          · simp only [hh1, if_true]
            rw [foldl_bodyStep_halted fl tpl W' _ hh1]
          · simp only [hh1, Bool.false_eq_true, if_false]
            simp only [Bool.not_eq_true] at hh1
            exact mainLoop_eq_walk fl tpl fuel _ _ W' hh1 hW'

/-- On a valid vector, over a template whose tokens are non-empty, the
letters are found (no index is out of range), there are as many of them as
non-zero entries, and none is empty. -/
theorem selectLetters_valid :
    ∀ (tpl : List Group) (w : List Nat), validVector tpl w = true →
      (∀ g ∈ tpl, ∀ t ∈ g.tokens, t ≠ []) →
      ∃ L, selectLetters tpl w = some L ∧ L.length = selectedCount w ∧ ∀ t ∈ L, t ≠ []
  | [], [], _, _ => ⟨[], rfl, rfl, by simp⟩
  | [], _ :: _, h, _ => by simp [validVector] at h
  | _ :: _, [], h, _ => by simp [validVector] at h
  | g :: gs, k :: ks, h, htok => by
    rw [validVector_cons] at h
    obtain ⟨L, hL, hlen, hne⟩ := selectLetters_valid gs ks h.2.2
      (fun g' hg' => htok g' (List.mem_cons_of_mem _ hg'))
    by_cases hk : k = 0
    · subst hk
      exact ⟨L, by simp [selectLetters, hL], by simp [selectedCount] at hlen ⊢; exact hlen, hne⟩
    · have hk1 : k - 1 < g.tokens.length := by omega
      refine ⟨g.tokens[k - 1] :: L, ?_, ?_, ?_⟩
      · have hpos : k > 0 := by omega
        simp [selectLetters, hpos, List.getElem?_eq_getElem hk1, hL]
      · simp [selectedCount, hk] at hlen ⊢
        exact hlen
      · intro t ht
        rcases List.mem_cons.1 ht with h1 | h1
        · rw [h1]
          exact htok g (List.mem_cons_self _ _) _ (List.getElem_mem _)
        · exact hne t h1

theorem test_frame (fl : Flags) (l : List GoString) (st : St) :
    (test fl l st).params.Total = st.params.Total ∧
      (test fl l st).params.RE = st.params.RE := by
  unfold test
  simp only [Test_pass]
  split_ifs <;> exact ⟨rfl, rfl⟩

theorem countP_zero_map_cons (k : Nat) (X : List (List Nat)) :
    (X.map (fun ks => k :: ks)).countP (fun v => selectedCount v = 0) =
      if k = 0 then X.countP (fun v => selectedCount v = 0) else 0 := by
  rw [List.countP_map]
  by_cases hk : k = 0
  · subst hk
    simp only [if_true]
    apply List.countP_congr
    intro v _
    simp [selectedCount]
  · simp only [hk, if_false]
    rw [List.countP_eq_zero]
    intro v _
    simp [selectedCount, hk]

theorem countP_zero_flatMap_pos (X : List (List Nat)) :
    ∀ L : List Nat, (∀ k ∈ L, k ≠ 0) →
      (L.flatMap (fun k => X.map (fun ks => k :: ks))).countP
        (fun v => selectedCount v = 0) = 0
  | [], _ => rfl
  | k :: L, h => by
    rw [List.flatMap_cons, List.countP_append, countP_zero_map_cons,
      countP_zero_flatMap_pos X L (fun k' hk' => h k' (List.mem_cons_of_mem _ hk'))]
    simp [h k (List.mem_cons_self _ _)]

/-- The number `C(0)` of valid vectors that select nothing: one (the
all-omitted vector) when no group is `UseAlways`, none otherwise. -/
theorem vectorsSelecting_zero :
    ∀ tpl : List Group, vectorsSelecting tpl 0 = if anyUseAlways tpl then 0 else 1
  | [] => by simp [vectorsSelecting, validVectors, anyUseAlways, selectedCount]
  | g :: gs => by
    have ih := vectorsSelecting_zero gs
    unfold vectorsSelecting at ih ⊢
    simp only [validVectors]
    by_cases hg : g.flags.UseAlways = true
    · have hm : minIndex g = 1 := by simp [minIndex, hg]
      rw [hm, countP_zero_flatMap_pos _ _ (fun k hk => by
        have := (List.mem_range'_1.1 hk).1
        omega)]
      simp [anyUseAlways, hg]
    · have hm : minIndex g = 0 := by simp [minIndex, hg]
      have hr : radix g = g.tokens.length + 1 := by simp [radix, hg]
      rw [hm, hr, List.range'_succ, List.flatMap_cons, List.countP_append,
        countP_zero_map_cons, countP_zero_flatMap_pos _ _ (fun k hk => by
          have := (List.mem_range'_1.1 hk).1
          omega)]
      simp only [if_true, add_zero, ih]
      simp [anyUseAlways, hg]

theorem countP_selecting_validVectors (tpl : List Group) :
    (((validVectors tpl).countP (fun v => selectedCount v ≠ 0) : Nat) : Int) =
      orderedTotalSpec tpl := by
  have h1 := List.length_eq_countP_add_countP (fun v => decide (selectedCount v = 0))
    (validVectors tpl)
  have h2 := vectorsSelecting_zero tpl
  unfold vectorsSelecting at h2
  rw [length_validVectors, h2] at h1
  have h3 : (validVectors tpl).countP (fun v => decide (selectedCount v ≠ 0)) =
      (validVectors tpl).countP (fun a => ¬ decide (selectedCount a = 0) = true) := by
    apply List.countP_congr
    intro v _
    simp
  unfold orderedTotalSpec
  rw [h3]
  split at h1 <;> simp_all

/-- One iteration of the generation loop in keep-order mode, at a valid
vector: a non-empty selection is either forwarded or counted in `Skipped`, the
all-omitted selection changes nothing, and the run does not panic. -/
theorem bodyStep_keep_order (fl : Flags) (tpl : List Group) (st : St) (w : List Nat)
    (hmode : fl.keep_order = true) (hv : validVector tpl w = true)
    (htok : ∀ g ∈ tpl, ∀ t ∈ g.tokens, t ≠ [])
    (hh : st.halted = false) (hT : st.params.Total ≠ 0)
    (hRE : wrapInt (st.params.RE * 10) ≠ 0)
    (hS1 : minInt ≤ st.params.Skipped)
    (hS2 : st.params.Skipped + (if selectedCount w ≠ 0 then 1 else 0) ≤ maxInt)
    (hthr : 1 ≤ fl.n_threads) (hN1 : 0 ≤ st.params.N)
    (hN2 : st.params.N + (if selectedCount w ≠ 0 then 1 else 0) ≤ maxInt) :
    (bodyStep fl tpl st w).halted = false ∧
    (bodyStep fl tpl st w).params.Total = st.params.Total ∧
    (bodyStep fl tpl st w).params.RE = st.params.RE ∧
    st.params.Skipped ≤ (bodyStep fl tpl st w).params.Skipped ∧
    (bodyStep fl tpl st w).params.Skipped ≤
      st.params.Skipped + (if selectedCount w ≠ 0 then 1 else 0) ∧
    ((forwarded (bodyStep fl tpl st w).out).length : Int) +
        (bodyStep fl tpl st w).params.Skipped =
      ((forwarded st.out).length : Int) + st.params.Skipped +
        (if selectedCount w ≠ 0 then 1 else 0) ∧
    st.params.N ≤ (bodyStep fl tpl st w).params.N ∧
    (bodyStep fl tpl st w).params.N ≤
      st.params.N + (if selectedCount w ≠ 0 then 1 else 0) := by
  obtain ⟨L, hL, hlen, hne⟩ := selectLetters_valid tpl w hv htok
  have hstep : bodyStep fl tpl st w = test fl L st := by
    simp [bodyStep, hh, hL, processSelection, hmode]
  rw [hstep]
  obtain ⟨hfT, hfR⟩ := test_frame fl L st
  by_cases hz : selectedCount w = 0
  · have hnil : L = [] := List.length_eq_zero.1 (hlen.trans hz)
    subst hnil
    have : test fl [] st = st := by simp [test, concat]
    rw [this]
    simp [hz, hh]
  · have hs : concat L ≠ [] := concat_ne_nil L (by omega) hne
    simp only [hz, ne_eq, not_false_eq_true, if_true] at hS2 hN2 ⊢
    by_cases hr : ((concat L).length : Int) < fl.min_len ∨
        ((concat L).length : Int) > fl.max_len
    · obtain ⟨hp, ⟨es, hes, hf⟩, hhalt⟩ := test_skip fl L st hs hr
      have hsk : (test fl L st).params.Skipped = st.params.Skipped + 1 := by
        rw [hp]
        exact wrapInt_of_range _ (by omega) (by omega)
      have hN : (test fl L st).params.N = st.params.N := by rw [hp]
      refine ⟨(hhalt hT hRE).trans hh, hfT, hfR, by omega, by omega, ?_, by omega, by omega⟩
      rw [hes, forwarded_append, hf, hsk]
      simp
      ring
    · obtain ⟨hp, hfw, _⟩ := test_forward fl L st hs hr
      obtain ⟨⟨e, he, hf⟩, hhalt⟩ := hfw (canForward_of_nonneg fl st.params hthr hN1)
      obtain ⟨n1, n2, n3⟩ := test_N_le fl L st hN1 (by omega)
      refine ⟨hhalt.trans hh, hfT, hfR, by omega, by omega, ?_, n1, by omega⟩
      rw [he, forwarded_append, hf, hp]
      simp
      ring

/-- The generation loop in keep-order mode over a list of valid vectors:
forwarded candidates plus `Skipped` grow by the number of vectors that select
at least one token. -/
theorem foldl_bodyStep_keep_order (fl : Flags) (tpl : List Group)
    (hmode : fl.keep_order = true) (htok : ∀ g ∈ tpl, ∀ t ∈ g.tokens, t ≠ []) :
    ∀ (W : List (List Nat)) (st : St), (∀ w ∈ W, validVector tpl w = true) →
      st.halted = false → st.params.Total ≠ 0 → wrapInt (st.params.RE * 10) ≠ 0 →
      minInt ≤ st.params.Skipped →
      st.params.Skipped + ((W.countP (fun v => selectedCount v ≠ 0) : Nat) : Int) ≤ maxInt →
      1 ≤ fl.n_threads → 0 ≤ st.params.N →
      st.params.N + ((W.countP (fun v => selectedCount v ≠ 0) : Nat) : Int) ≤ maxInt →
      (W.foldl (bodyStep fl tpl) st).halted = false ∧
      ((forwarded (W.foldl (bodyStep fl tpl) st).out).length : Int) +
          (W.foldl (bodyStep fl tpl) st).params.Skipped =
        ((forwarded st.out).length : Int) + st.params.Skipped +
          ((W.countP (fun v => selectedCount v ≠ 0) : Nat) : Int)
  | [], st, _, hh, _, _, _, _, _, _, _ => by simp [hh]
  | w :: W, st, hv, hh, hT, hRE, hS1, hS2, hthr, hN1, hN2 => by
    have hcount : ((((w :: W).countP (fun v => selectedCount v ≠ 0) : Nat)) : Int) =
        ((W.countP (fun v => selectedCount v ≠ 0) : Nat) : Int) +
          (if selectedCount w ≠ 0 then 1 else 0) := by
      rw [List.countP_cons]
      by_cases hz : selectedCount w = 0 <;> simp [hz]
    rw [hcount] at hS2 hN2 ⊢
    have hnn : (0 : Int) ≤ ((W.countP (fun v => selectedCount v ≠ 0) : Nat) : Int) :=
      Int.natCast_nonneg _
    obtain ⟨h1, h2, h3, h4, h5, h6, h7, h8⟩ := bodyStep_keep_order fl tpl st w hmode
      (hv w (List.mem_cons_self _ _)) htok hh hT hRE hS1 (by omega) hthr hN1 (by omega)
    obtain ⟨k1, k2⟩ := foldl_bodyStep_keep_order fl tpl hmode htok W (bodyStep fl tpl st w)
      (fun w' hw' => hv w' (List.mem_cons_of_mem _ hw')) h1 (by rw [h2]; exact hT)
      (by rw [h3]; exact hRE) (by omega) (by omega) hthr (by omega) (by omega)
    rw [List.foldl_cons]
    refine ⟨k1, ?_⟩
    rw [k2, h6]
    ring

theorem radixProduct_pos (tpl : List Group) (hne : ∀ g ∈ tpl, g.tokens ≠ []) :
    1 ≤ radixProduct tpl := by
  induction tpl with
  | nil => simp [radixProduct]
  | cons g gs ih =>
    have hg : g.tokens ≠ [] := hne g (List.mem_cons_self _ _)
    have hlen : 1 ≤ g.tokens.length := List.length_pos.2 hg
    have hr : 1 ≤ radix g := by
      unfold radix
      split <;> omega
    rw [radixProduct_cons]
    exact Nat.mul_pos hr (ih (fun g' hg' => hne g' (List.mem_cons_of_mem _ hg')))

/-- For a template with at least one group, all groups non-empty, the
specification's keep-order total is at least one. -/
theorem orderedTotalSpec_pos (tpl : List Group) (htpl : tpl ≠ [])
    (hne : ∀ g ∈ tpl, g.tokens ≠ []) : 1 ≤ orderedTotalSpec tpl := by
  cases tpl with
  | nil => exact absurd rfl htpl
  | cons g gs =>
    have hgs := radixProduct_pos gs (fun g' hg' => hne g' (List.mem_cons_of_mem _ hg'))
    have hg : g.tokens ≠ [] := hne g (List.mem_cons_self _ _)
    have hlen : 1 ≤ g.tokens.length := List.length_pos.2 hg
    have hall := radixProduct_pos (g :: gs) hne
    unfold orderedTotalSpec
    by_cases ha : anyUseAlways (g :: gs) = true
    · simp only [ha, if_true, sub_zero]
      exact_mod_cast hall
    · simp only [ha, Bool.false_eq_true, if_false]
      have hgf : g.flags.UseAlways = false := by
        simp only [anyUseAlways, List.any_cons, Bool.or_eq_true, not_or,
          Bool.not_eq_true] at ha
        exact ha.1
      have hr : radix g = g.tokens.length + 1 := by simp [radix, hgf]
      have h2 : 2 ≤ radixProduct (g :: gs) := by
        rw [radixProduct_cons, hr]
        calc 2 = 2 * 1 := rfl
          _ ≤ (g.tokens.length + 1) * radixProduct gs := Nat.mul_le_mul (by omega) hgs
      have : (2 : Int) ≤ (radixProduct (g :: gs) : Int) := by exact_mod_cast h2
      omega

/-- C2 (amended). In keep-order mode, for every template with at least one
group, all groups non-empty and all tokens non-empty, whose product of radices
fits a Go `int`: started at the beginning of a run (`N = 0`, `Skipped = 0`, an
empty trace) with at least one thread, `Total` the precomputed keep-order
total and a positive report interval, the generation loop runs to exhaustion
(it leaves by the labelled `break` within `radixProduct tpl` iterations,
without panic), and then the number of candidates forwarded by `test` plus the
final `Skipped` equals the precomputed `Total`. -/
theorem C2_keep_order_forwarded_plus_skipped (fl : Flags) (tpl : List Group) (st : St)
    (fuel : Nat) (hmode : fl.keep_order = true) (htpl : tpl ≠ [])
    (hne : ∀ g ∈ tpl, g.tokens ≠ []) (htok : ∀ g ∈ tpl, ∀ t ∈ g.tokens, t ≠ [])
    (hfit : (radixProduct tpl : Int) ≤ maxInt) (hfuel : radixProduct tpl ≤ fuel)
    (hthr : 1 ≤ fl.n_threads)
    (hh : st.halted = false) (hout : st.out = []) (hN : st.params.N = 0)
    (hS : st.params.Skipped = 0) (hT : st.params.Total = orderedTotal tpl)
    (hRE1 : 1 ≤ st.params.RE) (hRE2 : st.params.RE ≤ maxInt) :
    ∃ st', generate fl tpl fuel st = some st' ∧ st'.halted = false ∧
      ((forwarded st'.out).length : Int) + st'.params.Skipped = orderedTotal tpl := by
  obtain ⟨W, hW, _, hperm⟩ := walk_initIndexes tpl htpl hne fuel hfuel
  have hval : ∀ w ∈ W, validVector tpl w = true :=
    fun w hw => (mem_validVectors tpl w).1 (hperm.subset hw)
  have hcount : ((W.countP (fun v => selectedCount v ≠ 0) : Nat) : Int) =
      orderedTotalSpec tpl := by
    rw [hperm.countP_eq, countP_selecting_validVectors]
  have hspec := orderedTotal_of_fit tpl hfit
  have hpos := orderedTotalSpec_pos tpl htpl hne
  have hle : orderedTotalSpec tpl ≤ maxInt := by
    unfold orderedTotalSpec
    split <;> omega
  obtain ⟨h1, h2⟩ := foldl_bodyStep_keep_order fl tpl hmode htok W st hval hh
    (by rw [hT, hspec]; omega) (wrapInt_RE_ne_zero _ hRE1 hRE2)
    (by rw [hS]; unfold minInt; omega) (by rw [hS, hcount]; omega)
    hthr (by rw [hN]) (by rw [hN, hcount]; omega)
  refine ⟨_, mainLoop_eq_walk fl tpl fuel _ st W hh hW, h1, ?_⟩
  rw [h2, hout, hS, hcount, hspec]
  simp [forwarded]

set_option maxRecDepth 100000 in
/-- C2 (amended) at two `UseAlways`-free groups of sizes 2 and 3 with length
bounds 2 and 20: the run ends, 6 candidates are forwarded, 5 are skipped, and
`Total = 11`. -/
theorem C2_keep_order_forwarded_plus_skipped_witness :
    ∃ st', generate ⟨2, 20, 1, true, false⟩
        [⟨[ascii "a", ascii "b"], ⟨false, false⟩⟩,
         ⟨[ascii "x", ascii "y", ascii "z"], ⟨false, false⟩⟩] 12
        ⟨⟨0, 0, 11, 0, 1, 1⟩, [], false⟩ = some st' ∧ st'.halted = false ∧
      ((forwarded st'.out).length : Int) + st'.params.Skipped = 11 :=
  C2_keep_order_forwarded_plus_skipped ⟨2, 20, 1, true, false⟩
    [⟨[ascii "a", ascii "b"], ⟨false, false⟩⟩,
     ⟨[ascii "x", ascii "y", ascii "z"], ⟨false, false⟩⟩] ⟨⟨0, 0, 11, 0, 1, 1⟩, [], false⟩ 12
    rfl (by decide) (by decide) (by decide) (by decide) (by decide) (by decide) rfl rfl rfl rfl
    (by decide) (by decide) (by decide)

/-- The letters of one iteration are at most one token per group: when no
token is longer than `m`, their concatenation is no longer than
`m * len(templates)`. -/
theorem selectLetters_length_le (m : Nat) :
    ∀ (tpl : List Group) (v : List Nat) (L : List GoString),
      (∀ g ∈ tpl, ∀ t ∈ g.tokens, t.length ≤ m) → selectLetters tpl v = some L →
      (concat L).length ≤ m * tpl.length
  | [], v, L, _, h => by
    simp only [selectLetters, Option.some.injEq] at h
    subst h
    simp [concat]
  | _ :: _, [], L, _, h => by
    simp only [selectLetters, Option.some.injEq] at h
    subst h
    simp [concat]
  | g :: gs, k :: ks, L, hm, h => by
    have ih := selectLetters_length_le m gs ks
    have hm' : ∀ g' ∈ gs, ∀ t ∈ g'.tokens, t.length ≤ m :=
      fun g' hg' => hm g' (List.mem_cons_of_mem _ hg')
    simp only [selectLetters] at h
    rw [List.length_cons, Nat.mul_succ]
    split at h
    · cases hget : g.tokens[k - 1]? with
      | none => simp [hget] at h
      | some t =>
        simp only [hget, Option.map_eq_some'] at h
        obtain ⟨r, hr, hL⟩ := h
        subst hL
        have ht : t.length ≤ m := hm g (List.mem_cons_self _ _) t (List.mem_iff_getElem?.2 ⟨_, hget⟩)
        have := ih r hm' hr
        rw [concat_eq_flatten] at this ⊢
        rw [List.flatten_cons, List.length_append]
        omega
    · have := ih L hm' h
      omega

/-- In keep-order mode, when every selection of the template is empty or of
a length inside `[min_len, max_len]`, the generation loop leaves `Skipped` as
it was, however it ends. -/
theorem mainLoop_keep_order_no_skip (fl : Flags) (tpl : List Group)
    (hmode : fl.keep_order = true)
    (hin : ∀ (v : List Nat) (L : List GoString), selectLetters tpl v = some L →
      concat L = [] ∨ ¬ (((concat L).length : Int) < fl.min_len ∨
        ((concat L).length : Int) > fl.max_len)) :
    ∀ (fuel : Nat) (v : List Nat) (st st' : St),
      mainLoop fl tpl fuel v st = some st' → st'.params.Skipped = st.params.Skipped
  | 0, _, _, _, h => by simp [mainLoop] at h
  | fuel + 1, v, st, st', h => by
    simp only [mainLoop] at h
    split at h
    · simp only [Option.some.injEq] at h
      rw [← h]
    · next letters hsel =>
      have hb : (processSelection fl letters st).params.Skipped = st.params.Skipped := by
        unfold processSelection
        rw [if_pos hmode]
        rcases hin v letters hsel with h0 | hr
        · have : test fl letters st = st := by simp [test, h0]
          rw [this]
        · by_cases h0 : concat letters = []
          · have : test fl letters st = st := by simp [test, h0]
            rw [this]
          · exact (test_forward fl letters st h0 hr).1
      split at h
      · simp only [Option.some.injEq] at h
        rw [← h]
        exact hb
      · split at h
        · simp only [Option.some.injEq] at h
          rw [← h]
          exact hb
        · exact (mainLoop_keep_order_no_skip fl tpl hmode hin fuel _ _ st' h).trans hb

set_option maxRecDepth 100000 in
/-- C2 as stated fails when the product of radices overflows the Go `int`.
For the template of 64 lines `a` (64 groups of one token, none `UseAlways`)
the precomputed `Total` is `2^64 - 1` reduced to 64 bits, that is `-1`.  With
the length bounds 1 and 64 no candidate is skipped: the generation loop ends
(within `2^64` iterations) and, however it ends, `Skipped` is still 0, so the
number of forwarded candidates plus `Skipped` is not negative and differs from
`Total`. -/
theorem C2_keep_order_total_counterexample :
    orderedTotal (List.replicate 64 ⟨[ascii "a"], ⟨false, false⟩⟩) = -1 ∧
    (∃ st', generate ⟨1, 64, 1, true, false⟩
        (List.replicate 64 ⟨[ascii "a"], ⟨false, false⟩⟩) 18446744073709551616
        ⟨⟨0, 0, -1, 0, 1, 0⟩, [], false⟩ = some st') ∧
    ∀ (fuel : Nat) (st' : St),
      generate ⟨1, 64, 1, true, false⟩
        (List.replicate 64 ⟨[ascii "a"], ⟨false, false⟩⟩) fuel
        ⟨⟨0, 0, -1, 0, 1, 0⟩, [], false⟩ = some st' →
      st'.params.Skipped = 0 ∧
      ((forwarded st'.out).length : Int) + st'.params.Skipped ≠
        orderedTotal (List.replicate 64 ⟨[ascii "a"], ⟨false, false⟩⟩) := by
  have hT : orderedTotal (List.replicate 64 ⟨[ascii "a"], ⟨false, false⟩⟩) = -1 := by decide
  have hne : ∀ g ∈ List.replicate 64 (⟨[ascii "a"], ⟨false, false⟩⟩ : Group),
      g.tokens ≠ [] := by
    intro g hg
    rw [List.eq_of_mem_replicate hg]
    decide
  have hlen : ∀ g ∈ List.replicate 64 (⟨[ascii "a"], ⟨false, false⟩⟩ : Group),
      ∀ t ∈ g.tokens, t.length ≤ 1 := by
    intro g hg t ht
    rw [List.eq_of_mem_replicate hg] at ht
    rw [List.mem_singleton.1 ht]
    decide
  refine ⟨hT, ?_, ?_⟩
  · obtain ⟨W, hW, _, _⟩ := walk_initIndexes
      (List.replicate 64 ⟨[ascii "a"], ⟨false, false⟩⟩) (by decide) hne
      18446744073709551616 (by decide)
    exact ⟨_, mainLoop_eq_walk _ _ _ _ _ W rfl hW⟩
  · intro fuel st' h
    have hS : st'.params.Skipped = 0 := by
      refine mainLoop_keep_order_no_skip ⟨1, 64, 1, true, false⟩ _ rfl ?_ fuel _ _ st' h
      intro v L hsel
      have hb := selectLetters_length_le 1 _ v L hlen hsel
      rw [List.length_replicate] at hb
      by_cases h0 : concat L = []
      · exact Or.inl h0
      · right
        have hpos : 0 < (concat L).length := List.length_pos.2 h0
        show ¬ (((concat L).length : Int) < 1 ∨ ((concat L).length : Int) > 64)
        omega
    refine ⟨hS, ?_⟩
    rw [hS, hT]
    omega

/-! ## The generation loop in unordered mode -/

theorem testAll_frame (fl : Flags) :
    ∀ (calls : List (List GoString)) (st : St),
      (testAll fl calls st).params.Total = st.params.Total ∧
        (testAll fl calls st).params.RE = st.params.RE
  | [], _ => ⟨rfl, rfl⟩
  | q :: calls, st => by
    by_cases hh : st.halted = true
    · have hstep : testAll fl (q :: calls) st = testAll fl calls st := by
        simp [testAll, hh]
      rw [hstep]
      exact testAll_frame fl calls st
    · have hstep : testAll fl (q :: calls) st = testAll fl calls (test fl q st) := by
        simp [testAll, hh]
      rw [hstep]
      obtain ⟨h1, h2⟩ := testAll_frame fl calls (test fl q st)
      obtain ⟨k1, k2⟩ := test_frame fl q st
      exact ⟨h1.trans k1, h2.trans k2⟩

theorem processSelection_frame (fl : Flags) (letters : List GoString) (st : St) :
    (processSelection fl letters st).params.Total = st.params.Total ∧
      (processSelection fl letters st).params.RE = st.params.RE := by
  unfold processSelection
  split
  · exact test_frame fl letters st
  · split
    · exact ⟨rfl, rfl⟩
    · exact testAll_frame fl _ st

/-- The counter `N` under a run of `test` over a list of candidates, as
long as it does not overflow: it grows by at most the number of candidates
forwarded. -/
theorem testAll_N_le (fl : Flags) :
    ∀ (calls : List (List GoString)) (st : St),
      0 ≤ st.params.N → st.params.N + (calls.length : Int) ≤ maxInt →
      st.params.N ≤ (testAll fl calls st).params.N ∧
      (testAll fl calls st).params.N - st.params.N ≤
        ((forwarded (testAll fl calls st).out).length : Int) -
          ((forwarded st.out).length : Int)
  | [], st, _, _ => by simp [testAll]
  | q :: calls, st, hN1, hN2 => by
    rw [List.length_cons] at hN2
    push_cast at hN2
    have hnn : (0 : Int) ≤ (calls.length : Int) := Int.natCast_nonneg _
    by_cases hh : st.halted = true
    · have hstep : testAll fl (q :: calls) st = testAll fl calls st := by
        simp [testAll, hh]
      rw [hstep]
      exact testAll_N_le fl calls st hN1 (by omega)
    · have hstep : testAll fl (q :: calls) st = testAll fl calls (test fl q st) := by
        simp [testAll, hh]
      rw [hstep]
      obtain ⟨n1, n2, n3⟩ := test_N_le fl q st hN1 (by omega)
      obtain ⟨k1, k2⟩ := testAll_N_le fl calls (test fl q st) (by omega) (by omega)
      exact ⟨by omega, by omega⟩

/-- The counter `N` under the processing of one selection in unordered
mode, as long as it does not overflow: it grows by at most the number of
candidates forwarded. -/
theorem processSelection_N_le (fl : Flags) (letters : List GoString) (st : St)
    (hmode : fl.keep_order = false) (hN1 : 0 ≤ st.params.N)
    (hN2 : st.params.N + (letters.length.factorial : Int) ≤ maxInt) :
    st.params.N ≤ (processSelection fl letters st).params.N ∧
    (processSelection fl letters st).params.N - st.params.N ≤
      ((forwarded (processSelection fl letters st).out).length : Int) -
        ((forwarded st.out).length : Int) := by
  unfold processSelection
  simp only [hmode, Bool.false_eq_true, if_false]
  split
  · simp
  · exact testAll_N_le fl _ st hN1 (by rw [AllPermutations_length]; exact hN2)

/-- A run of `test` over candidates that are all non-empty and of a length
inside `[min_len, max_len]`, with at least one thread and a counter `N` that
does not overflow: every one is forwarded, `Skipped` is unchanged. -/
theorem testAll_forward (fl : Flags) (hthr : 1 ≤ fl.n_threads) :
    ∀ (calls : List (List GoString)) (st : St),
      (∀ q ∈ calls, concat q ≠ [] ∧
        ¬ (((concat q).length : Int) < fl.min_len ∨
          ((concat q).length : Int) > fl.max_len)) →
      st.halted = false →
      0 ≤ st.params.N → st.params.N + (calls.length : Int) ≤ maxInt →
      (testAll fl calls st).halted = false ∧
      forwarded (testAll fl calls st).out = forwarded st.out ++ calls.map concat ∧
      (testAll fl calls st).params.Skipped = st.params.Skipped
  | [], st, _, hh, _, _ => ⟨hh, by simp [testAll], rfl⟩
  | q :: calls, st, hq, hh, hN1, hN2 => by
    rw [List.length_cons] at hN2
    push_cast at hN2
    have hnn : (0 : Int) ≤ (calls.length : Int) := Int.natCast_nonneg _
    obtain ⟨hs, hr⟩ := hq q (List.mem_cons_self _ _)
    obtain ⟨hp, hfw, _⟩ := test_forward fl q st hs hr
    obtain ⟨⟨e, he, hf⟩, hhalt⟩ := hfw (canForward_of_nonneg fl st.params hthr hN1)
    obtain ⟨n1, n2, n3⟩ := test_N_le fl q st hN1 (by omega)
    have ih := testAll_forward fl hthr calls (test fl q st)
      (fun q' hq' => hq q' (List.mem_cons_of_mem _ hq')) (hhalt.trans hh)
      (by omega) (by omega)
    have hstep : testAll fl (q :: calls) st = testAll fl calls (test fl q st) := by
      simp [testAll, hh]
    rw [hstep]
    refine ⟨ih.1, ?_, ih.2.2.trans hp⟩
    rw [ih.2.1, he, forwarded_append, hf]
    simp

/-- One iteration of the generation loop in unordered mode, at a valid
vector that selects `s` tokens: forwarded candidates plus `Skipped` grow by
`s!` if `s ≥ 1`, and not at all for the all-omitted vector. -/
theorem bodyStep_unordered (fl : Flags) (tpl : List Group) (st : St) (w : List Nat)
    (hmode : fl.keep_order = false) (hmax : 0 ≤ fl.max_len)
    (hv : validVector tpl w = true) (htok : ∀ g ∈ tpl, ∀ t ∈ g.tokens, t ≠ [])
    (hh : st.halted = false) (hT : st.params.Total ≠ 0)
    (hRE : wrapInt (st.params.RE * 10) ≠ 0) (hS1 : minInt ≤ st.params.Skipped)
    (hS2 : st.params.Skipped +
      (if selectedCount w ≠ 0 then ((selectedCount w).factorial : Int) else 0) ≤ maxInt)
    (hthr : 1 ≤ fl.n_threads) (hN1 : 0 ≤ st.params.N)
    (hN2 : st.params.N +
      (if selectedCount w ≠ 0 then ((selectedCount w).factorial : Int) else 0) ≤ maxInt) :
    (bodyStep fl tpl st w).halted = false ∧
    (bodyStep fl tpl st w).params.Total = st.params.Total ∧
    (bodyStep fl tpl st w).params.RE = st.params.RE ∧
    st.params.Skipped ≤ (bodyStep fl tpl st w).params.Skipped ∧
    (bodyStep fl tpl st w).params.Skipped ≤ st.params.Skipped +
      (if selectedCount w ≠ 0 then ((selectedCount w).factorial : Int) else 0) ∧
    ((forwarded (bodyStep fl tpl st w).out).length : Int) +
        (bodyStep fl tpl st w).params.Skipped =
      ((forwarded st.out).length : Int) + st.params.Skipped +
        (if selectedCount w ≠ 0 then ((selectedCount w).factorial : Int) else 0) ∧
    st.params.N ≤ (bodyStep fl tpl st w).params.N ∧
    (bodyStep fl tpl st w).params.N ≤ st.params.N +
      (if selectedCount w ≠ 0 then ((selectedCount w).factorial : Int) else 0) := by
  obtain ⟨L, hL, hlen, hne⟩ := selectLetters_valid tpl w hv htok
  have hstep : bodyStep fl tpl st w = processSelection fl L st := by
    simp [bodyStep, hh, hL]
  rw [hstep]
  obtain ⟨hfT, hfR⟩ := processSelection_frame fl L st
  have hfac : (0 : Int) ≤ ((selectedCount w).factorial : Int) := Int.natCast_nonneg _
  by_cases hz : selectedCount w = 0
  · have hnil : L = [] := List.length_eq_zero.1 (hlen.trans hz)
    subst hnil
    rw [processSelection_nil fl st hmax]
    simp [hz, hh]
  · simp only [hz, ne_eq, not_false_eq_true, if_true] at hS2 hN2 ⊢
    have hL1 : 1 ≤ L.length := by omega
    obtain ⟨n1, n2⟩ := processSelection_N_le fl L st hmode hN1 (by rw [hlen]; exact hN2)
    by_cases hr : ((concat L).length : Int) < fl.min_len ∨
        ((concat L).length : Int) > fl.max_len
    · obtain ⟨h1, h2, h3⟩ := processSelection_out_of_range fl L st hmode hL1 hne hr hh hT hRE
      rw [hlen] at h3
      have hsk : (processSelection fl L st).params.Skipped =
          st.params.Skipped + ((selectedCount w).factorial : Int) := by
        rw [h3]
        exact wrapInt_of_range _ (by omega) hS2
      rw [h2] at n2
      refine ⟨h1, hfT, hfR, by omega, by omega, ?_, n1, by omega⟩
      rw [h2, hsk]
      ring
    · have hnot : ¬ (((concat L).length : Int) > fl.max_len) := fun h => hr (Or.inr h)
      have hps : processSelection fl L st = testAll fl (AllPermutations L 0).2 st := by
        simp [processSelection, hmode, hnot]
      have hcalls : ∀ q ∈ (AllPermutations L 0).2, concat q ≠ [] ∧
          ¬ (((concat q).length : Int) < fl.min_len ∨
            ((concat q).length : Int) > fl.max_len) := by
        intro q hq
        have hperm : q.Perm L := AllPermutationsAux_perm_of_mem _ L 0 q hq
        have hqne : concat q ≠ [] :=
          concat_ne_nil q (by rw [hperm.length_eq]; exact hL1)
            (fun t ht => hne t (hperm.subset ht))
        rw [concat_length_perm hperm]
        exact ⟨hqne, hr⟩
      obtain ⟨h1, h2, h3⟩ := testAll_forward fl hthr _ st hcalls hh hN1
        (by rw [AllPermutations_length, hlen]; exact hN2)
      rw [hps] at n1 n2 ⊢
      rw [h2, List.length_append, List.length_map, AllPermutations_length, hlen] at n2
      push_cast at n2
      refine ⟨h1, by rw [← hps]; exact hfT, by rw [← hps]; exact hfR, by omega, by omega, ?_,
        n1, by omega⟩
      rw [h2, h3, List.length_append, List.length_map, AllPermutations_length, hlen]
      push_cast
      ring

/-- The generation loop in unordered mode over a list of valid vectors:
forwarded candidates plus `Skipped` grow by the sum of `s!` over the vectors
that select `s ≥ 1` tokens. -/
theorem foldl_bodyStep_unordered (fl : Flags) (tpl : List Group)
    (hmode : fl.keep_order = false) (hmax : 0 ≤ fl.max_len)
    (htok : ∀ g ∈ tpl, ∀ t ∈ g.tokens, t ≠ []) :
    ∀ (W : List (List Nat)) (st : St), (∀ w ∈ W, validVector tpl w = true) →
      st.halted = false → st.params.Total ≠ 0 → wrapInt (st.params.RE * 10) ≠ 0 →
      minInt ≤ st.params.Skipped →
      st.params.Skipped + (((W.map (fun w =>
        if selectedCount w ≠ 0 then (selectedCount w).factorial else 0)).sum : Nat) : Int)
          ≤ maxInt →
      1 ≤ fl.n_threads → 0 ≤ st.params.N →
      st.params.N + (((W.map (fun w =>
        if selectedCount w ≠ 0 then (selectedCount w).factorial else 0)).sum : Nat) : Int)
          ≤ maxInt →
      (W.foldl (bodyStep fl tpl) st).halted = false ∧
      ((forwarded (W.foldl (bodyStep fl tpl) st).out).length : Int) +
          (W.foldl (bodyStep fl tpl) st).params.Skipped =
        ((forwarded st.out).length : Int) + st.params.Skipped +
          (((W.map (fun w =>
            if selectedCount w ≠ 0 then (selectedCount w).factorial else 0)).sum : Nat) : Int)
  | [], st, _, hh, _, _, _, _, _, _, _ => by simp [hh]
  | w :: W, st, hv, hh, hT, hRE, hS1, hS2, hthr, hN1, hN2 => by
    have hsum : ((((w :: W).map (fun w =>
          if selectedCount w ≠ 0 then (selectedCount w).factorial else 0)).sum : Nat) : Int) =
        (if selectedCount w ≠ 0 then ((selectedCount w).factorial : Int) else 0) +
          (((W.map (fun w =>
            if selectedCount w ≠ 0 then (selectedCount w).factorial else 0)).sum : Nat) : Int) := by
      rw [List.map_cons, List.sum_cons]
      push_cast
      by_cases hz : selectedCount w = 0 <;> simp [hz]
    rw [hsum] at hS2 hN2 ⊢
    have hnn : (0 : Int) ≤ (((W.map (fun w =>
        if selectedCount w ≠ 0 then (selectedCount w).factorial else 0)).sum : Nat) : Int) :=
      Int.natCast_nonneg _
    obtain ⟨h1, h2, h3, h4, h5, h6, h7, h8⟩ := bodyStep_unordered fl tpl st w hmode hmax
      (hv w (List.mem_cons_self _ _)) htok hh hT hRE hS1 (by omega) hthr hN1 (by omega)
    obtain ⟨k1, k2⟩ := foldl_bodyStep_unordered fl tpl hmode hmax htok W (bodyStep fl tpl st w)
      (fun w' hw' => hv w' (List.mem_cons_of_mem _ hw')) h1 (by rw [h2]; exact hT)
      (by rw [h3]; exact hRE) (by omega) (by omega) hthr (by omega) (by omega)
    rw [List.foldl_cons]
    refine ⟨k1, ?_⟩
    rw [k2, h6]
    ring

theorem sum_indicator (f : Nat → Nat) (a : Nat) :
    ∀ m : Nat, a < m →
      ((List.range m).map (fun i => (if a = i then 1 else 0) * f i)).sum = f a
  | 0, h => by omega
  | m + 1, h => by
    rw [List.sum_range_succ]
    by_cases ha : a = m
    · subst ha
      have hz : ((List.range a).map (fun i => (if a = i then 1 else 0) * f i)).sum = 0 := by
        apply List.sum_eq_zero
        intro x hx
        obtain ⟨i, hi, rfl⟩ := List.mem_map.1 hx
        have : a ≠ i := by
          have := List.mem_range.1 hi
          omega
        simp [this]
      rw [hz]
      simp
    · rw [sum_indicator f a m (by omega)]
      simp [ha]

/-- A sum over selection vectors of a function of the number of selected
tokens, regrouped by that number. -/
theorem sum_by_selectedCount (f : Nat → Nat) (m : Nat) :
    ∀ W : List (List Nat), (∀ w ∈ W, selectedCount w < m) →
      (W.map (fun w => f (selectedCount w))).sum =
        ((List.range m).map
          (fun i => W.countP (fun w => selectedCount w = i) * f i)).sum
  | [], _ => by simp
  | w :: W, h => by
    rw [List.map_cons, List.sum_cons,
      sum_by_selectedCount f m W (fun w' hw' => h w' (List.mem_cons_of_mem _ hw')),
      ← sum_indicator f (selectedCount w) m (h w (List.mem_cons_self _ _)),
      ← List.sum_map_add]
    apply congrArg
    apply List.map_congr_left
    intro i _
    rw [List.countP_cons]
    by_cases hi : selectedCount w = i
    · simp [hi]; ring
    · simp [hi]

theorem sum_factorial_split (c : Nat → Nat) :
    ∀ n : Nat, ((List.range (n + 1)).map (fun i => c i * i.factorial)).sum =
      c 0 + ((List.range (n + 1)).map
        (fun i => c i * (if i ≠ 0 then i.factorial else 0))).sum
  | 0 => by simp [List.range_succ]
  | n + 1 => by
    rw [List.sum_range_succ, List.sum_range_succ _ (n + 1), sum_factorial_split c n]
    simp
    ring

/-- The sum of `s!` over the valid vectors that select `s ≥ 1` tokens is the
specification's unordered total without the contribution `C(0) * 0!` of the
all-omitted vector. -/
theorem sum_orderings_validVectors (tpl : List Group) :
    ((validVectors tpl).map (fun w =>
        if selectedCount w ≠ 0 then (selectedCount w).factorial else 0)).sum +
      (if anyUseAlways tpl then 0 else 1) = unorderedTotalSpec tpl := by
  have hsel : ∀ w ∈ validVectors tpl, selectedCount w < tpl.length + 1 := by
    intro w hw
    have := validVector_length tpl w ((mem_validVectors tpl w).1 hw)
    have := selectedCount_le w
    omega
  have h1 : ((validVectors tpl).map (fun w =>
        if selectedCount w ≠ 0 then (selectedCount w).factorial else 0)).sum =
      ((List.range (tpl.length + 1)).map (fun i =>
        (validVectors tpl).countP (fun w => selectedCount w = i) *
          (if i ≠ 0 then i.factorial else 0))).sum :=
    sum_by_selectedCount (fun i => if i ≠ 0 then i.factorial else 0)
      (tpl.length + 1) (validVectors tpl) hsel
  have h2 : ((List.range (tpl.length + 1)).map
        (fun i => vectorsSelecting tpl i * i.factorial)).sum =
      vectorsSelecting tpl 0 + ((List.range (tpl.length + 1)).map
        (fun i => vectorsSelecting tpl i * (if i ≠ 0 then i.factorial else 0))).sum :=
    sum_factorial_split (fun i => vectorsSelecting tpl i) tpl.length
  have h3 := vectorsSelecting_zero tpl
  unfold unorderedTotalSpec
  rw [h2, h3, h1]
  unfold vectorsSelecting
  exact Nat.add_comm _ _

theorem radixProduct_le_unorderedTotalSpec (tpl : List Group) :
    radixProduct tpl ≤ unorderedTotalSpec tpl := by
  have hsel : ∀ w ∈ validVectors tpl, selectedCount w < tpl.length + 1 := by
    intro w hw
    have := validVector_length tpl w ((mem_validVectors tpl w).1 hw)
    have := selectedCount_le w
    omega
  have h1 := sum_by_selectedCount (fun _ => 1) (tpl.length + 1) (validVectors tpl) hsel
  have h2 : ((validVectors tpl).map (fun _ => 1)).sum = radixProduct tpl := by
    rw [List.map_const', List.sum_replicate, length_validVectors]
    simp
  rw [← h2, h1]
  unfold unorderedTotalSpec vectorsSelecting
  apply List.sum_le_sum
  intro i _
  simp only [mul_one]
  exact Nat.le_mul_of_pos_right _ (Nat.factorial_pos i)

/-- The generation loop in unordered mode, run from the beginning of a run
(`N = 0`, `Skipped = 0`) to exhaustion: forwarded candidates plus `Skipped` is `Σ_s C(s) * s!` without the all-omitted vector,
that is, the precomputed `Total` when some group is `UseAlways`, and
`Total - 1` when none is. -/
theorem unordered_forwarded_plus_skipped (fl : Flags) (tpl : List Group) (st : St)
    (fuel : Nat) (hmode : fl.keep_order = false) (hmax : 0 ≤ fl.max_len)
    (htpl : tpl ≠ []) (hne : ∀ g ∈ tpl, g.tokens ≠ [])
    (htok : ∀ g ∈ tpl, ∀ t ∈ g.tokens, t ≠ [])
    (hfit : (unorderedTotalSpec tpl : Int) ≤ maxInt) (hfuel : radixProduct tpl ≤ fuel)
    (hthr : 1 ≤ fl.n_threads)
    (hh : st.halted = false) (hout : st.out = []) (hN : st.params.N = 0)
    (hS : st.params.Skipped = 0)
    (hT : unorderedTotal tpl fuel = some st.params.Total)
    (hRE1 : 1 ≤ st.params.RE) (hRE2 : st.params.RE ≤ maxInt) :
    ∃ st', generate fl tpl fuel st = some st' ∧ st'.halted = false ∧
      ((forwarded st'.out).length : Int) + st'.params.Skipped +
        (if anyUseAlways tpl then 0 else 1) = st.params.Total := by
  obtain ⟨W, hW, _, hperm⟩ := walk_initIndexes tpl htpl hne fuel hfuel
  have hval : ∀ w ∈ W, validVector tpl w = true :=
    fun w hw => (mem_validVectors tpl w).1 (hperm.subset hw)
  have hTot : st.params.Total = (unorderedTotalSpec tpl : Int) := by
    rw [unorderedTotal_eq_wrap tpl htpl hne fuel hfuel,
      wrapInt_of_range _ (by unfold minInt; omega) hfit] at hT
    exact (Option.some.inj hT).symm
  have hsum := sum_orderings_validVectors tpl
  have hpermsum : (W.map (fun w =>
        if selectedCount w ≠ 0 then (selectedCount w).factorial else 0)).sum =
      ((validVectors tpl).map (fun w =>
        if selectedCount w ≠ 0 then (selectedCount w).factorial else 0)).sum :=
    (hperm.map _).sum_eq
  have hpos : 1 ≤ unorderedTotalSpec tpl :=
    le_trans (radixProduct_pos tpl hne) (radixProduct_le_unorderedTotalSpec tpl)
  have hle : (((W.map (fun w =>
        if selectedCount w ≠ 0 then (selectedCount w).factorial else 0)).sum : Nat) : Int) ≤
      (unorderedTotalSpec tpl : Int) := by
    rw [hpermsum]
    exact_mod_cast (by omega : ((validVectors tpl).map (fun w =>
        if selectedCount w ≠ 0 then (selectedCount w).factorial else 0)).sum ≤
      unorderedTotalSpec tpl)
  obtain ⟨h1, h2⟩ := foldl_bodyStep_unordered fl tpl hmode hmax htok W st hval hh
    (by rw [hTot]; exact_mod_cast (by omega : unorderedTotalSpec tpl ≠ 0))
    (wrapInt_RE_ne_zero _ hRE1 hRE2)
    (by rw [hS]; unfold minInt; omega) (by rw [hS]; omega)
    hthr (by rw [hN]) (by rw [hN]; omega)
  refine ⟨_, mainLoop_eq_walk fl tpl fuel _ st W hh hW, h1, ?_⟩
  rw [h2, hout, hS, hTot, hpermsum, ← hsum]
  simp only [forwarded, List.length_nil]
  push_cast
  split <;> simp

/-! ## The unordered total counts the all-omitted vector -/

set_option maxRecDepth 100000 in
/-- C3 fails on the code.  For the template with the single line
`password1` (one group, not `UseAlways`) in unordered mode with the default
length bounds, the tally pass counts the all-omitted vector and sets
`Total = 2`, while the generation loop, run to exhaustion, forwards the one
candidate `password1` and skips nothing: forwarded plus `Skipped` is 1. -/
theorem C3_unordered_total_counts_empty_selection :
    unorderedTotal [⟨[ascii "password1"], ⟨false, false⟩⟩] 2 = some 2 ∧
    generate ⟨8, 20, 1, false, false⟩ [⟨[ascii "password1"], ⟨false, false⟩⟩] 2
        ⟨⟨0, 0, 2, 0, 1, 1⟩, [], false⟩ =
      some ⟨⟨1, 0, 2, 0, 1, 1⟩, [Event.validate (ascii "password1") 0], false⟩ ∧
    forwarded [Event.validate (ascii "password1") 0] = [ascii "password1"] := by
  refine ⟨by decide, by decide, by decide⟩

/-! ## The resume offset -/

/-- C9 (amended). `Start_from` for a percentage: for every `Total ≥ 0` and
every `start_from` string ending in `%` whose part before the `%` is an integer
`p` with `0 ≤ p < 100`, provided `Total * p` does not exceed the largest Go
`int`, `Start_from = Total * p / 100` with floor division; for every
`start_from` string without a `%` suffix that is a decimal integer `n` within
the range of a Go `int`, `Start_from = n` whatever `Total` is; a percentage
with `p < 0`, `p ≥ 100` or a part before the `%` that is not an integer aborts.
`"50%"` with `Total = 1000` gives 500 and `"150"` gives 150. -/
theorem C9_startFrom_no_overflow :
    (∀ (Total : Int) (s : GoString) (p : Int), hasPercentSuffix s = true →
      Atoi (s.take (s.length - 1)) = some p → 0 ≤ p → p < 100 → 0 ≤ Total →
      Total * p ≤ maxInt → startFrom Total s = some (Total * p / 100)) ∧
    (∀ (Total : Int) (s : GoString) (n : Int), hasPercentSuffix s = false →
      Atoi s = some n → startFrom Total s = some n) ∧
    (∀ (Total : Int) (s : GoString), hasPercentSuffix s = true →
      (Atoi (s.take (s.length - 1)) = none ∨
        ∃ p, Atoi (s.take (s.length - 1)) = some p ∧ (p < 0 ∨ p ≥ 100)) →
      startFrom Total s = none) ∧
    startFrom 1000 (ascii "50%") = some 500 ∧
    (∀ Total : Int, startFrom Total (ascii "150") = some 150) := by
  refine ⟨?_, ?_, ?_, by decide, ?_⟩
  · intro Total s p hs hp h0 h100 hT hfit
    have hnn : 0 ≤ Total * p := Int.mul_nonneg hT h0
    have hnot : ¬ (p < 0 ∨ p ≥ 100) := by omega
    unfold startFrom
    simp only [hs, if_true, hp, hnot, if_false]
    rw [wrapInt_of_range (Total * p) (by unfold minInt; omega) hfit,
      Int.tdiv_eq_ediv hnn (by decide)]
    unfold maxInt at hfit
    rw [wrapInt_of_range _ (by unfold minInt; omega) (by unfold maxInt; omega)]
  · intro Total s n hs hn
    unfold startFrom
    simp [hs, hn]
  · intro Total s hs h
    unfold startFrom
    rcases h with h | ⟨p, hp, hbad⟩
    · simp [hs, h]
    · simp only [hs, if_true, hp, hbad]
  · intro Total
    have h1 : hasPercentSuffix (ascii "150") = false := by decide
    have h2 : Atoi (ascii "150") = some 150 := by decide
    unfold startFrom
    simp [h1, h2]

/-- C9 (amended) at `"50%"` with `Total = 1000`, and at `"150"` with
`Total = 7`. -/
theorem C9_startFrom_no_overflow_witness :
    startFrom 1000 (ascii "50%") = some (1000 * 50 / 100) ∧
      startFrom 7 (ascii "150") = some 150 :=
  ⟨C9_startFrom_no_overflow.1 1000 (ascii "50%") 50 (by decide) (by decide) (by decide)
      (by decide) (by decide) (by decide),
    C9_startFrom_no_overflow.2.1 7 (ascii "150") 150 (by decide) (by decide)⟩

/-- C9 as stated fails.  With `Total = 2^62` (the keep-order total of 62
`UseAlways` groups of two tokens) and `start_from = "50%"`, the product
`Total * 50` overflows the Go `int` and `Start_from` is negative, whereas
`Total * 50 / 100 = 2^61`; and the decimal integer `9223372036854775808`, one
above the largest Go `int`, is rejected by `strconv.Atoi`, so the process
aborts instead of setting `Start_from` to it. -/
theorem C9_startFrom_counterexample :
    startFrom 4611686018427387904 (ascii "50%") = some (-92233720368547758) ∧
      (4611686018427387904 : Int) * 50 / 100 = 2305843009213693952 ∧
      startFrom 1000 (ascii "9223372036854775808") = none := by
  refine ⟨by decide, by decide, by decide⟩

/-! ## Template parsing: the invariants of a group -/

theorem splitAux_no_space :
    ∀ (s cur : GoString), (32 : Byte) ∉ cur → ∀ p ∈ splitAux cur s, (32 : Byte) ∉ p
  | [], cur, hc, p, hp => by
    simp only [splitAux, List.mem_singleton] at hp
    rw [hp]; exact hc
  | c :: cs, cur, hc, p, hp => by
    simp only [splitAux] at hp
    split at hp
    · rcases List.mem_cons.1 hp with h | h
      · rw [h]; exact hc
      · exact splitAux_no_space cs [] (by simp) p h
    · next hne =>
      refine splitAux_no_space cs (cur ++ [c]) ?_ p hp
      simp only [List.mem_append, List.mem_singleton, not_or]
      exact ⟨hc, fun h => hne h.symm⟩

theorem safe_add_nodup (a : List GoString) (s : GoString) (h : a.Nodup) :
    (safe_add a s).Nodup := by
  unfold safe_add
  split
  · exact h
  · next hs =>
    rw [List.nodup_append]
    refine ⟨h, List.nodup_singleton _, ?_⟩
    intro x hx hx2
    rw [List.mem_singleton] at hx2
    exact hs (hx2 ▸ hx)

theorem mem_safe_add {a : List GoString} {s x : GoString} (h : x ∈ safe_add a s) :
    x ∈ a ∨ x = s := by
  unfold safe_add at h
  split at h
  · exact Or.inl h
  · simpa using h

theorem safe_add_ne_nil (a : List GoString) (s : GoString) : safe_add a s ≠ [] := by
  unfold safe_add
  split
  · next h => exact List.ne_nil_of_mem h
  · simp

theorem collectTokens_aux (P : GoString → Prop) :
    ∀ (tl acc : List GoString), acc.Nodup → (∀ x ∈ acc, P x) →
      (∀ n ∈ tl, n ≠ [] → P n) →
      (tl.foldl (fun templ n => if n = [] then templ else if n = [32] then templ
        else safe_add templ n) acc).Nodup ∧
      ∀ x ∈ tl.foldl (fun templ n => if n = [] then templ else if n = [32] then templ
        else safe_add templ n) acc, P x
  | [], acc, h1, h2, _ => ⟨h1, h2⟩
  | n :: tl, acc, h1, h2, h3 => by
    simp only [List.foldl_cons]
    have h3' : ∀ m ∈ tl, m ≠ [] → P m := fun m hm => h3 m (List.mem_cons_of_mem _ hm)
    split
    · exact collectTokens_aux P tl acc h1 h2 h3'
    · next hn =>
      split
      · exact collectTokens_aux P tl acc h1 h2 h3'
      · refine collectTokens_aux P tl _ (safe_add_nodup acc n h1) ?_ h3'
        intro x hx
        rcases mem_safe_add hx with h | h
        · exact h2 x h
        · rw [h]; exact h3 n (List.mem_cons_self _ _) hn

/-- The tokens collected from a line are pairwise distinct, non-empty and
free of spaces. -/
theorem collectTokens_spec (line : GoString) :
    (collectTokens (Split line)).Nodup ∧
      ∀ x ∈ collectTokens (Split line), x ≠ [] ∧ (32 : Byte) ∉ x := by
  unfold collectTokens
  apply collectTokens_aux (fun x => x ≠ [] ∧ (32 : Byte) ∉ x) _ [] List.nodup_nil
    (by simp)
  intro n hn hne
  exact ⟨hne, splitAux_no_space line [] (by simp) n hn⟩

theorem Replace_ne_nil : ∀ x : GoString, x ≠ [] → Replace x ≠ []
  | [], h => absurd rfl h
  | [c], _ => by simp [Replace]
  | c :: d :: rest, _ => by
    simp only [Replace]
    split <;> simp

/-- Decoding `\s` maps distinct space-free tokens to distinct tokens. -/
theorem Replace_injective :
    ∀ (x y : GoString), (32 : Byte) ∉ x → (32 : Byte) ∉ y → Replace x = Replace y → x = y
  | [], y, _, _, h => by
    by_contra hy
    exact Replace_ne_nil y (fun h' => hy h'.symm) h.symm
  | [c], [], _, _, h => by simp [Replace] at h
  | [c], [d], _, _, h => by simpa [Replace] using h
  | [c], d :: e :: r, hx, _, h => by
    simp only [Replace] at h
    split at h
    · simp only [List.cons.injEq] at h
      exact absurd (h.1 ▸ List.mem_singleton_self c) hx
    · simp only [List.cons.injEq] at h
      exact absurd h.2.symm (Replace_ne_nil (e :: r) (by simp))
  | c :: c' :: r, [], _, _, h => by
    exact absurd h (Replace_ne_nil (c :: c' :: r) (by simp))
  | c :: c' :: r, [d], _, hy, h => by
    simp only [Replace] at h
    split at h
    · simp only [List.cons.injEq] at h
      exact absurd (h.1 ▸ List.mem_singleton_self d) hy
    · simp only [List.cons.injEq] at h
      exact absurd h.2 (Replace_ne_nil (c' :: r) (by simp))
  | c :: c' :: r, d :: e :: r', hx, hy, h => by
    simp only [List.mem_cons, not_or] at hx hy
    simp only [Replace] at h
    split at h
    · next h1 =>
      split at h
      · next h2 =>
        simp only [List.cons.injEq, true_and] at h
        have := Replace_injective r r' hx.2.2 hy.2.2 h
        rw [this, h1.1, h1.2, h2.1, h2.2]
      · simp only [List.cons.injEq] at h
        exact absurd h.1 hy.1
    · split at h
      · simp only [List.cons.injEq] at h
        exact absurd h.1.symm hx.1
      · simp only [List.cons.injEq] at h
        have := Replace_injective (c' :: r) (e :: r')
          (by simp only [List.mem_cons, not_or]; exact hx.2)
          (by simp only [List.mem_cons, not_or]; exact hy.2) h.2
        rw [h.1, this]
termination_by x _ _ _ _ => x.length

/-- After the `\s` decoding the tokens of a line are still pairwise distinct
and non-empty. -/
theorem decoded_spec (line : GoString) :
    ((collectTokens (Split line)).map Replace).Nodup ∧
      ∀ x ∈ (collectTokens (Split line)).map Replace, x ≠ [] := by
  obtain ⟨h1, h2⟩ := collectTokens_spec line
  refine ⟨List.Nodup.map_on (fun x hx y hy hxy =>
      Replace_injective x y (h2 x hx).2 (h2 y hy).2 hxy) h1, ?_⟩
  intro x hx
  obtain ⟨y, hy, rfl⟩ := List.mem_map.1 hx
  exact Replace_ne_nil y (h2 y hy).1

theorem runeString_ne_nil (r : Nat) : runeString r ≠ [] := by
  unfold runeString
  split_ifs <;> simp

theorem capitalize_aux (ct : CaseTables) :
    ∀ (templ acc : List GoString), acc.Nodup → (∀ x ∈ acc, x ≠ []) →
      (templ.foldl (fun t n =>
        if n.length > 0 then safe_add (safe_add t (upperFirst ct n)) (lowerFirst ct n)
        else t) acc).Nodup ∧
      (∀ x ∈ templ.foldl (fun t n =>
        if n.length > 0 then safe_add (safe_add t (upperFirst ct n)) (lowerFirst ct n)
        else t) acc, x ≠ []) ∧
      ((∃ n ∈ templ, n ≠ []) → templ.foldl (fun t n =>
        if n.length > 0 then safe_add (safe_add t (upperFirst ct n)) (lowerFirst ct n)
        else t) acc ≠ []) ∧
      (acc ≠ [] → templ.foldl (fun t n =>
        if n.length > 0 then safe_add (safe_add t (upperFirst ct n)) (lowerFirst ct n)
        else t) acc ≠ [])
  | [], acc, h1, h2 => ⟨h1, h2, fun ⟨n, hn, _⟩ => by simp at hn, fun h => h⟩
  | n :: templ, acc, h1, h2 => by
    simp only [List.foldl_cons]
    split
    · next hn =>
      have hnd : (safe_add (safe_add acc (upperFirst ct n)) (lowerFirst ct n)).Nodup :=
        safe_add_nodup _ _ (safe_add_nodup _ _ h1)
      have hne : ∀ x ∈ safe_add (safe_add acc (upperFirst ct n)) (lowerFirst ct n),
          x ≠ [] := by
        intro x hx
        rcases mem_safe_add hx with h | h
        · rcases mem_safe_add h with h' | h'
          · exact h2 x h'
          · rw [h']; unfold upperFirst; simp [runeString_ne_nil]
        · rw [h]; unfold lowerFirst; simp [runeString_ne_nil]
      obtain ⟨k1, k2, _, k4⟩ := capitalize_aux ct templ _ hnd hne
      exact ⟨k1, k2, fun _ => k4 (safe_add_ne_nil _ _), fun _ => k4 (safe_add_ne_nil _ _)⟩
    · next hn =>
      obtain ⟨k1, k2, k3, k4⟩ := capitalize_aux ct templ acc h1 h2
      refine ⟨k1, k2, ?_, k4⟩
      rintro ⟨m, hm, hmne⟩
      rcases List.mem_cons.1 hm with h | h
      · subst h
        exact absurd (List.length_pos.2 hmne) hn
      · exact k3 ⟨m, h, hmne⟩

/-- A group produced from a line is non-empty, has no empty token, and its
tokens are pairwise distinct. -/
theorem parseLine_spec (ct : CaseTables) (line : GoString) (g : Group)
    (h : parseLine ct line = some g) :
    g.tokens ≠ [] ∧ (∀ t ∈ g.tokens, t ≠ []) ∧ g.tokens.Nodup := by
  obtain ⟨hnd, hne⟩ := decoded_spec line
  unfold parseLine at h
  simp only at h
  cases heq : (collectTokens (Split line)).map Replace with
  | nil => simp [heq] at h
  | cons first others =>
    rw [heq] at hnd hne h
    simp only at h
    have hnd2 : others.Nodup := (List.nodup_cons.1 hnd).2
    have hne2 : ∀ x ∈ others, x ≠ [] := fun x hx => hne x (List.mem_cons_of_mem _ hx)
    by_cases hf : hasTildePrefix first = true
    · simp only [hf, if_true] at h
      by_cases ho : others = []
      · simp [ho] at h
      · simp only [ho, if_false] at h
        by_cases hc : Index first 99 > 0
        · simp only [hc, decide_True, if_true] at h
          by_cases hlen : (capitalize ct others).length > 0
          · simp only [hlen, if_true, Option.some.injEq] at h
            subst h
            exact ⟨List.length_pos.1 hlen,
              (capitalize_aux ct others [] List.nodup_nil (by simp)).2.1,
              (capitalize_aux ct others [] List.nodup_nil (by simp)).1⟩
          · simp [hlen] at h
        · simp only [hc, decide_False, Bool.false_eq_true, if_false] at h
          by_cases hlen : others.length > 0
          · simp only [hlen, if_true, Option.some.injEq] at h
            subst h
            exact ⟨ho, hne2, hnd2⟩
          · simp [hlen] at h
    · simp only [hf, Bool.false_eq_true, if_false, Option.some.injEq] at h
      subst h
      exact ⟨by simp, hne, hnd⟩

/-- C10. For every sequence of template lines, every Group of the parsed
Template is non-empty, contains no empty token, and its tokens are pairwise
distinct (after the `\s` decoding, the removal of the flag token and the
`Capitalize` expansion); a line that yields no token, or nothing but a flag
token, produces no Group, and such a line leaves the parsed Template as it is
without the line. -/
theorem C10_parsed_groups_invariant (ct : CaseTables) :
    (∀ (lines : List GoString) (g : Group), g ∈ parseTemplate ct lines →
      g.tokens ≠ [] ∧ (∀ t ∈ g.tokens, t ≠ []) ∧ g.tokens.Nodup) ∧
    (∀ line : GoString, (collectTokens (Split line)).map Replace = [] →
      parseLine ct line = none) ∧
    (∀ (line first : GoString), (collectTokens (Split line)).map Replace = [first] →
      hasTildePrefix first = true → parseLine ct line = none) ∧
    (∀ (pre post : List GoString) (line : GoString), parseLine ct line = none →
      parseTemplate ct (pre ++ line :: post) = parseTemplate ct (pre ++ post)) := by
  refine ⟨?_, ?_, ?_, ?_⟩
  · intro lines g hg
    unfold parseTemplate at hg
    obtain ⟨line, _, hline⟩ := List.mem_filterMap.1 hg
    exact parseLine_spec ct line g hline
  · intro line h
    unfold parseLine
    simp [h]
  · intro line first h hf
    unfold parseLine
    simp [h, hf]
  · intro pre post line h
    unfold parseTemplate
    simp [List.filterMap_append, List.filterMap_cons, h]

set_option maxRecDepth 100000 in
/-- C10 at a five-line template: the lines `~`, the empty line and `~a`
produce no group, the other two produce groups of distinct non-empty
tokens. -/
theorem C10_parsed_groups_invariant_witness :
    (parseTemplate ⟨id, id⟩
        [ascii "a b  a c", ascii "~", ascii "", ascii "~ac cat Dog \\s", ascii "~a"]).map
        (fun g => g.tokens) =
      [[ascii "a", ascii "b", ascii "c"],
       [ascii "Cat", ascii "cat", ascii "Dog", ascii "dog", ascii " "]] ∧
    ∀ g ∈ parseTemplate ⟨id, id⟩
        [ascii "a b  a c", ascii "~", ascii "", ascii "~ac cat Dog \\s", ascii "~a"],
      g.tokens ≠ [] ∧ (∀ t ∈ g.tokens, t ≠ []) ∧ g.tokens.Nodup :=
  ⟨by decide, fun g hg => (C10_parsed_groups_invariant ⟨id, id⟩).1 _ g hg⟩

/-! ## The `Capitalize` expansion -/

theorem upperFirst_ascii (ct : CaseTables) (c : Byte) (rest : GoString) (hc : c.val < 128) :
    upperFirst ct (c :: rest) =
      Fin.ofNat (if 97 ≤ c.val ∧ c.val ≤ 122 then c.val - 32 else c.val) :: rest := by
  have h1 : firstRune (c :: rest) = c.val := by simp [firstRune, hc]
  have h2 : c.val ≤ 127 := by omega
  unfold upperFirst ToUpper
  rw [h1]
  simp only [h2, if_true, List.drop_succ_cons, List.drop_zero]
  by_cases hl : 97 ≤ c.val ∧ c.val ≤ 122
  · have h3 : c.val - 32 < 128 := by omega
    simp only [hl, and_self, if_true, runeString, h3, List.singleton_append]
  · have h3 : c.val < 128 := hc
    simp only [hl, if_false, runeString, h3, if_true, List.singleton_append]

theorem lowerFirst_ascii (ct : CaseTables) (c : Byte) (rest : GoString) (hc : c.val < 128) :
    lowerFirst ct (c :: rest) =
      Fin.ofNat (if 65 ≤ c.val ∧ c.val ≤ 90 then c.val + 32 else c.val) :: rest := by
  have h1 : firstRune (c :: rest) = c.val := by simp [firstRune, hc]
  have h2 : c.val ≤ 127 := by omega
  unfold lowerFirst ToLower
  rw [h1]
  simp only [h2, if_true, List.drop_succ_cons, List.drop_zero]
  by_cases hl : 65 ≤ c.val ∧ c.val ≤ 90
  · have h3 : c.val + 32 < 128 := by omega
    simp only [hl, and_self, if_true, runeString, h3, List.singleton_append]
  · have h3 : c.val < 128 := hc
    simp only [hl, if_false, runeString, h3, if_true, List.singleton_append]

/-- The group of a line that has a flag token setting `Capitalize` and at
least one further token: the tokens after the flag token go, in order, through
the two insertions `safe_add(t, upper-first)` and `safe_add(t, lower-first)`,
where upper-first and lower-first are the two expressions of the source. -/
theorem parseLine_capitalize (ct : CaseTables) (line first : GoString)
    (others : List GoString)
    (hl : (collectTokens (Split line)).map Replace = first :: others)
    (hf : hasTildePrefix first = true) (ho : others ≠ []) (hc : Index first 99 > 0) :
    parseLine ct line = some
      { tokens := others.foldl
          (fun t x => safe_add (safe_add t (upperFirst ct x)) (lowerFirst ct x)) [],
        flags := { UseAlways := decide (Index first 97 > 0), Capitalize := true } } := by
  obtain ⟨_, hne⟩ := decoded_spec line
  rw [hl] at hne
  have hne2 : ∀ x ∈ others, x ≠ [] := fun x hx => hne x (List.mem_cons_of_mem _ hx)
  have hfold : ∀ (l : List GoString) (acc : List GoString), (∀ x ∈ l, x ≠ []) →
      l.foldl (fun t n =>
        if n.length > 0 then safe_add (safe_add t (upperFirst ct n)) (lowerFirst ct n)
        else t) acc =
      l.foldl (fun t x => safe_add (safe_add t (upperFirst ct x)) (lowerFirst ct x)) acc := by
    intro l
    induction l with
    | nil => intro acc _; rfl
    | cons n l ih =>
      intro acc h
      have hn : n.length > 0 := List.length_pos.2 (h n (List.mem_cons_self _ _))
      simp only [List.foldl_cons, hn, if_true]
      exact ih _ (fun x hx => h x (List.mem_cons_of_mem _ hx))
  have hcap := hfold others [] hne2
  have hlen : (capitalize ct others).length > 0 :=
    List.length_pos.2 ((capitalize_aux ct others [] List.nodup_nil (by simp)).2.2.1
      (by
        cases others with
        | nil => exact absurd rfl ho
        | cons x xs => exact ⟨x, List.mem_cons_self _ _, hne2 x (List.mem_cons_self _ _)⟩))
  unfold parseLine
  simp only [hl, hf, if_true, ho, if_false, hc, decide_True, hlen]
  unfold capitalize
  rw [hcap]

/-! ## Template parsing: tokens and flags of a line -/

theorem splitAux_ne_nil : ∀ (s cur : GoString), splitAux cur s ≠ []
  | [], cur => by simp [splitAux]
  | c :: cs, cur => by
    simp only [splitAux]
    split
    · simp
    · exact splitAux_ne_nil cs _

theorem intercalate_cons_of_ne_nil (sep x : GoString) (L : List GoString) (hL : L ≠ []) :
    List.intercalate sep (x :: L) = x ++ sep ++ List.intercalate sep L := by
  cases L with
  | nil => exact absurd rfl hL
  | cons y ys => simp [List.intercalate, List.intersperse]

/-- The pieces of `strings.Split(s, " ")`, joined again by single spaces,
give back `s`. -/
theorem splitAux_join : ∀ (s cur : GoString),
    List.intercalate [32] (splitAux cur s) = cur ++ s
  | [], cur => by simp [splitAux, List.intercalate]
  | c :: cs, cur => by
    simp only [splitAux]
    split
    · next h =>
      rw [intercalate_cons_of_ne_nil _ _ _ (splitAux_ne_nil cs []), splitAux_join cs [], h]
      simp
    · rw [splitAux_join cs (cur ++ [c])]
      simp

/-- The loop over the pieces of a line keeps every non-empty piece at its
first occurrence. -/
theorem foldl_collect_eq (tl : List GoString) (hsp : ∀ p ∈ tl, (32 : Byte) ∉ p) :
    ∀ acc : List GoString,
      tl.foldl (fun templ n => if n = [] then templ else if n = [32] then templ
        else safe_add templ n) acc =
      acc ++ (dedupKeepFirst (tl.filter (fun n => n ≠ []))).filter (fun y => y ∉ acc) := by
  induction tl with
  | nil => intro acc; simp [dedupKeepFirst]
  | cons n tl ih =>
    intro acc
    have hsp' : ∀ p ∈ tl, (32 : Byte) ∉ p := fun p hp => hsp p (List.mem_cons_of_mem _ hp)
    simp only [List.foldl_cons]
    by_cases hn : n = []
    · simp only [hn, if_true]
      rw [ih hsp' acc]
      simp [List.filter_cons]
    · have hn32 : n ≠ [32] := by
        intro h
        exact hsp n (List.mem_cons_self _ _) (by rw [h]; simp)
      simp only [hn, hn32, if_false]
      rw [ih hsp' (safe_add acc n)]
      have hfilt : (n :: tl).filter (fun n => decide (n ≠ [])) =
          n :: tl.filter (fun n => decide (n ≠ [])) := by
        simp [List.filter_cons, hn]
      rw [hfilt, dedupKeepFirst]
      unfold safe_add
      by_cases hmem : n ∈ acc
      · simp only [hmem, if_true, List.filter_cons, decide_not, Bool.not_eq_true',
          decide_eq_false_iff_not, not_not, not_true_eq_false, if_false, List.filter_filter]
        congr 1
        apply List.filter_congr
        intro y _
        by_cases hy : y ∈ acc
        · simp [hy]
        · have : y ≠ n := fun h => hy (h ▸ hmem)
          simp [hy, this]
      · simp only [hmem, if_false, List.filter_cons, decide_not, Bool.not_eq_true',
          decide_eq_false_iff_not, not_false_eq_true, if_true, List.filter_filter,
          List.append_assoc, List.singleton_append]
        congr 2
        apply List.filter_congr
        intro y _
        by_cases hy : y ∈ acc <;> by_cases hyn : y = n <;> simp [hy, hyn]

/-- The tokens collected from a line are its non-empty pieces, every one kept
at its first occurrence. -/
theorem collectTokens_eq_dedup (line : GoString) :
    collectTokens (Split line) =
      dedupKeepFirst ((Split line).filter (fun n => n ≠ [])) := by
  unfold collectTokens
  rw [foldl_collect_eq (Split line) (fun p hp => splitAux_no_space line [] (by simp) p hp) []]
  simp

theorem Replace_head (x : GoString) :
    (Replace x).head? = some 126 ↔ x.head? = some 126 := by
  match x with
  | [] => simp [Replace]
  | [c] => simp [Replace]
  | c :: d :: rest =>
    simp only [Replace]
    split
    · next h =>
      simp only [List.head?_cons, Option.some.injEq, h.1]
      constructor <;> intro h' <;> exact absurd h' (by decide)
    · simp

theorem mem_Replace (c : Byte) (h1 : c ≠ 92) (h2 : c ≠ 32) :
    ∀ x : GoString, (115 : Byte) ≠ c → (c ∈ Replace x ↔ c ∈ x)
  | [], _ => by simp [Replace]
  | [d], _ => by simp [Replace]
  | d :: e :: rest, h3 => by
    simp only [Replace]
    split
    · next h =>
      have ih := mem_Replace c h1 h2 rest h3
      simp only [List.mem_cons, ih, h.1, h.2]
      constructor
      · rintro (h' | h')
        · exact absurd h' h2
        · exact Or.inr (Or.inr h')
      · rintro (h' | h' | h')
        · exact absurd h' h1
        · exact absurd h'.symm h3
        · exact Or.inr h'
    · have ih := mem_Replace c h1 h2 (e :: rest) h3
      simp only [List.mem_cons] at ih ⊢
      rw [ih]
termination_by x => x.length

theorem Index_pos_iff (s : GoString) (c : Byte) (hh : s.head? = some 126) (hc : c ≠ 126) :
    Index s c > 0 ↔ c ∈ s := by
  cases s with
  | nil => simp at hh
  | cons h t =>
    simp only [List.head?_cons, Option.some.injEq] at hh
    subst hh
    unfold Index
    by_cases hm : c ∈ (126 : Byte) :: t
    · simp only [hm, if_true, iff_true]
      rw [List.indexOf_cons_ne _ (fun h => hc h.symm)]
      push_cast
      omega
    · simp [hm]

/-- The decoded token list of a line, in terms of its non-empty pieces. -/
theorem decoded_tokens_eq (line first : GoString) (following : List GoString)
    (hp : (Split line).filter (fun n => n ≠ []) = first :: following) :
    (collectTokens (Split line)).map Replace =
      Replace first ::
        ((dedupKeepFirst following).filter (fun y => y ≠ first)).map Replace := by
  rw [collectTokens_eq_dedup, hp, dedupKeepFirst, List.map_cons]

/-- The group of a line whose first token begins with `~`. -/
theorem parseLine_flagged (ct : CaseTables) (line first : GoString)
    (following : List GoString)
    (hp : (Split line).filter (fun n => n ≠ []) = first :: following)
    (hf : first.head? = some 126) :
    (((dedupKeepFirst following).filter (fun y => y ≠ first)) = [] →
      parseLine ct line = none) ∧
    (((dedupKeepFirst following).filter (fun y => y ≠ first)) ≠ [] →
      parseLine ct line = some
        { tokens :=
            if (99 : Byte) ∈ first then
              capitalize ct
                (((dedupKeepFirst following).filter (fun y => y ≠ first)).map Replace)
            else ((dedupKeepFirst following).filter (fun y => y ≠ first)).map Replace,
          flags := { UseAlways := decide ((97 : Byte) ∈ first),
                     Capitalize := decide ((99 : Byte) ∈ first) } }) := by
  have hdec := decoded_tokens_eq line first following hp
  have hpre : hasTildePrefix (Replace first) = true := by
    unfold hasTildePrefix
    simpa using (Replace_head first).2 hf
  have hRh : (Replace first).head? = some 126 := (Replace_head first).2 hf
  have hA : Index (Replace first) 97 > 0 ↔ (97 : Byte) ∈ first := by
    rw [Index_pos_iff _ _ hRh (by decide),
      mem_Replace 97 (by decide) (by decide) first (by decide)]
  have hC : Index (Replace first) 99 > 0 ↔ (99 : Byte) ∈ first := by
    rw [Index_pos_iff _ _ hRh (by decide),
      mem_Replace 99 (by decide) (by decide) first (by decide)]
  obtain ⟨_, hne⟩ := decoded_spec line
  rw [hdec] at hne
  constructor
  · intro hrest
    have hoth : ((dedupKeepFirst following).filter (fun y => y ≠ first)).map Replace = [] := by
      rw [hrest]
      rfl
    unfold parseLine
    simp only [hdec, hpre, if_true, hoth]
  · intro hrest
    have hoth : ((dedupKeepFirst following).filter (fun y => y ≠ first)).map Replace ≠ [] := by
      simpa using hrest
    have hne2 : ∀ x ∈ ((dedupKeepFirst following).filter (fun y => y ≠ first)).map Replace,
        x ≠ [] := fun x hx => hne x (List.mem_cons_of_mem _ hx)
    unfold parseLine
    simp only [hdec, hpre, if_true, hoth, if_false]
    by_cases hc : (99 : Byte) ∈ first
    · have hc' : Index (Replace first) 99 > 0 := hC.2 hc
      have hlen : (capitalize ct
          (((dedupKeepFirst following).filter (fun y => y ≠ first)).map Replace)).length > 0 :=
        List.length_pos.2 ((capitalize_aux ct _ [] List.nodup_nil (by simp)).2.2.1
          (by
            obtain ⟨x, hx⟩ := List.exists_mem_of_ne_nil _ hoth
            exact ⟨x, hx, hne2 x hx⟩))
      simp only [hc', decide_True, if_true, hlen, hc]
      congr 2
      simp [hA]
    · have hc' : ¬ Index (Replace first) 99 > 0 := fun h => hc (hC.1 h)
      have hlen : (((dedupKeepFirst following).filter (fun y => y ≠ first)).map
          Replace).length > 0 := List.length_pos.2 hoth
      simp only [hc', decide_False, Bool.false_eq_true, if_false, hlen, if_true, hc]
      congr 2
      simp [hA]

/-- The group of a line whose first token does not begin with `~`. -/
theorem parseLine_unflagged (ct : CaseTables) (line first : GoString)
    (following : List GoString)
    (hp : (Split line).filter (fun n => n ≠ []) = first :: following)
    (hf : first.head? ≠ some 126) :
    parseLine ct line = some
      { tokens := (dedupKeepFirst (first :: following)).map Replace,
        flags := { UseAlways := false, Capitalize := false } } := by
  have hdec := decoded_tokens_eq line first following hp
  have hpre : hasTildePrefix (Replace first) = false := by
    unfold hasTildePrefix
    simpa using fun h => hf ((Replace_head first).1 h)
  unfold parseLine
  simp only [hdec, hpre, Bool.false_eq_true, if_false, dedupKeepFirst, List.map_cons]

set_option maxRecDepth 100000 in
/-- C11 fails on the code for a token that starts with a multi-byte
character.  For the line `~c €5` (the euro sign is the three bytes E2 82 AC
and has no case, so the case tables leave it alone) the expression
`string(unicode.ToUpper([]rune(n)[0])) + n[1:]` drops one byte of `n`, not its
first character: both variants are the six bytes E2 82 AC 82 AC 35, and the
group holds this one token instead of `€5`.  For `~c cat` the group is
`Cat`, `cat`. -/
theorem C11_capitalize_multibyte_token :
    parseLine ⟨id, id⟩ [126, 99, 32, 226, 130, 172, 53] =
      some ⟨[[226, 130, 172, 130, 172, 53]], ⟨false, true⟩⟩ ∧
    parseLine ⟨id, id⟩ (ascii "~c cat") =
      some ⟨[ascii "Cat", ascii "cat"], ⟨false, true⟩⟩ := by
  constructor <;> decide

/-- The `Capitalize` expansion of one token that starts with an ASCII
byte. -/
theorem capitalize_single_ascii (ct : CaseTables) (c : Byte) (rest : GoString)
    (hc : c.val < 128) :
    capitalize ct [c :: rest] =
      safe_add [Fin.ofNat (if 97 ≤ c.val ∧ c.val ≤ 122 then c.val - 32 else c.val) :: rest]
        (Fin.ofNat (if 65 ≤ c.val ∧ c.val ≤ 90 then c.val + 32 else c.val) :: rest) := by
  unfold capitalize
  simp only [List.foldl_cons, List.foldl_nil, List.length_cons, gt_iff_lt,
    Nat.zero_lt_succ, if_true, upperFirst_ascii ct c rest hc, lowerFirst_ascii ct c rest hc]
  rfl

set_option maxRecDepth 100000 in
/-- C12 (amended). The `Capitalize` expansion of the single token `"A"`
yields the two tokens `"A"` and `"a"`, whatever the case tables for the
non-ASCII runes are, and so does the line `~c A`; the upper-first and the
lower-first variant coincide, leaving a singleton, for a token such as `"1"`
whose first character has no case. -/
theorem C12_capitalize_A_two_tokens (ct : CaseTables) :
    capitalize ct [ascii "A"] = [ascii "A", ascii "a"] ∧
    parseLine ct (ascii "~c A") = some ⟨[ascii "A", ascii "a"], ⟨false, true⟩⟩ ∧
    capitalize ct [ascii "1"] = [ascii "1"] := by
  have hA : ascii "A" = (65 : Byte) :: [] := by decide
  have h1 : ascii "1" = (49 : Byte) :: [] := by decide
  have hcapA : capitalize ct [ascii "A"] = [ascii "A", ascii "a"] := by
    rw [hA, capitalize_single_ascii ct 65 [] (by decide)]
    decide
  refine ⟨hcapA, ?_, ?_⟩
  · have hl : (collectTokens (Split (ascii "~c A"))).map Replace = ascii "~c" :: [ascii "A"] := by
      decide
    rw [parseLine_capitalize ct (ascii "~c A") (ascii "~c") [ascii "A"] hl (by decide)
      (by decide) (by decide)]
    have hfold : [ascii "A"].foldl
        (fun t x => safe_add (safe_add t (upperFirst ct x)) (lowerFirst ct x)) [] =
        capitalize ct [ascii "A"] := by
      have hpos : (ascii "A").length > 0 := by decide
      simp only [capitalize, List.foldl_cons, List.foldl_nil, hpos, if_true]
    rw [hfold, hcapA]
    decide
  · rw [h1, capitalize_single_ascii ct 49 [] (by decide)]
    decide

set_option maxRecDepth 100000 in
/-- C12 as stated fails: the expansion of `"A"` is not the singleton `"A"`;
the lower-first variant `"a"` is a second token. -/
theorem C12_capitalize_A_counterexample :
    capitalize ⟨id, id⟩ [ascii "A"] ≠ [ascii "A"] ∧
      capitalize ⟨id, id⟩ [ascii "A"] = [ascii "A", ascii "a"] := by
  constructor <;> decide

/-- C13 (amended). For every template line whose first token begins with
`~`: if no other token follows it (copies of the flag token apart) the line
yields no Group; otherwise the Group has `UseAlways` set if and only if the
flag token contains the character `a`, `Capitalize` set if and only if it
contains `c`, and the Group's tokens are the tokens that follow the flag token
on the line, decoded, deduplicated and in order, the flag token itself not
being one of them, when `Capitalize` is not set, and the `Capitalize` expansion
of these tokens when it is set.  A line whose first token does not begin with
`~` yields a Group with both flags false. -/
theorem C13_flag_token (ct : CaseTables) (line first : GoString)
    (following : List GoString)
    (hp : (Split line).filter (fun n => n ≠ []) = first :: following) :
    (first.head? = some 126 →
      (((dedupKeepFirst following).filter (fun y => y ≠ first)) = [] →
        parseLine ct line = none) ∧
      (((dedupKeepFirst following).filter (fun y => y ≠ first)) ≠ [] →
        parseLine ct line = some
          { tokens :=
              if (99 : Byte) ∈ first then
                capitalize ct
                  (((dedupKeepFirst following).filter (fun y => y ≠ first)).map Replace)
              else ((dedupKeepFirst following).filter (fun y => y ≠ first)).map Replace,
            flags := { UseAlways := decide ((97 : Byte) ∈ first),
                       Capitalize := decide ((99 : Byte) ∈ first) } })) ∧
    (first.head? ≠ some 126 →
      ∃ tokens, parseLine ct line =
        some { tokens := tokens, flags := { UseAlways := false, Capitalize := false } }) :=
  ⟨fun hf => parseLine_flagged ct line first following hp hf,
    fun hf => ⟨_, parseLine_unflagged ct line first following hp hf⟩⟩

set_option maxRecDepth 100000 in
/-- C13 (amended) at the line `~a x ~a y x`: the group is `UseAlways`, not
`Capitalize`, with the tokens `x`, `y`. -/
theorem C13_flag_token_witness :
    parseLine ⟨id, id⟩ (ascii "~a x ~a y x") =
      some ⟨[ascii "x", ascii "y"], ⟨true, false⟩⟩ :=
  (((C13_flag_token ⟨id, id⟩ (ascii "~a x ~a y x") (ascii "~a")
    [ascii "x", ascii "~a", ascii "y", ascii "x"] (by decide)).1 (by decide)).2
    (by decide)).trans (by decide)

set_option maxRecDepth 100000 in
/-- C13 as stated fails for a flag token that sets `Capitalize`: on the line
`~c cat` the only token after the flag token is `cat`, but the Group's tokens
are `Cat` and `cat`. -/
theorem C13_flag_token_counterexample :
    (Split (ascii "~c cat")).filter (fun n => n ≠ []) = [ascii "~c", ascii "cat"] ∧
      (parseLine ⟨id, id⟩ (ascii "~c cat")).map (fun g => g.tokens) =
        some [ascii "Cat", ascii "cat"] := by
  constructor <;> decide

set_option maxRecDepth 100000 in
/-- C14 (amended). `strings.Split(line, " ")` cuts the line at every space
(U+0020) and at nothing else: no piece contains a space, and the pieces joined
by single spaces give the line back.  For every template line whose first
token does not begin with `~`, the group's tokens are the non-empty pieces,
that is, the maximal runs of characters other than the space, in order of
first occurrence, with every `\s` decoded to a space; a token equal to `\s`
becomes the one-character token `" "`. -/
theorem C14_unflagged_line_tokens (ct : CaseTables) :
    (∀ line : GoString,
      (∀ p ∈ Split line, (32 : Byte) ∉ p) ∧ List.intercalate [32] (Split line) = line) ∧
    (∀ (line first : GoString) (following : List GoString),
      (Split line).filter (fun n => n ≠ []) = first :: following →
      first.head? ≠ some 126 →
      parseLine ct line = some
        { tokens := (dedupKeepFirst (first :: following)).map Replace,
          flags := { UseAlways := false, Capitalize := false } }) ∧
    parseLine ct (ascii "\\s") = some ⟨[ascii " "], ⟨false, false⟩⟩ := by
  refine ⟨fun line => ⟨fun p hp => splitAux_no_space line [] (by simp) p hp, ?_⟩,
    fun line first following hp hf => parseLine_unflagged ct line first following hp hf, ?_⟩
  · have := splitAux_join line []
    simpa [Split] using this
  · rw [parseLine_unflagged ct (ascii "\\s") (ascii "\\s") [] (by decide) (by decide)]
    decide

set_option maxRecDepth 100000 in
/-- C14 (amended) at the line `b a  b \s`: the tokens are `b`, `a` and the
space. -/
theorem C14_unflagged_line_tokens_witness :
    parseLine ⟨id, id⟩ (ascii "b a  b \\s") =
      some ⟨[ascii "b", ascii "a", ascii " "], ⟨false, false⟩⟩ :=
  ((C14_unflagged_line_tokens ⟨id, id⟩).2.1 (ascii "b a  b \\s") (ascii "b")
    [ascii "a", ascii "b", ascii "\\s"] (by decide) (by decide)).trans (by decide)

set_option maxRecDepth 100000 in
/-- C14 as stated fails: the line is not split on whitespace in general.  A
tab (byte 9) does not separate tokens: the line `a<TAB>b` yields the single
token `a<TAB>b`, which contains a whitespace character. -/
theorem C14_unflagged_line_tokens_counterexample :
    parseLine ⟨id, id⟩ [97, 9, 98] = some ⟨[[97, 9, 98]], ⟨false, false⟩⟩ ∧
      (9 : Byte) ∈ ([97, 9, 98] : GoString) := by
  constructor <;> decide

/-! ## The walk: order, invariant, lookups -/

theorem walk_head (tpl : List Group) :
    ∀ (fuel : Nat) (v : List Nat) (W : List (List Nat)),
      walk tpl fuel v = some W → W.head? = some v
  | 0, _, _, h => by simp [walk] at h
  | fuel + 1, v, W, h => by
    simp only [walk] at h
    split at h
    · simp only [Option.some.injEq] at h
      rw [← h]
      rfl
    · cases hW : walk tpl fuel (advance tpl v).1 with
      | none => simp [hW] at h
      | some W' =>
        simp only [hW, Option.map_some', Option.some.injEq] at h
        rw [← h]
        rfl

/-- The carry loop keeps every index inside its group's range, whether or
not it leaves the outer loop. -/
theorem validVector_advance :
    ∀ (tpl : List Group) (v : List Nat), validVector tpl v = true →
      validVector tpl (advance tpl v).1 = true
  | [], [], _ => by simp [advance, validVector]
  | [], _ :: _, h => by simp [validVector] at h
  | _ :: _, [], h => by simp [validVector] at h
  | g :: gs, k :: ks, h => by
    rw [validVector_cons] at h
    obtain ⟨hmin, hmax, hks⟩ := h
    simp only [advance]
    split
    · rw [validVector_cons]
      exact ⟨by omega, by omega, hks⟩
    · split
      · rw [validVector_cons]
        exact ⟨le_refl _, by omega, hks⟩
      · rw [validVector_cons]
        exact ⟨le_refl _, by omega, validVector_advance gs ks hks⟩

theorem validVector_iterate (tpl : List Group) (v : List Nat)
    (hv : validVector tpl v = true) :
    ∀ n : Nat, validVector tpl ((fun w => (advance tpl w).1)^[n] v) = true
  | 0 => hv
  | n + 1 => by
    rw [Function.iterate_succ_apply']
    exact validVector_advance tpl _ (validVector_iterate tpl v hv n)

theorem walk_valid (tpl : List Group) :
    ∀ (fuel : Nat) (v : List Nat) (W : List (List Nat)), validVector tpl v = true →
      walk tpl fuel v = some W → ∀ w ∈ W, validVector tpl w = true
  | 0, _, _, _, h => by simp [walk] at h
  | fuel + 1, v, W, hv, h => by
    simp only [walk] at h
    split at h
    · simp only [Option.some.injEq] at h
      intro w hw
      rw [← h, List.mem_singleton] at hw
      rw [hw]
      exact hv
    · cases hW : walk tpl fuel (advance tpl v).1 with
      | none => simp [hW] at h
      | some W' =>
        simp only [hW, Option.map_some', Option.some.injEq] at h
        intro w hw
        rw [← h] at hw
        rcases List.mem_cons.1 hw with h1 | h1
        · rw [h1]; exact hv
        · exact walk_valid tpl fuel _ W' (validVector_advance tpl v hv) hW w h1

/-- A valid vector, index by index. -/
theorem validVector_iff_forall₂ :
    ∀ (tpl : List Group) (v : List Nat), validVector tpl v = true ↔
      List.Forall₂ (fun g k => k ≤ g.tokens.length ∧ (g.flags.UseAlways = true → 1 ≤ k)) tpl v
  | [], [] => by simp [validVector]
  | [], _ :: _ => by simp [validVector]
  | _ :: _, [] => by simp [validVector]
  | g :: gs, k :: ks => by
    rw [validVector_cons, List.forall₂_cons, validVector_iff_forall₂ gs ks]
    have hm : minIndex g ≤ k ↔ (g.flags.UseAlways = true → 1 ≤ k) := by
      unfold minIndex
      split <;> simp_all
    rw [hm]
    tauto

/-- On a valid vector every lookup `templates[i][indexes[i]-1]` is in range,
and the letters are, group by group in template order, the token at the
index of each group whose index is not zero. -/
theorem selectLetters_eq_filterMap :
    ∀ (tpl : List Group) (w : List Nat), validVector tpl w = true →
      selectLetters tpl w = some ((List.zip tpl w).filterMap
        (fun p => if p.2 > 0 then p.1.tokens[p.2 - 1]? else none)) ∧
      ∀ p ∈ List.zip tpl w, p.2 > 0 → ∃ t, p.1.tokens[p.2 - 1]? = some t
  | [], [], _ => by simp [selectLetters]
  | [], _ :: _, h => by simp [validVector] at h
  | _ :: _, [], h => by simp [validVector] at h
  | g :: gs, k :: ks, h => by
    rw [validVector_cons] at h
    obtain ⟨ih1, ih2⟩ := selectLetters_eq_filterMap gs ks h.2.2
    by_cases hk : k > 0
    · have hk1 : k - 1 < g.tokens.length := by omega
      have hget : g.tokens[k - 1]? = some g.tokens[k - 1] := List.getElem?_eq_getElem hk1
      refine ⟨?_, ?_⟩
      · simp only [selectLetters, hk, if_true, hget, ih1, Option.map_some', List.zip_cons_cons,
          List.filterMap_cons]
      · intro p hp hp2
        rw [List.zip_cons_cons] at hp
        rcases List.mem_cons.1 hp with h1 | h1
        · rw [h1]
          exact ⟨_, hget⟩
        · exact ih2 p h1 hp2
    · refine ⟨?_, ?_⟩
      · simp only [selectLetters, hk, if_false, ih1, List.zip_cons_cons, List.filterMap_cons]
      · intro p hp hp2
        rw [List.zip_cons_cons] at hp
        rcases List.mem_cons.1 hp with h1 | h1
        · rw [h1] at hp2
          exact absurd hp2 hk
        · exact ih2 p h1 hp2

/-- C15. For every template with at least one group, all groups non-empty,
the generation loop ends within `radixProduct tpl` iterations of its carry
loop; the selection vectors it visits start with the vector of per-group
minima, the vector visited in iteration `i` has rank `i` in mixed-radix
counting order (group 0 least significant), every valid SelectionVector is
visited exactly once and no other vector is visited; the loop runs its body
over these vectors, and in keep-order mode the body hands to `test` the
template-order list of the selected tokens of the vector, which `test`
concatenates. -/
theorem C15_generation_walk (tpl : List Group) (htpl : tpl ≠ [])
    (hne : ∀ g ∈ tpl, g.tokens ≠ []) (fuel : Nat) (hfuel : radixProduct tpl ≤ fuel) :
    ∃ W, walk tpl fuel (initIndexes tpl) = some W ∧
      W.head? = some (initIndexes tpl) ∧
      W.map (rank tpl) = List.range (radixProduct tpl) ∧
      W.Nodup ∧ (∀ v, v ∈ W ↔ validVector tpl v = true) ∧
      (∀ (fl : Flags) (st : St), st.halted = false →
        generate fl tpl fuel st = some (W.foldl (bodyStep fl tpl) st)) ∧
      (∀ (fl : Flags) (st : St) (w : List Nat), fl.keep_order = true →
        st.halted = false → w ∈ W →
        bodyStep fl tpl st w = test fl ((List.zip tpl w).filterMap
          (fun p => if p.2 > 0 then p.1.tokens[p.2 - 1]? else none)) st) := by
  obtain ⟨W, hW, hmap, hperm⟩ := walk_initIndexes tpl htpl hne fuel hfuel
  have hnd : W.Nodup := List.Nodup.of_map (rank tpl) (by rw [hmap]; exact List.nodup_range _)
  have hmem : ∀ v, v ∈ W ↔ validVector tpl v = true :=
    fun v => (hperm.mem_iff).trans (mem_validVectors tpl v)
  refine ⟨W, hW, walk_head tpl fuel _ W hW, hmap, hnd, hmem, ?_, ?_⟩
  · intro fl st hh
    exact mainLoop_eq_walk fl tpl fuel _ st W hh hW
  · intro fl st w hk hh hw
    have hsel := (selectLetters_eq_filterMap tpl w ((hmem w).1 hw)).1
    simp [bodyStep, hh, hsel, processSelection, hk]

set_option maxRecDepth 100000 in
/-- C15 at a template of a `UseAlways` group of two tokens and a free group
of one token: the walk visits (1,0), (2,0), (1,1), (2,1). -/
theorem C15_generation_walk_witness :
    ∃ W, walk [⟨[ascii "a", ascii "b"], ⟨true, false⟩⟩, ⟨[ascii "x"], ⟨false, false⟩⟩] 4
        (initIndexes [⟨[ascii "a", ascii "b"], ⟨true, false⟩⟩, ⟨[ascii "x"], ⟨false, false⟩⟩])
          = some W ∧
      W = [[1, 0], [2, 0], [1, 1], [2, 1]] := by
  obtain ⟨W, hW, _⟩ := C15_generation_walk
    [⟨[ascii "a", ascii "b"], ⟨true, false⟩⟩, ⟨[ascii "x"], ⟨false, false⟩⟩]
    (by decide) (by decide) 4 (by decide)
  refine ⟨W, hW, ?_⟩
  have h2 : walk [⟨[ascii "a", ascii "b"], ⟨true, false⟩⟩, ⟨[ascii "x"], ⟨false, false⟩⟩] 4
      (initIndexes [⟨[ascii "a", ascii "b"], ⟨true, false⟩⟩, ⟨[ascii "x"], ⟨false, false⟩⟩])
        = some [[1, 0], [2, 0], [1, 1], [2, 1]] := by decide
  rw [h2] at hW
  exact (Option.some.inj hW).symm

/-- C17. Walk invariant, for every template whose groups are non-empty: the
initial `indexes` and the `indexes` after any number of runs of the carry loop
(the only code that changes `indexes` in the tally loop and in the generation
loop) satisfy, for every group `i`, `0 ≤ indexes[i] ≤ len(templates[i])`, and
`indexes[i] ≥ 1` when the group is `UseAlways`.  For every such vector each
lookup `templates[i][indexes[i]-1]` made for an index greater than zero is in
range, and the selected letters are, in template order, one token for every
group with a non-zero index, hence exactly one token of each `UseAlways`
group. -/
theorem C17_walk_invariant (tpl : List Group) (hne : ∀ g ∈ tpl, g.tokens ≠ []) (n : Nat) :
    List.Forall₂ (fun g k => k ≤ g.tokens.length ∧ (g.flags.UseAlways = true → 1 ≤ k))
      tpl ((fun w => (advance tpl w).1)^[n] (initIndexes tpl)) ∧
    selectLetters tpl ((fun w => (advance tpl w).1)^[n] (initIndexes tpl)) =
      some ((List.zip tpl ((fun w => (advance tpl w).1)^[n] (initIndexes tpl))).filterMap
        (fun p => if p.2 > 0 then p.1.tokens[p.2 - 1]? else none)) ∧
    (∀ p ∈ List.zip tpl ((fun w => (advance tpl w).1)^[n] (initIndexes tpl)),
      (p.2 > 0 → ∃ t, p.1.tokens[p.2 - 1]? = some t) ∧
      (p.1.flags.UseAlways = true → p.2 > 0)) ∧
    (∀ (fuel : Nat) (W : List (List Nat)), walk tpl fuel (initIndexes tpl) = some W →
      ∀ w ∈ W, validVector tpl w = true) := by
  have hv0 := validVector_initIndexes tpl hne
  have hv := validVector_iterate tpl (initIndexes tpl) hv0 n
  have hf := (validVector_iff_forall₂ tpl _).1 hv
  obtain ⟨h1, h2⟩ := selectLetters_eq_filterMap tpl _ hv
  refine ⟨hf, h1, fun p hp => ⟨h2 p hp, fun hu => ?_⟩,
    fun fuel W hW => walk_valid tpl fuel _ W hv0 hW⟩
  have hp' : (p.1, p.2) ∈ List.zip tpl ((fun w => (advance tpl w).1)^[n] (initIndexes tpl)) := hp
  have h3 := (List.forall₂_zip hf hp').2 hu
  omega

set_option maxRecDepth 100000 in
/-- C17 at a template of a `UseAlways` group of two tokens and a free group
of one token, after three runs of the carry loop: the indexes are (2,1) and
the letters are `b`, `x`. -/
theorem C17_walk_invariant_witness :
    selectLetters [⟨[ascii "a", ascii "b"], ⟨true, false⟩⟩, ⟨[ascii "x"], ⟨false, false⟩⟩]
      ((fun w => (advance
        [⟨[ascii "a", ascii "b"], ⟨true, false⟩⟩, ⟨[ascii "x"], ⟨false, false⟩⟩] w).1)^[3]
        (initIndexes [⟨[ascii "a", ascii "b"], ⟨true, false⟩⟩, ⟨[ascii "x"], ⟨false, false⟩⟩]))
      = some [ascii "b", ascii "x"] :=
  (C17_walk_invariant
    [⟨[ascii "a", ascii "b"], ⟨true, false⟩⟩, ⟨[ascii "x"], ⟨false, false⟩⟩]
    (by decide) 3).2.1.trans (by decide)

/-! ## A template without groups -/

theorem tallyLoop_nil : ∀ (fuel : Nat) (v : List Nat) (cs : List Int),
    tallyLoop [] fuel v cs = none
  | 0, _, _ => rfl
  | fuel + 1, v, cs => by
    simp only [tallyLoop, advance, Bool.false_eq_true, if_false]
    exact tallyLoop_nil fuel v _

theorem processSelection_nil_halted (fl : Flags) (st : St) :
    (processSelection fl [] st).halted = st.halted := by
  unfold processSelection
  split
  · simp [test, concat]
  · split
    · rfl
    · by_cases hh : st.halted = true <;>
        simp [AllPermutations, AllPermutationsAux, testAll, test, concat, hh]

theorem mainLoop_nil (fl : Flags) : ∀ (fuel : Nat) (v : List Nat) (st : St),
    st.halted = false → mainLoop fl [] fuel v st = none
  | 0, _, _, _ => rfl
  | fuel + 1, v, st, hh => by
    have h1 : (processSelection fl [] st).halted = false :=
      (processSelection_nil_halted fl st).trans hh
    simp only [mainLoop, selectLetters, h1, advance, Bool.false_eq_true, if_false]
    exact mainLoop_nil fl fuel v _ h1

set_option maxRecDepth 100000 in
/-- C16 fails on the code for a template without groups.  A template file
that is empty, or whose lines yield no group (such as the single line `~a`),
leaves `templates` empty; the carry loop then has no iteration, the labelled
`break` is never reached, and neither the tally loop nor the generation loop
ends, whatever the number of iterations allowed. -/
theorem C16_no_group_no_termination :
    parseTemplate ⟨id, id⟩ [ascii "~a"] = [] ∧
    (∀ fuel : Nat, unorderedTotal [] fuel = none) ∧
    (∀ (fl : Flags) (fuel : Nat),
      generate fl [] fuel ⟨⟨0, 0, 0, 0, 1, 1⟩, [], false⟩ = none) := by
  refine ⟨by decide, fun fuel => ?_, fun fl fuel => ?_⟩
  · simp [unorderedTotal, tallyLoop_nil]
  · exact mainLoop_nil fl fuel _ _ rfl

/-- For a template with at least one group, all groups non-empty, both loops
end: the tally pass and the generation loop return within
`radixProduct tpl` iterations. -/
theorem loops_terminate (fl : Flags) (tpl : List Group) (htpl : tpl ≠ [])
    (hne : ∀ g ∈ tpl, g.tokens ≠ []) (fuel : Nat) (hfuel : radixProduct tpl ≤ fuel)
    (st : St) (hh : st.halted = false) :
    (∃ total, unorderedTotal tpl fuel = some total) ∧
      ∃ st', generate fl tpl fuel st = some st' := by
  obtain ⟨W, hW, _, _⟩ := walk_initIndexes tpl htpl hne fuel hfuel
  exact ⟨⟨_, unorderedTotal_eq_wrap tpl htpl hne fuel hfuel⟩,
    ⟨_, mainLoop_eq_walk fl tpl fuel _ st W hh hW⟩⟩

/-! ## The stop sentinel -/

theorem sentStrings_append (a b : List Event) :
    sentStrings (a ++ b) = sentStrings a ++ sentStrings b := by
  induction a with
  | nil => rfl
  | cons e a ih => cases e <;> simp [sentStrings, ih]

/-- `test` never sends the empty string on a worker channel. -/
theorem test_no_empty_send (fl : Flags) (l : List GoString) (st : St)
    (h : ([] : GoString) ∉ sentStrings st.out) :
    ([] : GoString) ∉ sentStrings (test fl l st).out := by
  unfold test
  simp only
  split_ifs with h1 h2 h3 h4 h5 h6 h7 h8 h9
  all_goals first
    | exact h
    | (simp only [sentStrings_append, List.mem_append, not_or]
       refine ⟨h, ?_⟩
       simp only [sentStrings, List.mem_singleton, List.not_mem_nil, not_false_eq_true]
       try exact fun h' => h1 h'.symm)

theorem testAll_no_empty_send (fl : Flags) :
    ∀ (calls : List (List GoString)) (st : St), ([] : GoString) ∉ sentStrings st.out →
      ([] : GoString) ∉ sentStrings (testAll fl calls st).out
  | [], _, h => h
  | q :: calls, st, h => by
    by_cases hh : st.halted = true
    · have hstep : testAll fl (q :: calls) st = testAll fl calls st := by
        simp [testAll, hh]
      rw [hstep]
      exact testAll_no_empty_send fl calls st h
    · have hstep : testAll fl (q :: calls) st = testAll fl calls (test fl q st) := by
        simp [testAll, hh]
      rw [hstep]
      exact testAll_no_empty_send fl calls _ (test_no_empty_send fl q st h)

theorem bodyStep_no_empty_send (fl : Flags) (tpl : List Group) (st : St) (w : List Nat)
    (h : ([] : GoString) ∉ sentStrings st.out) :
    ([] : GoString) ∉ sentStrings (bodyStep fl tpl st w).out := by
  unfold bodyStep
  split
  · exact h
  · split
    · exact h
    · unfold processSelection
      split
      · exact test_no_empty_send fl _ st h
      · split
        · exact h
        · exact testAll_no_empty_send fl _ st h

/-- In template mode, in keep-order and in unordered mode alike, no string
sent on a worker channel by the generation loop is empty. -/
theorem mainLoop_no_empty_send (fl : Flags) (tpl : List Group) :
    ∀ (fuel : Nat) (v : List Nat) (st st' : St), ([] : GoString) ∉ sentStrings st.out →
      mainLoop fl tpl fuel v st = some st' → ([] : GoString) ∉ sentStrings st'.out
  | 0, _, _, _, _, h => by simp [mainLoop] at h
  | fuel + 1, v, st, st', hs, h => by
    simp only [mainLoop] at h
    split at h
    · simp only [Option.some.injEq] at h
      rw [← h]
      exact hs
    · next letters hsel =>
      have hb : ([] : GoString) ∉ sentStrings (processSelection fl letters st).out := by
        unfold processSelection
        split
        · exact test_no_empty_send fl _ st hs
        · split
          · exact hs
          · exact testAll_no_empty_send fl _ st hs
      split at h
      · simp only [Option.some.injEq] at h
        rw [← h]
        exact hb
      · split at h
        · simp only [Option.some.injEq] at h
          rw [← h]
          exact hb
        · exact mainLoop_no_empty_send fl tpl fuel _ _ st' hb h

set_option maxRecDepth 100000 in
/-- C18 fails on the code for a variant list with an empty line.  With four
threads and the list file of the three lines `abc`, (empty), `def`, the loop
over the list sends every line as it is: after `abc` the empty string goes out
on a worker channel, where the worker takes it for the stop sentinel and exits
before the list is exhausted. -/
theorem C18_empty_line_sent_as_sentinel :
    sentStrings (listLoop ⟨8, 20, 4, false, false⟩ [ascii "abc", []]
        ⟨⟨0, 0, 3, 0, 1, 1⟩, [], false⟩).out = [ascii "abc", []] ∧
    ([] : GoString) ∈ sentStrings
      (listLoop ⟨8, 20, 4, false, false⟩ [ascii "abc", [], ascii "def"]
        ⟨⟨0, 0, 3, 0, 1, 1⟩, [], false⟩).out := by
  constructor <;> decide

/-! ## The progress messages of `test` -/

/-- On the skip path of `test`, as the code stands: when the new
`N + Skipped` exceeds `Start_from` the only message that can be emitted is the
"Skipping first" message, and when it does not exceed `Start_from` the only
message that can be emitted is the normal progress message. -/
theorem test_skip_messages (fl : Flags) (l : List GoString) (st : St) (hs : concat l ≠ [])
    (hr : ((concat l).length : Int) < fl.min_len ∨ ((concat l).length : Int) > fl.max_len) :
    (wrapInt (st.params.N + wrapInt (st.params.Skipped + 1)) > st.params.Start_from →
      (test fl l st).out = st.out ∨
        ∃ a b c d, (test fl l st).out = st.out ++ [Event.skippingMsg a b c d]) ∧
    (¬ wrapInt (st.params.N + wrapInt (st.params.Skipped + 1)) > st.params.Start_from →
      (test fl l st).out = st.out ∨
        ∃ a b c d, (test fl l st).out = st.out ++ [Event.progressMsg a b c d]) := by
  unfold test
  simp only [hs, if_false, hr, if_true]
  constructor
  · intro hc
    simp only [hc, if_true]
    split_ifs
    · exact Or.inr ⟨_, _, _, _, rfl⟩
    · exact Or.inl rfl
  · intro hc
    simp only [hc, if_false]
    split_ifs
    · exact Or.inl rfl
    · exact Or.inl rfl
    · exact Or.inr ⟨_, _, _, _, rfl⟩
    · exact Or.inl rfl

set_option maxRecDepth 100000 in
/-- C19 fails on the code: the two branches are the wrong way round.  With
`Start_from = 5`, `N = 0` and `Skipped = 99999`, a skipped candidate makes
`N + Skipped = 100000 > Start_from` and `test` prints the "Skipping first"
message; with `Start_from = 100`, `N = 0` and `Skipped = 9`, a skipped
candidate makes `N + Skipped = 10 ≤ Start_from` and `test` prints the normal
progress message. -/
theorem C19_progress_messages_swapped :
    (test ⟨8, 20, 1, true, false⟩ [ascii "a"] ⟨⟨0, 99999, 1000000, 5, 1, 1⟩, [], false⟩).out =
      [Event.skippingMsg 5 100000 2000000 100000] ∧
    (test ⟨8, 20, 1, true, false⟩ [ascii "a"] ⟨⟨0, 9, 1000, 100, 1, 1⟩, [], false⟩).out =
      [Event.progressMsg 10 1000 1 10] := by
  constructor <;> decide

/-! ## Monotonicity of `Skipped` -/

theorem test_skipped_cases (fl : Flags) (l : List GoString) (st : St) :
    (test fl l st).params.Skipped = st.params.Skipped ∨
      (test fl l st).params.Skipped = wrapInt (st.params.Skipped + 1) := by
  unfold test
  simp only [Test_pass]
  split_ifs <;> first | exact Or.inl rfl | exact Or.inr rfl

theorem testAll_skipped_bounds (fl : Flags) :
    ∀ (calls : List (List GoString)) (st : St), minInt ≤ st.params.Skipped →
      st.params.Skipped + (calls.length : Int) ≤ maxInt →
      st.params.Skipped ≤ (testAll fl calls st).params.Skipped ∧
        (testAll fl calls st).params.Skipped ≤ st.params.Skipped + (calls.length : Int)
  | [], st, _, _ => by simp [testAll]
  | q :: calls, st, h1, h2 => by
    simp only [List.length_cons, Nat.cast_add, Nat.cast_one] at h2 ⊢
    have hnn : (0 : Int) ≤ (calls.length : Int) := Int.natCast_nonneg _
    by_cases hh : st.halted = true
    · have hstep : testAll fl (q :: calls) st = testAll fl calls st := by
        simp [testAll, hh]
      rw [hstep]
      have ih := testAll_skipped_bounds fl calls st h1 (by omega)
      omega
    · have hstep : testAll fl (q :: calls) st = testAll fl calls (test fl q st) := by
        simp [testAll, hh]
      rw [hstep]
      have hw : wrapInt (st.params.Skipped + 1) = st.params.Skipped + 1 :=
        wrapInt_of_range _ (by omega) (by omega)
      rcases test_skipped_cases fl q st with hc | hc
      · have ih := testAll_skipped_bounds fl calls (test fl q st) (by rw [hc]; exact h1)
          (by rw [hc]; omega)
        rw [hc] at ih
        omega
      · rw [hw] at hc
        have ih := testAll_skipped_bounds fl calls (test fl q st) (by rw [hc]; omega)
          (by rw [hc]; omega)
        rw [hc] at ih
        omega

/-- C20 (amended). `Skipped` does not decrease in a step of the generation
loop as long as the Go `int` does not overflow: for every selection of `s`
letters and every state in which `Skipped` is a Go `int` with
`Skipped + s! ≤ 2^63 - 1`, the call `test(letters)` and the processing of the
selection in either mode (the increment by `fact(len(letters))` of the
pre-permutation filter included) leave `Skipped` greater than or equal to its
previous value. -/
theorem C20_skipped_monotone_no_overflow (fl : Flags) (letters : List GoString) (st : St)
    (hS1 : minInt ≤ st.params.Skipped)
    (hS2 : st.params.Skipped + (letters.length.factorial : Int) ≤ maxInt) :
    st.params.Skipped ≤ (test fl letters st).params.Skipped ∧
      st.params.Skipped ≤ (processSelection fl letters st).params.Skipped := by
  have hpos : (1 : Int) ≤ (letters.length.factorial : Int) := by
    exact_mod_cast Nat.factorial_pos letters.length
  have htest : st.params.Skipped ≤ (test fl letters st).params.Skipped := by
    rcases test_skipped_cases fl letters st with hc | hc
    · rw [hc]
    · rw [hc, wrapInt_of_range _ (by omega) (by omega)]
      omega
  refine ⟨htest, ?_⟩
  unfold processSelection
  split
  · exact htest
  · split
    · have hw : wrapInt (st.params.Skipped + fact letters.length) =
          st.params.Skipped + (letters.length.factorial : Int) := by
        rw [wrapInt_congr ((fact_modEq letters.length).add_left st.params.Skipped)]
        exact wrapInt_of_range _ (by omega) hS2
      simp only
      rw [hw]
      omega
    · exact (testAll_skipped_bounds fl _ st hS1
        (by rw [AllPermutations_length]; exact hS2)).1

set_option maxRecDepth 100000 in
/-- C20 (amended) at the selection `["a", "b", "c"]` in unordered mode with
`max_len = 2`: `Skipped` goes from 4 to 10. -/
theorem C20_skipped_monotone_no_overflow_witness :
    (4 : Int) ≤ (processSelection ⟨1, 2, 4, false, false⟩ [ascii "a", ascii "b", ascii "c"]
        ⟨⟨0, 4, 18, 0, 1, 1⟩, [], false⟩).params.Skipped ∧
      (processSelection ⟨1, 2, 4, false, false⟩ [ascii "a", ascii "b", ascii "c"]
        ⟨⟨0, 4, 18, 0, 1, 1⟩, [], false⟩).params.Skipped = 10 :=
  ⟨(C20_skipped_monotone_no_overflow ⟨1, 2, 4, false, false⟩
      [ascii "a", ascii "b", ascii "c"] ⟨⟨0, 4, 18, 0, 1, 1⟩, [], false⟩
      (by decide) (by decide)).2, by decide⟩

set_option maxRecDepth 100000 in
/-- C20 as stated fails: with `max_len = 20` and 21 selected one-byte tokens
the pre-permutation filter adds `fact(21)`, which has overflowed to a
negative Go `int`, and `Skipped` falls from 7 to
`7 - 4249290049419214848`. -/
theorem C20_skipped_monotone_counterexample :
    (processSelection ⟨8, 20, 4, false, false⟩ (List.replicate 21 (ascii "b"))
        ⟨⟨0, 7, 1, 0, 1, 1⟩, [], false⟩).params.Skipped = -4249290049419214841 ∧
      (-4249290049419214841 : Int) < 7 := by
  constructor <;> decide

/-! ## No division by zero in `test` -/

/-- When `Total ≠ 0`, the report interval is a positive Go `int` and there
is at least one thread, every divisor met by `test` is non-zero, and `test`
does not panic unless the channel index of the send is out of range. -/
theorem test_divisors_ne_zero (fl : Flags) (l : List GoString) (st : St)
    (hT : st.params.Total ≠ 0) (hRE1 : 1 ≤ st.params.RE) (hRE2 : st.params.RE ≤ maxInt)
    (hthr : 1 ≤ fl.n_threads) :
    (∀ d ∈ testDivisors fl l st, d ≠ 0) ∧
      (canForward fl st.params = true → (test fl l st).halted = st.halted) := by
  have hRE := wrapInt_RE_ne_zero _ hRE1 hRE2
  constructor
  · intro d hd
    unfold testDivisors at hd
    simp only at hd
    split_ifs at hd with h1 h2 h3 h4 h5 h6 h7 h8
    all_goals
      simp only [List.mem_cons, List.mem_singleton, List.not_mem_nil, or_false] at hd
    · rcases hd with h | h | h | h | h | h | h <;> rw [h] <;> first | decide | omega
    · rw [hd]; decide
    · rcases hd with h | h | h | h | h | h | h <;> rw [h] <;>
        first | decide | exact hRE | exact hT
    · rw [hd]; exact hRE
    · rw [hd]; omega
  · intro hc
    rw [canForward_iff] at hc
    unfold test
    simp only
    split_ifs <;> first | rfl | (rcases hc with h | h | h <;> contradiction)

/-- The precomputed `Total` of a template with at least one group, all
groups non-empty, is at least 1 when the count of candidates fits a Go
`int`. -/
theorem templateTotal_pos (tpl : List Group) (htpl : tpl ≠ [])
    (hne : ∀ g ∈ tpl, g.tokens ≠ []) (fl : Flags) (fuel : Nat)
    (hfuel : radixProduct tpl ≤ fuel)
    (hfit : (if fl.keep_order then (radixProduct tpl : Int)
      else (unorderedTotalSpec tpl : Int)) ≤ maxInt) :
    ∃ T, templateTotal fl tpl fuel = some T ∧ 1 ≤ T := by
  unfold templateTotal
  cases hk : fl.keep_order with
  | true =>
    rw [hk] at hfit
    simp only [if_true] at hfit ⊢
    refine ⟨_, rfl, ?_⟩
    rw [orderedTotal_of_fit tpl hfit]
    exact orderedTotalSpec_pos tpl htpl hne
  | false =>
    rw [hk] at hfit
    simp only [Bool.false_eq_true, if_false] at hfit ⊢
    refine ⟨_, unorderedTotal_eq_wrap tpl htpl hne fuel hfuel, ?_⟩
    have h1 := radixProduct_pos tpl hne
    have h2 := radixProduct_le_unorderedTotalSpec tpl
    rw [wrapInt_of_range _ (by unfold minInt; omega) hfit]
    omega

/-- C21 (amended). For every template with at least one group, all groups
non-empty, whose number of candidates fits a Go `int` (the product of the
group radices in keep-order mode, `Σ_s C(s) * s!` in unordered mode), the
precomputation of `Total` ends and gives a value of at least 1; and in every
state whose `Total` is that value, with a report interval `1 ≤ RE` and at
least one thread, every divisor of an integer division or remainder that
`test` evaluates is non-zero; and `test` does not panic at all when, in
addition, the channel index of the send is in range (as it is for
`params.N ≥ 0`). -/
theorem C21_total_pos_no_zero_divisor (tpl : List Group) (htpl : tpl ≠ [])
    (hne : ∀ g ∈ tpl, g.tokens ≠ []) (fl : Flags) (fuel : Nat)
    (hfuel : radixProduct tpl ≤ fuel)
    (hfit : (if fl.keep_order then (radixProduct tpl : Int)
      else (unorderedTotalSpec tpl : Int)) ≤ maxInt)
    (hthr : 1 ≤ fl.n_threads) :
    ∃ T, templateTotal fl tpl fuel = some T ∧ 1 ≤ T ∧
      ∀ (l : List GoString) (st : St), st.params.Total = T → 1 ≤ st.params.RE →
        st.params.RE ≤ maxInt →
        (∀ d ∈ testDivisors fl l st, d ≠ 0) ∧
          (canForward fl st.params = true → (test fl l st).halted = st.halted) ∧
          (0 ≤ st.params.N → (test fl l st).halted = st.halted) := by
  obtain ⟨T, hT, hpos⟩ := templateTotal_pos tpl htpl hne fl fuel hfuel hfit
  refine ⟨T, hT, hpos, ?_⟩
  intro l st hst h1 h2
  obtain ⟨hd, hh⟩ := test_divisors_ne_zero fl l st (by omega) h1 h2 hthr
  exact ⟨hd, hh, fun hN => hh (canForward_of_nonneg fl st.params hthr hN)⟩

set_option maxRecDepth 100000 in
/-- C21 (amended) at the groups `{a, b}` and `{x}` (`UseAlways`) in unordered
mode with four threads: `Total` is `1 * 1! + 2 * 2! = 5`, and the call of `test`
on the too short candidate `a` in a state with `Total = 5`, `RE = 1` and nine
candidates skipped before meets the divisors `10` and `5` and does not
panic. -/
theorem C21_total_pos_no_zero_divisor_witness :
    templateTotal ⟨2, 20, 4, false, false⟩
        [⟨[ascii "a", ascii "b"], ⟨false, false⟩⟩, ⟨[ascii "x"], ⟨true, false⟩⟩] 4 = some 5 ∧
      testDivisors ⟨2, 20, 4, false, false⟩ [ascii "a"] ⟨⟨0, 9, 5, 100, 1, 0⟩, [], false⟩ =
        [10, 5, 8760, 8760, 24, 24, 60] ∧
      (∀ d ∈ testDivisors ⟨2, 20, 4, false, false⟩ [ascii "a"]
          ⟨⟨0, 9, 5, 100, 1, 0⟩, [], false⟩, d ≠ 0) ∧
      (test ⟨2, 20, 4, false, false⟩ [ascii "a"] ⟨⟨0, 9, 5, 100, 1, 0⟩, [], false⟩).halted =
        false := by
  obtain ⟨T, hT, _, h⟩ := C21_total_pos_no_zero_divisor
    [⟨[ascii "a", ascii "b"], ⟨false, false⟩⟩, ⟨[ascii "x"], ⟨true, false⟩⟩]
    (by decide) (by decide) ⟨2, 20, 4, false, false⟩ 4 (by decide) (by decide) (by decide)
  have hT5 : T = 5 := Option.some.inj (hT.symm.trans (by decide))
  obtain ⟨hd, _, hh⟩ :=
    h [ascii "a"] ⟨⟨0, 9, 5, 100, 1, 0⟩, [], false⟩ hT5.symm (by decide) (by decide)
  exact ⟨by decide, by decide, hd, hh (by decide)⟩

set_option maxRecDepth 100000 in
/-- C21 as stated fails when the count of candidates overflows the Go `int`.
The 64 lines `~a a b` parse into 64 `UseAlways` groups of two tokens; in
keep-order mode `Total` is `2^64` reduced to 64 bits, that is `0`.  With
`-start_from 1000` and the default `-re 1` and `-max_len 20`, every candidate
of 64 characters is skipped and the tenth call of `test` divides by `Total`:
the run panics.  In unordered mode 66 `UseAlways` groups of one token give
`Total = 66!` reduced to 64 bits, `0` as well. -/
theorem C21_total_zero_counterexample :
    parseTemplate ⟨id, id⟩ (List.replicate 64 (ascii "~a a b")) =
        List.replicate 64 ⟨[ascii "a", ascii "b"], ⟨true, false⟩⟩ ∧
      templateTotal ⟨1, 20, 1, true, false⟩
        (List.replicate 64 ⟨[ascii "a", ascii "b"], ⟨true, false⟩⟩) 0 = some 0 ∧
      (0 : Int) ∈ testDivisors ⟨1, 20, 1, true, false⟩ (List.replicate 64 (ascii "a"))
        ⟨⟨0, 9, 0, 1000, 1, 0⟩, [], false⟩ ∧
      (test ⟨1, 20, 1, true, false⟩ (List.replicate 64 (ascii "a"))
        ⟨⟨0, 9, 0, 1000, 1, 0⟩, [], false⟩).halted = true ∧
      generate ⟨1, 20, 1, true, false⟩
        (List.replicate 64 ⟨[ascii "a", ascii "b"], ⟨true, false⟩⟩) 10
        ⟨⟨0, 0, 0, 1000, 1, 0⟩, [], false⟩ = some ⟨⟨0, 10, 0, 1000, 1, 0⟩, [], true⟩ ∧
      templateTotal ⟨1, 20, 1, false, false⟩
        (List.replicate 66 ⟨[ascii "a"], ⟨true, false⟩⟩) 1 = some 0 := by
  refine ⟨by decide, by decide, by decide, by decide, by decide, by decide⟩

end Ethcracker
